import Mathlib

/-!
# gemirson/workpool: task state machine, priority queue and pool coordinator

A shallow embedding of `internal/task/task.go` and of the scheduling core of
`internal/scheduler/scheduler.go` (which `pkg/scheduler/scheduler.go` repeats
verbatim for `priorityTask`, `priorityQueue`, `Submit`, `Cancel` and the
critical section of `worker`), followed by the theorems that settle the
claims of the specification.

Pointers are modelled by addresses into explicit object stores: a
`*task.Task` is a position in `World.tasks`, a `*priorityTask` a position in
`priorityQueue.mem`.  A Go panic (index out of range, nil dereference) and a
blocked worker are the result `none`.  The callback of a task is kept as the
way its call ends (`Callback`: it returns, panics, or never returns), and the
calls of `Execute` and `Cancel` on one task are also given as sequences of
their atomic operations (`TaskRun`).  The worker loop and `Shutdown` of both
copies of the scheduler are modelled as goroutines of a transition system
(`Sys`), with the mutex and the workers' channels.
-/

set_option autoImplicit false

namespace workpool

/-! ## `internal/task/task.go` -/

/-- The four values of `TaskState` (`Pending = iota`, ...). -/
inductive TaskState where
  | Pending
  | Running
  | Completed
  | Cancelled
  deriving DecidableEq, Repr, Inhabited

/-- What the call `t.action()` of the callback given to `NewTask` does: it
returns; it panics (so does the call of a nil function value); or it never
returns.  `Task.Execute` has no `recover`, so a panic of the callback leaves
`Execute` at once. -/
inductive Callback where
  | returns
  | panics
  | hangs
  deriving DecidableEq, Repr, Inhabited

/-- The struct `Task`.  `cancel` is the `int32` flag, `cancelChanClosed`
records whether `cancelChan` has been closed.  Of the callback `action` what is
kept is how its call ends, and the ghost field `actionCalls` counts the calls
`t.action()` made so far. -/
structure Task where
  id : String
  action : Callback
  cancel : Int
  cancelChanClosed : Bool
  state : TaskState
  actionCalls : Nat
  deriving DecidableEq, Repr, Inhabited

/-- The function `NewTask(action)`; the identifier drawn by `uuid.New()` is the
argument `id`. -/
def NewTask (id : String) (action : Callback) : Task :=
  { id := id, action := action, cancel := 0, cancelChanClosed := false,
    state := TaskState.Pending, actionCalls := 0 }

/-- The stores of task.go lines 48 and 51, given the value the load of line 47
has seen (`flagSet` when it was `1`): store `Cancelled` and return, or store
`Running`.  The boolean tells whether control goes on to the callback. -/
def Task.executeStore (t : Task) (flagSet : Bool) : Task × Bool :=
  if flagSet then ({ t with state := TaskState.Cancelled }, false)
  else ({ t with state := TaskState.Running }, true)

/-- First part of `Task.Execute` (task.go lines 47-51), run without
interruption: load the flag; if it is `1` store `Cancelled` and return,
otherwise store `Running`.  The boolean tells whether control goes on to the
callback. -/
def Task.executeBegin (t : Task) : Task × Bool :=
  if t.cancel = 1 then ({ t with state := TaskState.Cancelled }, false)
  else ({ t with state := TaskState.Running }, true)

/-- Second part of `Task.Execute` (task.go lines 52-53): call `t.action()`;
when the call returns, store `Completed`; when it panics or never returns the
store is not reached and the state stays as it is. -/
def Task.executeEnd (t : Task) : Task :=
  match t.action with
  | Callback.returns =>
    { t with actionCalls := t.actionCalls + 1, state := TaskState.Completed }
  | Callback.panics => { t with actionCalls := t.actionCalls + 1 }
  | Callback.hangs => { t with actionCalls := t.actionCalls + 1 }

/-- The task after the call `t.Execute()`, run without interruption, whether
the call returns or is left by a panic of the callback (or stays in it). -/
def Task.Execute (t : Task) : Task :=
  if (t.executeBegin).2 then (t.executeBegin).1.executeEnd else (t.executeBegin).1

/-- The call `t.Execute()` returns to its caller: the callback is not reached,
or it returns. -/
def Task.ExecuteReturns (t : Task) : Bool :=
  !(t.executeBegin).2 || decide (t.action = Callback.returns)

/-- The first statement of `Task.Cancel`:
`CompareAndSwapInt32(&t.cancel, 0, 1)`, and on success `close(t.cancelChan)`.
The boolean is the result of the swap. -/
def Task.cancelSwap (t : Task) : Task × Bool :=
  if t.cancel = 0 then ({ t with cancel := 1, cancelChanClosed := true }, true)
  else (t, false)

/-- The last statement of `Task.Cancel`, reached after a successful swap: store
`Cancelled`. -/
def Task.cancelStore (t : Task) : Task :=
  { t with state := TaskState.Cancelled }

/-- The method `Task.Cancel`, run without interruption:
`CompareAndSwapInt32(&t.cancel, 0, 1)`; on success close the channel and store
`Cancelled`.  (Closing a closed channel panics in Go; the channel is closed
only here, under the successful swap, so for a task satisfying `Task.WF` that
panic cannot occur.) -/
def Task.Cancel (t : Task) : Task :=
  if t.cancel = 0 then
    { t with cancel := 1, cancelChanClosed := true, state := TaskState.Cancelled }
  else t

/-- The method `Task.ID`. -/
def Task.ID (t : Task) : String := t.id

/-- The method `Task.State`. -/
def Task.State (t : Task) : TaskState := t.state

/-- What holds of every `Task` object the program can build: the flag is `0`
or `1`, and the channel is closed exactly when the flag is `1`. -/
def Task.WF (t : Task) : Prop :=
  (t.cancel = 0 ∨ t.cancel = 1) ∧ (t.cancelChanClosed = true ↔ t.cancel = 1)

instance (t : Task) : Decidable t.WF := by
  unfold Task.WF; exact inferInstance

/-! ### The life of one task as a sequence of atomic steps

The calls of `Cancel` and the single call of `Execute` on one task, by
goroutines that interleave.  The steps are the atomic operations of task.go:
the swap of `Cancel` (line 58, with the close of line 59), the store of
`Cancel` (line 60), the load of `Execute` (line 47), its first store (line 48
or 51), and the callback with the last store (lines 52-53). -/

/-- Where the (single) call of `Execute` stands: not started; the flag loaded
(`flagSet` when the load has seen `1`); in the callback; left. -/
inductive Phase where
  | notStarted
  | loaded (flagSet : Bool)
  | inAction
  | returned
  deriving DecidableEq, Repr

/-- A task, the progress of its call of `Execute`, and whether the call of
`Cancel` that won the swap has still to store `Cancelled`. -/
structure TaskRun where
  t : Task
  phase : Phase
  storePending : Bool
  deriving DecidableEq, Repr

/-- The steps of a task: the swap of a call of `Cancel`; the store of the call
of `Cancel` that won the swap; the load of the flag by `Execute`; the first
store of `Execute`; the end of `Execute` (callback and last store). -/
inductive TaskStep where
  | cancel
  | cancelStore
  | execLoad
  | execStore
  | execEnd
  deriving DecidableEq, Repr

/-- One step; `none` when the step is not enabled (`Execute` is called at most
once; a store follows its load or its swap; a callback that never returns has
no end). -/
def TaskRun.step (r : TaskRun) : TaskStep → Option TaskRun
  | TaskStep.cancel =>
    some { r with
      t := (r.t.cancelSwap).1
      storePending := r.storePending || (r.t.cancelSwap).2 }
  | TaskStep.cancelStore =>
    if r.storePending then some { r with t := r.t.cancelStore, storePending := false }
    else none
  | TaskStep.execLoad =>
    if r.phase = Phase.notStarted then
      some { r with phase := Phase.loaded (decide (r.t.cancel = 1)) }
    else none
  | TaskStep.execStore =>
    match r.phase with
    | Phase.loaded flagSet =>
      some { r with
        t := (r.t.executeStore flagSet).1
        phase := if (r.t.executeStore flagSet).2 then Phase.inAction else Phase.returned }
    | _ => none
  | TaskStep.execEnd =>
    if r.phase = Phase.inAction then
      match r.t.action with
      | Callback.hangs => none
      | _ => some { r with t := r.t.executeEnd, phase := Phase.returned }
    else none

/-- Run a list of steps, recording the observable state after each of them
(the head of the result is the state at the start). -/
def TaskRun.states : TaskRun → List TaskStep → Option (List TaskState)
  | r, [] => some [r.t.state]
  | r, s :: ss =>
    match r.step s with
    | none => none
    | some r1 =>
      match TaskRun.states r1 ss with
      | none => none
      | some l => some (r.t.state :: l)

/-- The task as `NewTask` returns it, neither `Execute` nor `Cancel` called. -/
def TaskRun.new (id : String) (action : Callback) : TaskRun :=
  { t := NewTask id action, phase := Phase.notStarted, storePending := false }

/-- The forward moves named by the specification: `Pending → Running`,
`Running → Completed`, `Pending → Cancelled`. -/
def forwardMove : TaskState → TaskState → Bool
  | TaskState.Pending, TaskState.Running => true
  | TaskState.Running, TaskState.Completed => true
  | TaskState.Pending, TaskState.Cancelled => true
  | _, _ => false

/-- The moves a `Cancel` interleaved with `Execute` adds: its store gives
`Running → Cancelled` and `Completed → Cancelled`; the stores of `Execute`
that come after it give `Cancelled → Running` (when the `Cancel` came between
the load and the first store) and `Cancelled → Completed`. -/
def lateCancelMove : TaskState → TaskState → Bool
  | TaskState.Running, TaskState.Cancelled => true
  | TaskState.Completed, TaskState.Cancelled => true
  | TaskState.Cancelled, TaskState.Running => true
  | TaskState.Cancelled, TaskState.Completed => true
  | _, _ => false

/-- Every two consecutive states of the list are equal or related by `mv`. -/
def movesBy (mv : TaskState → TaskState → Bool) : List TaskState → Bool
  | a :: b :: l => (a == b || mv a b) && movesBy mv (b :: l)
  | _ => true

/-- No call of `Cancel` makes its swap after `Execute` has loaded the flag. -/
def noCancelAfterBegin : List TaskStep → Bool
  | [] => true
  | TaskStep.execLoad :: ss => !(ss.contains TaskStep.cancel)
  | _ :: ss => noCancelAfterBegin ss

/-- Before its first store `Execute` has stored nothing, so the state is
`Pending` or `Cancelled`; in the callback the state is `Running` or
`Cancelled`. -/
def TaskRun.Inv (r : TaskRun) : Prop :=
  match r.phase with
  | Phase.notStarted => r.t.state = TaskState.Pending ∨ r.t.state = TaskState.Cancelled
  | Phase.loaded _ => r.t.state = TaskState.Pending ∨ r.t.state = TaskState.Cancelled
  | Phase.inAction => r.t.state = TaskState.Running ∨ r.t.state = TaskState.Cancelled
  | Phase.returned => True

/-- Before the load of `Execute`: nothing has happened, or a `Cancel` has won
the swap and has or has not yet stored `Cancelled`. -/
def TaskRun.Before (r : TaskRun) : Prop :=
  r.phase = Phase.notStarted ∧
  ((r.t.cancel = 0 ∧ r.t.state = TaskState.Pending ∧ r.storePending = false) ∨
   (r.t.cancel = 1 ∧ r.t.state = TaskState.Pending ∧ r.storePending = true) ∨
   (r.t.cancel = 1 ∧ r.t.state = TaskState.Cancelled ∧ r.storePending = false))

/-- After the load of `Execute` when no `Cancel` makes its swap any more. -/
def TaskRun.After (r : TaskRun) : Prop :=
  match r.phase with
  | Phase.notStarted => False
  | Phase.loaded false => r.t.state = TaskState.Pending ∧ r.storePending = false
  | Phase.loaded true => r.t.state = TaskState.Pending ∨ r.t.state = TaskState.Cancelled
  | Phase.inAction => r.t.state = TaskState.Running ∧ r.storePending = false
  | Phase.returned => r.storePending = true → r.t.state = TaskState.Cancelled

/-! ## `internal/scheduler/scheduler.go`: the priority queue -/

/-- The struct `priorityTask`: a pointer to the task, the priority given at
submission, and the position in the queue. -/
structure priorityTask where
  task : Nat
  priority : Int
  index : Int
  deriving DecidableEq, Repr, Inhabited

/-- The type `priorityQueue` (`[]*priorityTask`) together with the objects its
elements point to: `pq` is the slice of addresses, `mem` the store of all
`priorityTask` objects allocated so far (address = position). -/
structure priorityQueue where
  mem : List priorityTask
  pq : List Nat
  deriving DecidableEq, Repr

/-- The field `priority` of the object at address `p`. -/
def prioAt (mem : List priorityTask) (p : Nat) : Int := (mem.getD p default).priority

/-- The assignment `p.index = v` on the object at address `p`. -/
def setIndex (mem : List priorityTask) (p : Nat) (v : Int) : List priorityTask :=
  mem.set p { mem.getD p default with index := v }

namespace priorityQueue

/-- The method `Len`. -/
def Len (h : priorityQueue) : Nat := h.pq.length

/-- The method `Less`: `pq[i].priority > pq[j].priority`.  The callers in
`container/heap` pass positions below `Len`. -/
def Less (h : priorityQueue) (i j : Nat) : Bool :=
  decide (prioAt h.mem (h.pq.getD i 0) > prioAt h.mem (h.pq.getD j 0))

/-- The method `Swap`: exchange `pq[i]` and `pq[j]`, then `pq[i].index = i`
and `pq[j].index = j`.  The callers in `container/heap` pass positions below
`Len`. -/
def Swap (h : priorityQueue) (i j : Nat) : priorityQueue :=
  let pq1 := (h.pq.set i (h.pq.getD j 0)).set j (h.pq.getD i 0)
  let mem1 := setIndex h.mem (pq1.getD i 0) i
  { mem := setIndex mem1 (pq1.getD j 0) j, pq := pq1 }

/-- The method `Push`: `item.index = n`, then append. -/
def Push (h : priorityQueue) (x : Nat) : priorityQueue :=
  { mem := setIndex h.mem x h.pq.length, pq := h.pq ++ [x] }

/-- The method `Pop`: take the last element, set its `index` to `-1`, shorten
the slice.  On an empty slice `old[n-1]` panics. -/
def Pop (h : priorityQueue) : Option (priorityQueue × Nat) :=
  match h.pq.getLast? with
  | none => none
  | some item => some ({ mem := setIndex h.mem item (-1), pq := h.pq.dropLast }, item)

end priorityQueue

/-! ### Go's `container/heap`, on which the queue relies

The functions `Push`, `Pop`, `Remove`, `up` and `down` of the package
`container/heap` of the Go standard library, which `scheduler.go` imports and
calls on `wp.taskQueue`; they are transcribed from the library's `heap.go`. -/

namespace heap

/-- The loop of `up(h, j)`: `i := (j-1)/2; if i == j || !h.Less(j, i) break;
h.Swap(i, j); j = i`.  Go's `(j-1)/2` truncates towards zero, so it is `0` at
`j = 0`, as the natural-number expression is.  The first argument bounds the
number of iterations. -/
def upLoop : Nat → priorityQueue → Nat → priorityQueue
  | 0, h, _ => h
  | fuel + 1, h, j =>
    if (j - 1) / 2 = j ∨ h.Less j ((j - 1) / 2) = false then h
    else upLoop fuel (h.Swap ((j - 1) / 2) j) ((j - 1) / 2)

/-- The function `up(h, j)`; `j` strictly decreases, so `j + 1` iterations are
enough (`up_unfold`). -/
def up (h : priorityQueue) (j : Nat) : priorityQueue := upLoop (j + 1) h j

/-- The child `down` compares with the parent: the left one `j1`, or the right
one `j1 + 1` when it is below `n` and `Less(j2, j1)`. -/
def pickChild (h : priorityQueue) (j1 n : Nat) : Nat :=
  if j1 + 1 < n ∧ h.Less (j1 + 1) j1 = true then j1 + 1 else j1

/-- The loop of `down(h, i0, n)`: `j1 := 2*i + 1; if j1 >= n break; j := j1 or
j1 + 1; if !h.Less(j, i) break; h.Swap(i, j); i = j`.  It returns the queue and
the final `i`.  (Go's test `j1 < 0` guards against `int` overflow, which a
slice length cannot reach.)  The first argument bounds the number of
iterations. -/
def downLoop : Nat → priorityQueue → Nat → Nat → priorityQueue × Nat
  | 0, h, i, _ => (h, i)
  | fuel + 1, h, i, n =>
    if 2 * i + 1 ≥ n then (h, i)
    else if h.Less (pickChild h (2 * i + 1) n) i = false then (h, i)
    else downLoop fuel (h.Swap i (pickChild h (2 * i + 1) n)) (pickChild h (2 * i + 1) n) n

/-- The function `down(h, i0, n)`, returning the queue and `i > i0`; `i`
strictly increases below `n`, so `n` iterations are enough (`down_unfold`). -/
def down (h : priorityQueue) (i0 n : Nat) : priorityQueue × Bool :=
  ((downLoop n h i0 n).1, decide ((downLoop n h i0 n).2 > i0))

/-- The function `heap.Push`: `h.Push(x); up(h, h.Len()-1)`. -/
def Push (h : priorityQueue) (x : Nat) : priorityQueue :=
  up (h.Push x) ((h.Push x).Len - 1)

/-- The function `heap.Pop`: `n := h.Len() - 1; h.Swap(0, n); down(h, 0, n);
return h.Pop()`.  On an empty queue `Swap(0, -1)` panics. -/
def Pop (h : priorityQueue) : Option (priorityQueue × Nat) :=
  if h.Len = 0 then none
  else ((down (h.Swap 0 (h.Len - 1)) 0 (h.Len - 1)).1).Pop

/-- The function `heap.Remove`: `n := h.Len() - 1; if n != i { h.Swap(i, n);
if !down(h, i, n) { up(h, i) } }; return h.Pop()`.  When `i` is not a position
of the queue, `Swap` (or, on an empty queue with `i = -1`, `Pop`) panics. -/
def Remove (h : priorityQueue) (i : Int) : Option (priorityQueue × Nat) :=
  if 0 ≤ i ∧ i < h.Len then
    if h.Len - 1 ≠ i.toNat then
      if (down (h.Swap i.toNat (h.Len - 1)) i.toNat (h.Len - 1)).2 = false then
        (up (down (h.Swap i.toNat (h.Len - 1)) i.toNat (h.Len - 1)).1 i.toNat).Pop
      else (down (h.Swap i.toNat (h.Len - 1)) i.toNat (h.Len - 1)).1.Pop
    else h.Pop
  else none

end heap

/-! ## `internal/scheduler/scheduler.go`: the pool -/

/-- The statement `m[k] = v` on a Go map, kept as a list of bindings with
distinct keys. -/
def mapSet (m : List (String × Nat)) (k : String) (v : Nat) : List (String × Nat) :=
  (k, v) :: m.filter (fun b => b.1 != k)

/-- The statement `delete(m, k)`. -/
def mapDelete (m : List (String × Nat)) (k : String) : List (String × Nat) :=
  m.filter (fun b => b.1 != k)

/-- The program state the claims speak of: the `Task` objects created so far
(a `*task.Task` is a position in `tasks`), the fields `taskQueue`, `taskMap`
and `running` of `Workpool`, and, as a ghost record, the entries the workers
have obtained from `heap.Pop` so far, oldest first. -/
structure World where
  tasks : List Task
  taskQueue : priorityQueue
  taskMap : List (String × Nat)
  running : Int
  claimed : List Nat
  deriving DecidableEq, Repr

/-- The function `NewWorkpool`, in a program that has created the task objects
`tasks`: empty queue, empty map, nothing running. -/
def NewWorkpool (tasks : List Task) : World :=
  { tasks := tasks, taskQueue := { mem := [], pq := [] }, taskMap := [], running := 0,
    claimed := [] }

/-- The method `Workpool.Submit` (the body under the lock): allocate
`pt := &priorityTask{task: t, priority: priority}`, `heap.Push`, bind
`t.ID()` to `pt` in the map.  `none` when `t` is not the address of a task
(`t.ID()` dereferences it). -/
def Submit (w : World) (t : Nat) (priority : Int) : Option World :=
  match w.tasks[t]? with
  | none => none
  | some tk =>
    some { w with
      taskQueue := heap.Push
        { mem := w.taskQueue.mem ++ [{ task := t, priority := priority, index := 0 }],
          pq := w.taskQueue.pq } w.taskQueue.mem.length
      taskMap := mapSet w.taskMap tk.ID w.taskQueue.mem.length }

/-- The method `Workpool.Cancel` (the body under the lock): if the map binds
`taskID` to `pt`, then `heap.Remove(&wp.taskQueue, pt.index)`, delete the
binding, `pt.task.Cancel()`; otherwise nothing. -/
def Cancel (w : World) (taskID : String) : Option World :=
  match w.taskMap.lookup taskID with
  | none => some w
  | some pt =>
    match w.taskQueue.mem[pt]? with
    | none => none
    | some e =>
      match heap.Remove w.taskQueue e.index with
      | none => none
      | some (q1, _) =>
        match w.tasks[e.task]? with
        | none => none
        | some tk =>
          some { w with
            taskQueue := q1
            taskMap := mapDelete w.taskMap taskID
            tasks := w.tasks.set e.task tk.Cancel }

/-- The critical section of `Workpool.worker` (scheduler.go lines 111-117):
wait while the queue is empty, then `pt := heap.Pop(&wp.taskQueue)` and
`delete(wp.taskMap, pt.task.ID())`.  `none` when the queue is empty (the worker
is blocked in `cond.Wait`). -/
def dequeue (w : World) : Option World :=
  if w.taskQueue.Len = 0 then none
  else
    match heap.Pop w.taskQueue with
    | none => none
    | some (q1, pt) =>
      match q1.mem[pt]? with
      | none => none
      | some e =>
        match w.tasks[e.task]? with
        | none => none
        | some tk =>
          some { w with
            taskQueue := q1
            taskMap := mapDelete w.taskMap tk.ID
            claimed := w.claimed ++ [pt] }

/-- The call `t.Execute()` on the task at address `t` (what a worker does with
the task it has claimed, scheduler.go line 120), as far as it goes: to its
return, to the panic of the callback, or into a callback that never returns. -/
def execute (w : World) (t : Nat) : Option World :=
  match w.tasks[t]? with
  | none => none
  | some tk => some { w with tasks := w.tasks.set t tk.Execute }

/-- The operations of a program on the pool. -/
inductive Op where
  | newTask (id : String) (action : Callback)
  | submit (t : Nat) (priority : Int)
  | cancel (taskID : String)
  | dequeue
  | execute (t : Nat)
  deriving DecidableEq, Repr

/-- One operation. -/
def step (w : World) : Op → Option World
  | Op.newTask id action => some { w with tasks := w.tasks ++ [NewTask id action] }
  | Op.submit t priority => Submit w t priority
  | Op.cancel taskID => Cancel w taskID
  | Op.dequeue => dequeue w
  | Op.execute t => execute w t

/-- A sequence of operations, `none` as soon as one of them panics or blocks. -/
def run : World → List Op → Option World
  | w, [] => some w
  | w, o :: os =>
    match step w o with
    | none => none
    | some w1 => run w1 os

/-- The states a program reaches from a new pool. -/
def Reachable (w : World) : Prop := ∃ tasks ops, run (NewWorkpool tasks) ops = some w

/-- The task and priority of the entry at address `p`. -/
def entryOf (w : World) (p : Nat) : Nat × Int :=
  ((w.taskQueue.mem.getD p default).task, (w.taskQueue.mem.getD p default).priority)


/-! ## Predicates used by the proofs -/

/-- The priority of the entry at position `k` of the queue. -/
def key (h : priorityQueue) (k : Nat) : Int := prioAt h.mem (h.pq.getD k 0)

/-- Every position of the queue holds the address of an allocated entry whose
field `index` is that position. -/
def IndexOK (h : priorityQueue) : Prop :=
  ∀ k, k < h.pq.length →
    h.pq.getD k 0 < h.mem.length ∧ (h.mem.getD (h.pq.getD k 0) default).index = (k : Int)

/-- The heap order on the first `n` positions: every position but the root
carries at most the priority of its parent. -/
def IsHeap (f : Nat → Int) (n : Nat) : Prop :=
  ∀ k, 0 < k → k < n → f k ≤ f ((k - 1) / 2)

/-- The heap order with the one exception `up` repairs: position `j` may exceed
its parent, while the children of `j` do not exceed the parent of `j`. -/
def UpExc (f : Nat → Int) (n j : Nat) : Prop :=
  (∀ k, 0 < k → k < n → k ≠ j → f k ≤ f ((k - 1) / 2)) ∧
  (∀ k, 0 < k → k < n → (k - 1) / 2 = j → 0 < j → f k ≤ f ((j - 1) / 2))

/-- The heap order with the exceptions left by overwriting position `i`: `i` may
exceed its parent and may be exceeded by its children, while the children of
`i` do not exceed the parent of `i`. -/
def BothExc (f : Nat → Int) (n i : Nat) : Prop :=
  (∀ k, 0 < k → k < n → k ≠ i → (k - 1) / 2 ≠ i → f k ≤ f ((k - 1) / 2)) ∧
  (∀ k, 0 < k → k < n → (k - 1) / 2 = i → 0 < i → f k ≤ f ((i - 1) / 2))

/-- The heap order with the one exception `down` repairs: position `i` may be
exceeded by its children, while they do not exceed the parent of `i`. -/
def DownExc (f : Nat → Int) (n i : Nat) : Prop :=
  (∀ k, 0 < k → k < n → (k - 1) / 2 ≠ i → f k ≤ f ((k - 1) / 2)) ∧
  (∀ k, 0 < k → k < n → (k - 1) / 2 = i → 0 < i → f k ≤ f ((i - 1) / 2))

/-- The function `f` with the values at `i` and `j` exchanged. -/
def swapF (f : Nat → Int) (i j : Nat) : Nat → Int :=
  fun k => if k = j then f i else if k = i then f j else f k

/-- The store `m` holds the same objects as `m0` up to their `index` fields. -/
def SameObjs (m0 m : List priorityTask) : Prop :=
  m.length = m0.length ∧
  ∀ p, prioAt m p = prioAt m0 p ∧ (m.getD p default).task = (m0.getD p default).task

/-- The queue `h` is `h0` with the positions below `n` rearranged and the
`index` fields kept up to date. -/
def Rearr (h0 h : priorityQueue) (n : Nat) : Prop :=
  IndexOK h ∧ h.pq.length = h0.pq.length ∧ SameObjs h0.mem h.mem ∧
  (∀ x, x ∈ h.pq ↔ x ∈ h0.pq) ∧ (∀ k, n ≤ k → h.pq.getD k 0 = h0.pq.getD k 0)

/-- The queue is well formed: the `index` fields are up to date and the heap
order holds on the whole queue. -/
def QOK (h : priorityQueue) : Prop := IndexOK h ∧ IsHeap (key h) h.pq.length

/-- The queue `h1` is the well-formed queue `h` without its entry `item`, whose
`index` is now `-1`. -/
def Removed (h h1 : priorityQueue) (item : Nat) : Prop :=
  QOK h1 ∧ h1.pq.length + 1 = h.pq.length ∧ SameObjs h.mem h1.mem ∧
  (∀ x, x ∈ h1.pq ↔ x ∈ h.pq ∧ x ≠ item) ∧
  (h1.mem.getD item default).index = -1 ∧ item ∈ h.pq

/-- The identifier of the task at address `t`. -/
def taskId (tasks : List Task) (t : Nat) : String := (tasks.getD t default).ID

/-- The identifier of the task of the entry at address `p`. -/
def idOf (w : World) (p : Nat) : String :=
  taskId w.tasks (w.taskQueue.mem.getD p default).task

/-- What holds in every state of the program: the queue is well formed, every
allocated entry points to a task, every binding of the map leads to an entry
of the queue that belongs to a task with that identifier, and the map has one
binding per key. -/
def Inv (w : World) : Prop :=
  QOK w.taskQueue ∧
  (∀ p, p < w.taskQueue.mem.length → (w.taskQueue.mem.getD p default).task < w.tasks.length) ∧
  (∀ id p, (id, p) ∈ w.taskMap → p ∈ w.taskQueue.pq ∧ idOf w p = id) ∧
  (w.taskMap.map Prod.fst).Nodup

/-- A state used to exercise the theorems: tasks `a`, `b`, `c` submitted with
priorities 1, 3, 2 and `b` cancelled. -/
def exampleWorld : World :=
  { tasks := [NewTask "a" Callback.returns, (NewTask "b" Callback.returns).Cancel,
              NewTask "c" Callback.returns],
    taskQueue :=
      { mem := [{ task := 0, priority := 1, index := 1 }, { task := 1, priority := 3, index := -1 },
                { task := 2, priority := 2, index := 0 }],
        pq := [2, 0] },
    taskMap := [("c", 2), ("a", 0)],
    running := 0,
    claimed := [] }

/-- No operation of the sequence submits a task whose identifier the map binds
at that moment. -/
def freshSubmits : World → List Op → Bool
  | _, [] => true
  | w, o :: os =>
    (match o with
      | Op.submit t _ => (w.taskMap.lookup (taskId w.tasks t)).isNone
      | _ => true) &&
    (match step w o with
      | none => true
      | some w1 => freshSubmits w1 os)

/-- The invariant, and every entry of the queue is the one the map binds to the
identifier of its task. -/
def Agree (w : World) : Prop :=
  Inv w ∧ ∀ p, p ∈ w.taskQueue.pq → (idOf w p, p) ∈ w.taskMap

/-- The pool after `Submit` of the task `a` with priority 1. -/
def dupBefore : World :=
  { tasks := [NewTask "a" Callback.returns],
    taskQueue := { mem := [{ task := 0, priority := 1, index := 0 }], pq := [0] },
    taskMap := [("a", 0)],
    running := 0,
    claimed := [] }

/-- The pool after a second `Submit` of the same task, with priority 2. -/
def dupAfter : World :=
  { tasks := [NewTask "a" Callback.returns],
    taskQueue :=
      { mem := [{ task := 0, priority := 1, index := 1 }, { task := 0, priority := 2, index := 0 }],
        pq := [1, 0] },
    taskMap := [("a", 1)],
    running := 0,
    claimed := [] }

/-- The operations `Submit(t, priority)` for a list of pairs `(t, priority)`. -/
def submitOps (subs : List (Nat × Int)) : List Op :=
  subs.map (fun s => Op.submit s.1 s.2)

/-- The pool after `Submit` of the tasks `a` and `b` with priorities 1 and 2. -/
def twoQueued : World :=
  { tasks := [NewTask "a" Callback.returns, NewTask "b" Callback.returns],
    taskQueue :=
      { mem := [{ task := 0, priority := 1, index := 1 }, { task := 1, priority := 2, index := 0 }],
        pq := [1, 0] },
    taskMap := [("b", 1), ("a", 0)],
    running := 0,
    claimed := [] }

/-- The queue `h` holds the same entries as `h0`, and the entries outside the
queue have kept their `index` field. -/
def OffSame (h0 h : priorityQueue) : Prop :=
  h.pq.length = h0.pq.length ∧ (∀ x, x ∈ h.pq ↔ x ∈ h0.pq) ∧
  ∀ p, p ∉ h0.pq → (h.mem.getD p default).index = (h0.mem.getD p default).index

/-- Every allocated entry that is not in the queue (it has been popped or
removed) has `index` equal to `-1`, and the entries handed to workers are
allocated and no longer in the queue. -/
def OffQueue (w : World) : Prop :=
  (∀ p, p < w.taskQueue.mem.length → p ∉ w.taskQueue.pq →
    (w.taskQueue.mem.getD p default).index = -1) ∧
  (∀ p, p ∈ w.claimed → p < w.taskQueue.mem.length ∧ p ∉ w.taskQueue.pq)

/-! ## The goroutines: workers and `Shutdown`

The goroutines of the program as a transition system.  The mutex `wp.mu` is a
boolean (held or free); a step that needs the mutex is enabled only while it is
free (`sync.Mutex` is not reentrant); the critical sections of `Submit`,
`Cancel` and of the worker are single steps.  A goroutine in `cond.Wait` is
allowed to resume whenever the mutex is free, so every run of the code is a run
of this system.  No goroutine of the repository receives from a worker's
channel, which is unbuffered, so the send `taskChan <- pt.task` is never
enabled.  A goroutine that panics has no further step. -/

/-- The two copies of `scheduler.go`. -/
inductive Variant where
  | internal
  | pkg
  deriving DecidableEq, Repr

/-- The statements of the worker's loop after its critical section:
`atomic.AddInt32(&wp.running, 1)`, `taskChan <- pt.task`, the two parts of
`pt.task.Execute()`, `wp.notifier.Notify(pt.task.ID())`,
`atomic.AddInt32(&wp.running, -1)`. -/
inductive Instr where
  | incr
  | send
  | execute
  | finish
  | notify
  | decr
  deriving DecidableEq, Repr

/-- The statements after the critical section, in the order of each copy:
`internal/scheduler/scheduler.go` lines 118-122 send before `Execute`,
`pkg/scheduler/scheduler.go` lines 234-246 send after `Notify`. -/
def workerBody : Variant → List Instr
  | Variant.internal =>
    [Instr.incr, Instr.send, Instr.execute, Instr.finish, Instr.notify, Instr.decr]
  | Variant.pkg =>
    [Instr.incr, Instr.execute, Instr.finish, Instr.notify, Instr.send, Instr.decr]

/-- A worker goroutine: the entry `pt` it last obtained from `heap.Pop`, and
the statements left in the current iteration (none at the top of the loop). -/
structure Worker where
  pt : Nat
  todo : List Instr
  deriving DecidableEq, Repr

/-- Where the goroutine that calls `Shutdown` stands: not yet called; at
`wp.mu.Lock()`; at the test `running > 0` (mutex held); inside `cond.Wait()`
(mutex released); in the loop over `wp.taskMap` (mutex held); at the
`wp.mu.Lock()` of the `wp.Cancel` that the `pkg` copy calls in that loop; at
the loop closing the channels; at the `wp.mu.Lock()` of
`removeCompletedTasks`; in the body of `removeCompletedTasks`; at the deferred
`wp.mu.Unlock()` of `Shutdown`; returned. -/
inductive ShutdownPc where
  | notCalled
  | locking
  | checking
  | waiting
  | cancelling
  | cancelLocking
  | closing
  | relocking
  | purging
  | unlocking
  | returned
  deriving DecidableEq, Repr

/-- The state of the program: the pool, the mutex, the workers, whether the
workers' channels are closed, the identifiers passed to `Notify` so far, and
the goroutine of `Shutdown`. -/
structure Sys where
  variant : Variant
  w : World
  mu : Bool
  workers : List Worker
  closed : Bool
  notified : List String
  shutdown : ShutdownPc
  deriving DecidableEq, Repr

/-- The function `NewWorkpool(workerCount)`: a new pool and `workerCount`
workers at the top of their loop. -/
def Sys.init (v : Variant) (workerCount : Nat) (tasks : List Task) : Sys :=
  { variant := v, w := NewWorkpool tasks, mu := false,
    workers := List.replicate workerCount { pt := 0, todo := [] },
    closed := false, notified := [], shutdown := ShutdownPc.notCalled }

/-- The next step of worker `i`.  At the top of the loop: the critical section
(`dequeue`), which needs the mutex; the entry obtained is the last one recorded
in `claimed`.  At `send`: blocked (or, on a closed channel, a panic).  At
`finish`: the callback, which has a next step only when it returns (a panic is
not recovered, and ends the program). -/
def workerStep (s : Sys) (i : Nat) : Option Sys :=
  match s.workers[i]? with
  | none => none
  | some wk =>
    match wk.todo with
    | [] =>
      if s.mu then none
      else
        match dequeue s.w with
        | none => none
        | some w1 =>
          match w1.claimed.getLast? with
          | none => none
          | some pt =>
            some { s with
              w := w1
              workers := s.workers.set i { pt := pt, todo := workerBody s.variant } }
    | Instr.incr :: rest =>
      some { s with
        w := { s.w with running := s.w.running + 1 }
        workers := s.workers.set i { wk with todo := rest } }
    | Instr.send :: _ => none
    | Instr.execute :: rest =>
      match s.w.tasks[(entryOf s.w wk.pt).1]? with
      | none => none
      | some tk =>
        some { s with
          w := { s.w with tasks := s.w.tasks.set (entryOf s.w wk.pt).1 (tk.executeBegin).1 }
          workers := s.workers.set i
            { wk with todo := if (tk.executeBegin).2 then rest else rest.tail } }
    | Instr.finish :: rest =>
      match s.w.tasks[(entryOf s.w wk.pt).1]? with
      | none => none
      | some tk =>
        if tk.action = Callback.returns then
          some { s with
            w := { s.w with tasks := s.w.tasks.set (entryOf s.w wk.pt).1 tk.executeEnd }
            workers := s.workers.set i { wk with todo := rest } }
        else none
    | Instr.notify :: rest =>
      some { s with
        notified := s.notified ++ [idOf s.w wk.pt]
        workers := s.workers.set i { wk with todo := rest } }
    | Instr.decr :: rest =>
      some { s with
        w := { s.w with running := s.w.running - 1 }
        workers := s.workers.set i { wk with todo := rest } }

/-- The loop `for _, pt := range wp.taskMap { pt.task.Cancel() }` of the
`internal` copy of `Shutdown` (the bindings are visited in the order of the
list; calls of `Task.Cancel` on different tasks commute). -/
def cancelAll (w : World) : World :=
  { w with
    tasks := w.taskMap.foldl
      (fun ts b => ts.set (entryOf w b.2).1 (ts.getD (entryOf w b.2).1 default).Cancel)
      w.tasks }

/-- The loop of `removeCompletedTasks` over the bindings of the map: an entry
whose task is `Completed` is removed from the queue and from the map. -/
def removeCompletedLoop : List (String × Nat) → World → Option World
  | [], w => some w
  | b :: bs, w =>
    if (w.tasks.getD (entryOf w b.2).1 default).State = TaskState.Completed then
      match heap.Remove w.taskQueue (w.taskQueue.mem.getD b.2 default).index with
      | none => none
      | some (q1, _) =>
        removeCompletedLoop bs { w with taskQueue := q1, taskMap := mapDelete w.taskMap b.1 }
    else removeCompletedLoop bs w

/-- The next step of the goroutine that calls `Shutdown`.  In the `internal`
copy: lock, wait while `running > 0`, cancel the tasks of the map, close the
channels, call `removeCompletedTasks`.  In the `pkg` copy: lock, call
`wp.Cancel` for the bindings of the map, close the channels, wait while
`running > 0`, call `removeCompletedTasks`.  Both `removeCompletedTasks` and
`wp.Cancel` begin with `wp.mu.Lock()`. -/
def shutdownStep (s : Sys) : Option Sys :=
  match s.shutdown with
  | ShutdownPc.notCalled => some { s with shutdown := ShutdownPc.locking }
  | ShutdownPc.locking =>
    if s.mu then none
    else
      some { s with
        mu := true
        shutdown :=
          match s.variant with
          | Variant.internal => ShutdownPc.checking
          | Variant.pkg => ShutdownPc.cancelling }
  | ShutdownPc.checking =>
    if s.w.running > 0 then some { s with mu := false, shutdown := ShutdownPc.waiting }
    else
      some { s with
        shutdown :=
          match s.variant with
          | Variant.internal => ShutdownPc.cancelling
          | Variant.pkg => ShutdownPc.relocking }
  | ShutdownPc.waiting =>
    if s.mu then none else some { s with mu := true, shutdown := ShutdownPc.checking }
  | ShutdownPc.cancelling =>
    match s.variant with
    | Variant.internal => some { s with w := cancelAll s.w, shutdown := ShutdownPc.closing }
    | Variant.pkg =>
      if s.w.taskMap.isEmpty then some { s with shutdown := ShutdownPc.closing }
      else some { s with shutdown := ShutdownPc.cancelLocking }
  | ShutdownPc.cancelLocking =>
    if s.mu then none
    else
      match s.w.taskMap.head? with
      | none => none
      | some b =>
        match Cancel s.w b.1 with
        | none => none
        | some w1 => some { s with w := w1, mu := false, shutdown := ShutdownPc.cancelling }
  | ShutdownPc.closing =>
    some { s with
      closed := true
      shutdown :=
        match s.variant with
        | Variant.internal => ShutdownPc.relocking
        | Variant.pkg => ShutdownPc.checking }
  | ShutdownPc.relocking =>
    if s.mu then none else some { s with mu := true, shutdown := ShutdownPc.purging }
  | ShutdownPc.purging =>
    match removeCompletedLoop s.w.taskMap s.w with
    | none => none
    | some w1 => some { s with w := w1, mu := false, shutdown := ShutdownPc.unlocking }
  | ShutdownPc.unlocking =>
    if s.mu then some { s with mu := false, shutdown := ShutdownPc.returned } else none
  | ShutdownPc.returned => none

/-- The steps of the program: a client goroutine creates a task, calls
`Submit` or calls `Cancel`; a worker or the goroutine of `Shutdown` takes its
next step. -/
inductive Act where
  | newTask (id : String) (action : Callback)
  | submit (t : Nat) (priority : Int)
  | cancel (taskID : String)
  | worker (i : Nat)
  | shutdown
  deriving DecidableEq, Repr

/-- One step of the program; `none` when the step is not enabled. -/
def Sys.step (s : Sys) : Act → Option Sys
  | Act.newTask id action =>
    some { s with w := { s.w with tasks := s.w.tasks ++ [NewTask id action] } }
  | Act.submit t priority =>
    if s.mu then none
    else
      match Submit s.w t priority with
      | none => none
      | some w1 => some { s with w := w1 }
  | Act.cancel taskID =>
    if s.mu then none
    else
      match Cancel s.w taskID with
      | none => none
      | some w1 => some { s with w := w1 }
  | Act.worker i => workerStep s i
  | Act.shutdown => shutdownStep s

/-- A sequence of steps, `none` as soon as one of them is not enabled. -/
def Sys.run : Sys → List Act → Option Sys
  | s, [] => some s
  | s, a :: as =>
    match Sys.step s a with
    | none => none
    | some s1 => Sys.run s1 as

/-- The number of tasks whose state is `Completed`. -/
def completedCount (s : Sys) : Nat :=
  s.w.tasks.countP (fun tk => decide (tk.state = TaskState.Completed))

/-- The goroutine of `Shutdown` holds the mutex at these points. -/
def holdsMutex : ShutdownPc → Bool
  | ShutdownPc.checking => true
  | ShutdownPc.cancelling => true
  | ShutdownPc.cancelLocking => true
  | ShutdownPc.closing => true
  | ShutdownPc.relocking => true
  | _ => false

/-- While the goroutine of `Shutdown` holds the mutex the mutex is held, and
that goroutine has not got past the `wp.mu.Lock()` of `removeCompletedTasks`. -/
def MutexInv (s : Sys) : Prop :=
  (holdsMutex s.shutdown = true → s.mu = true) ∧
  s.shutdown ≠ ShutdownPc.purging ∧ s.shutdown ≠ ShutdownPc.unlocking ∧
  s.shutdown ≠ ShutdownPc.returned

/-- The `internal` pool with two workers after `Submit` of tasks `a` and `b`
with priorities 1 and 2, worker 0 having claimed `b` and incremented `running`,
and `Shutdown` having been called: it is inside `cond.Wait()`. -/
def shutdownWaiting : Sys :=
  { variant := Variant.internal,
    w := { tasks := [NewTask "a" Callback.returns, NewTask "b" Callback.returns],
           taskQueue :=
             { mem := [{ task := 0, priority := 1, index := 0 },
                       { task := 1, priority := 2, index := -1 }],
               pq := [0] },
           taskMap := [("a", 0)],
           running := 1,
           claimed := [1] },
    mu := false,
    workers := [{ pt := 1,
                  todo := [Instr.send, Instr.execute, Instr.finish, Instr.notify, Instr.decr] },
                { pt := 0, todo := [] }],
    closed := false,
    notified := [],
    shutdown := ShutdownPc.waiting }

/-- The statements a worker can have left: none, the whole body, or what is
left of the body up to the send. -/
def validTodo : Variant → List Instr → Bool
  | Variant.internal, todo =>
    todo == [] ||
    todo == [Instr.incr, Instr.send, Instr.execute, Instr.finish, Instr.notify, Instr.decr] ||
    todo == [Instr.send, Instr.execute, Instr.finish, Instr.notify, Instr.decr]
  | Variant.pkg, todo =>
    todo == [] ||
    todo == [Instr.incr, Instr.execute, Instr.finish, Instr.notify, Instr.send, Instr.decr] ||
    todo == [Instr.execute, Instr.finish, Instr.notify, Instr.send, Instr.decr] ||
    todo == [Instr.finish, Instr.notify, Instr.send, Instr.decr] ||
    todo == [Instr.notify, Instr.send, Instr.decr] ||
    todo == [Instr.send, Instr.decr]

/-- The worker has got past `Execute` in the `pkg` copy. -/
def pastExecute (todo : List Instr) : Bool :=
  todo == [Instr.notify, Instr.send, Instr.decr] || todo == [Instr.send, Instr.decr]

/-- Every worker is at a point of its loop at or before the send; the entries
handed to workers are as many as the workers that have left the top of their
loop; the `Completed` tasks are at most as many as the workers that have got
past `Execute`. -/
def WorkInv (s : Sys) : Prop :=
  (∀ wk, wk ∈ s.workers → validTodo s.variant wk.todo = true) ∧
  s.w.claimed.length = s.workers.countP (fun wk => !wk.todo.isEmpty) ∧
  completedCount s ≤ s.workers.countP (fun wk => pastExecute wk.todo)

/-- The `pkg` pool with one worker after `Submit` of tasks `a` and `b` with
priorities 1 and 2 and five steps of the worker: it has executed `b` and stands
at the send, with `a` still in the queue. -/
def workerAtSend : Sys :=
  { variant := Variant.pkg,
    w := { tasks := [NewTask "a" Callback.returns,
                     { id := "b", action := Callback.returns, cancel := 0,
                       cancelChanClosed := false,
                       state := TaskState.Completed, actionCalls := 1 }],
           taskQueue :=
             { mem := [{ task := 0, priority := 1, index := 0 },
                       { task := 1, priority := 2, index := -1 }],
               pq := [0] },
           taskMap := [("a", 0)],
           running := 1,
           claimed := [1] },
    mu := false,
    workers := [{ pt := 1, todo := [Instr.send, Instr.decr] }],
    closed := false,
    notified := ["b"],
    shutdown := ShutdownPc.notCalled }

/-- The `internal` pool with one worker after `Submit` of tasks `a` and `b`
with priorities 1 and 2 and two steps of the worker: it has dequeued the entry
of `b`, incremented `running`, and stands at the send, with the entry of `a`
still in the queue. -/
def workerAfterDequeue : Sys :=
  { variant := Variant.internal,
    w := { tasks := [NewTask "a" Callback.returns, NewTask "b" Callback.returns],
           taskQueue :=
             { mem := [{ task := 0, priority := 1, index := 0 },
                       { task := 1, priority := 2, index := -1 }],
               pq := [0] },
           taskMap := [("a", 0)],
           running := 1,
           claimed := [1] },
    mu := false,
    workers := [{ pt := 1,
                  todo := [Instr.send, Instr.execute, Instr.finish, Instr.notify, Instr.decr] }],
    closed := false,
    notified := [],
    shutdown := ShutdownPc.notCalled }

/-! # Theorems -/

/-! ## The task state machine -/

theorem Task.WF_NewTask (id : String) (action : Callback) : (NewTask id action).WF := by
  simp [Task.WF, NewTask]

theorem Task.WF_Cancel (t : Task) (h : t.WF) : t.Cancel.WF := by
  unfold Task.Cancel
  split
  · simp [Task.WF]
  · exact h

theorem Task.WF_Execute (t : Task) (h : t.WF) : t.Execute.WF := by
  obtain ⟨h1, h2⟩ := h
  obtain ⟨id, act, c, cc, st, n⟩ := t
  unfold Task.Execute Task.executeBegin Task.executeEnd
  by_cases hc : c = 1 <;> cases act <;> simp [hc, Task.WF] <;> simp_all

/-- The method `Task.Cancel` is its swap followed, when the swap succeeds, by
its store. -/
theorem Task.Cancel_eq (t : Task) :
    t.Cancel = if (t.cancelSwap).2 then (t.cancelSwap).1.cancelStore else (t.cancelSwap).1 := by
  unfold Task.Cancel Task.cancelSwap Task.cancelStore
  by_cases h : t.cancel = 0 <;> simp [h]

/-- The first part of `Task.Execute` is its load followed by its first store. -/
theorem Task.executeBegin_eq (t : Task) :
    t.executeBegin = t.executeStore (decide (t.cancel = 1)) := by
  unfold Task.executeBegin Task.executeStore
  by_cases h : t.cancel = 1 <;> simp [h]

theorem Task.cancelSwap_state (t : Task) : (t.cancelSwap).1.state = t.state := by
  unfold Task.cancelSwap
  split <;> rfl

theorem Task.cancelSwap_action (t : Task) : (t.cancelSwap).1.action = t.action := by
  unfold Task.cancelSwap
  split <;> rfl

theorem TaskRun.Inv_taskStep (r r1 : TaskRun) (s : TaskStep) (h : r.Inv) (hs : r.step s = some r1) :
    r1.Inv ∧ (r.t.state = r1.t.state ∨ forwardMove r.t.state r1.t.state = true ∨
      lateCancelMove r.t.state r1.t.state = true) := by
  obtain ⟨t, ph, pd⟩ := r
  cases s with
  | cancel =>
    simp only [TaskRun.step, Option.some.injEq] at hs
    subst hs
    refine ⟨?_, Or.inl (Task.cancelSwap_state t).symm⟩
    cases ph <;> simp only [TaskRun.Inv, Task.cancelSwap_state] at h ⊢ <;> exact h
  | cancelStore =>
    cases pd <;> simp [TaskRun.step] at hs
    subst hs
    obtain ⟨id, act, c, cc, st, n⟩ := t
    cases ph <;> cases st <;> simp_all [TaskRun.Inv, Task.cancelStore, forwardMove, lateCancelMove]
  | execLoad =>
    cases ph <;> simp [TaskRun.step] at hs
    subst hs
    exact ⟨h, Or.inl rfl⟩
  | execStore =>
    rcases ph with _ | b | _ | _ <;> simp [TaskRun.step] at hs
    subst hs
    obtain ⟨id, act, c, cc, st, n⟩ := t
    cases b <;> cases st <;>
      simp_all [TaskRun.Inv, Task.executeStore, forwardMove, lateCancelMove]
  | execEnd =>
    obtain ⟨id, act, c, cc, st, n⟩ := t
    cases ph <;> cases act <;> simp [TaskRun.step] at hs
    all_goals
      subst hs
      cases st <;> simp_all [TaskRun.Inv, Task.executeEnd, forwardMove, lateCancelMove]

theorem TaskRun.Inv_new (id : String) (action : Callback) : (TaskRun.new id action).Inv := by
  simp [TaskRun.Inv, TaskRun.new, NewTask]

theorem TaskRun.Before_new (id : String) (action : Callback) :
    (TaskRun.new id action).Before := by
  simp [TaskRun.Before, TaskRun.new, NewTask]

theorem movesBy_cons (mv : TaskState → TaskState → Bool) (a b : TaskState) (l : List TaskState) :
    movesBy mv (a :: b :: l) = ((a == b || mv a b) && movesBy mv (b :: l)) := rfl

theorem TaskRun.states_head (r : TaskRun) (ss : List TaskStep) (l : List TaskState)
    (h : TaskRun.states r ss = some l) : ∃ l1, l = r.t.state :: l1 := by
  cases ss with
  | nil => simp [TaskRun.states] at h; exact ⟨[], h.symm⟩
  | cons s ss =>
    simp only [TaskRun.states] at h
    split at h
    · simp at h
    · split at h
      · simp at h
      · simp at h; exact ⟨_, h.symm⟩

theorem TaskRun.states_moves (ss : List TaskStep) :
    ∀ (r : TaskRun) (l : List TaskState), r.Inv → TaskRun.states r ss = some l →
      movesBy (fun a b => forwardMove a b || lateCancelMove a b) l = true := by
  induction ss with
  | nil => intro r l _ h; simp [TaskRun.states] at h; subst h; rfl
  | cons s ss ih =>
    intro r l hinv h
    simp only [TaskRun.states] at h
    split at h
    · simp at h
    · rename_i r1 hs
      split at h
      · simp at h
      · rename_i l1 hl
        simp at h; subst h
        obtain ⟨hinv1, hmv⟩ := TaskRun.Inv_taskStep r r1 s hinv hs
        obtain ⟨l2, rfl⟩ := TaskRun.states_head r1 ss l1 hl
        rw [movesBy_cons, ih r1 _ hinv1 hl]
        rcases hmv with h | h | h <;> simp [h]

/-- After the load of `Execute`, a step other than the swap of a `Cancel` keeps
`TaskRun.After` and changes the state by a forward move only. -/
theorem TaskRun.After_taskStep (r r1 : TaskRun) (s : TaskStep) (h : r.After)
    (hc : s ≠ TaskStep.cancel) (hs : r.step s = some r1) :
    r1.After ∧ (r.t.state = r1.t.state ∨ forwardMove r.t.state r1.t.state = true) := by
  obtain ⟨t, ph, pd⟩ := r
  obtain ⟨id, act, c, cc, st, n⟩ := t
  cases s with
  | cancel => exact absurd rfl hc
  | cancelStore =>
    cases pd <;> simp [TaskRun.step] at hs
    subst hs
    rcases ph with _ | b | _ | _
    · exact absurd h (by simp [TaskRun.After])
    · cases b <;> cases st <;> simp_all [TaskRun.After, Task.cancelStore, forwardMove]
    · simp_all [TaskRun.After]
    · simp_all [TaskRun.After, Task.cancelStore]
  | execLoad =>
    cases ph <;> simp [TaskRun.step] at hs
    exact absurd h (by simp [TaskRun.After])
  | execStore =>
    rcases ph with _ | b | _ | _ <;> simp [TaskRun.step] at hs
    subst hs
    cases b <;> cases st <;> cases pd <;>
      simp_all [TaskRun.After, Task.executeStore, forwardMove]
  | execEnd =>
    cases ph <;> cases act <;> simp [TaskRun.step] at hs
    all_goals
      subst hs
      cases st <;> simp_all [TaskRun.After, Task.executeEnd, forwardMove]

/-- Before the load of `Execute`, a step keeps `TaskRun.Before`, or is the load
and gives `TaskRun.After`; the state changes by a forward move only. -/
theorem TaskRun.Before_taskStep (r r1 : TaskRun) (s : TaskStep) (h : r.Before)
    (hs : r.step s = some r1) :
    (if s = TaskStep.execLoad then r1.After else r1.Before) ∧
    (r.t.state = r1.t.state ∨ forwardMove r.t.state r1.t.state = true) := by
  obtain ⟨t, ph, pd⟩ := r
  obtain ⟨id, act, c, cc, st, n⟩ := t
  obtain ⟨h0, h⟩ := h
  simp only at h0; subst h0
  simp only at h
  cases s with
  | cancel =>
    simp only [TaskRun.step, Option.some.injEq] at hs
    subst hs
    rcases h with ⟨a, b, d⟩ | ⟨a, b, d⟩ | ⟨a, b, d⟩ <;> subst a <;> subst b <;> subst d <;>
      simp [TaskRun.Before, Task.cancelSwap]
  | cancelStore =>
    cases pd <;> simp [TaskRun.step] at hs
    subst hs
    rcases h with ⟨a, b, d⟩ | ⟨a, b, d⟩ | ⟨a, b, d⟩ <;> subst a <;> subst b <;>
      simp_all [TaskRun.Before, Task.cancelStore, forwardMove]
  | execLoad =>
    simp [TaskRun.step] at hs
    subst hs
    rcases h with ⟨a, b, d⟩ | ⟨a, b, d⟩ | ⟨a, b, d⟩ <;> subst a <;> subst b <;> subst d <;>
      simp [TaskRun.After]
  | execStore => simp [TaskRun.step] at hs
  | execEnd => simp [TaskRun.step] at hs

/-- Once `Execute` has loaded the flag and no `Cancel` makes its swap any more,
only forward moves remain. -/
theorem TaskRun.states_forward_started (ss : List TaskStep) :
    ∀ (r : TaskRun) (l : List TaskState), r.After →
      ss.contains TaskStep.cancel = false → TaskRun.states r ss = some l →
      movesBy forwardMove l = true := by
  induction ss with
  | nil => intro r l _ _ h; simp [TaskRun.states] at h; subst h; rfl
  | cons s ss ih =>
    intro r l hph hnc h
    simp only [TaskRun.states] at h
    split at h
    · simp at h
    · rename_i r1 hs
      split at h
      · simp at h
      · rename_i l1 hl
        simp at h; subst h
        obtain ⟨l2, rfl⟩ := TaskRun.states_head r1 ss l1 hl
        have hnc1 : ss.contains TaskStep.cancel = false := by
          simp at hnc ⊢; exact hnc.2
        have hsc : s ≠ TaskStep.cancel := by
          intro e; subst e; simp at hnc
        obtain ⟨ha, hmv⟩ := TaskRun.After_taskStep r r1 s hph hsc hs
        rw [movesBy_cons, ih r1 _ ha hnc1 hl]
        rcases hmv with h | h <;> simp [h]

theorem TaskRun.states_forward (ss : List TaskStep) :
    ∀ (r : TaskRun) (l : List TaskState), r.Before →
      noCancelAfterBegin ss = true → TaskRun.states r ss = some l →
      movesBy forwardMove l = true := by
  induction ss with
  | nil => intro r l _ _ h; simp [TaskRun.states] at h; subst h; rfl
  | cons s ss ih =>
    intro r l hb hnc h
    simp only [TaskRun.states] at h
    split at h
    · simp at h
    · rename_i r1 hs
      split at h
      · simp at h
      · rename_i l1 hl
        simp at h; subst h
        obtain ⟨l2, rfl⟩ := TaskRun.states_head r1 ss l1 hl
        obtain ⟨hnext, hmv⟩ := TaskRun.Before_taskStep r r1 s hb hs
        have hrest : movesBy forwardMove (r1.t.state :: l2) = true := by
          by_cases hl0 : s = TaskStep.execLoad
          · subst hl0
            simp only [↓reduceIte] at hnext
            have hnc1 : ss.contains TaskStep.cancel = false := by
              simpa [noCancelAfterBegin] using hnc
            exact TaskRun.states_forward_started ss r1 _ hnext hnc1 hl
          · simp only [hl0, ↓reduceIte] at hnext
            have hnc1 : noCancelAfterBegin ss = true := by
              cases s <;> first | exact absurd rfl hl0 | exact hnc
            exact ih r1 _ hnext hnc1 hl
        rw [movesBy_cons, hrest]
        rcases hmv with h | h <;> simp [h]

/-- C3: a task on which `Cancel` was called before `Execute`: `Execute` stores
`Cancelled`, does not go on to the callback (the count of invocations is
unchanged), and leaves the state `Cancelled`. -/
theorem C3_execute_after_cancel (t : Task) (h : t.WF) :
    (t.Cancel.executeBegin).2 = false ∧
    t.Cancel.Execute.state = TaskState.Cancelled ∧
    t.Cancel.Execute.actionCalls = t.actionCalls ∧
    t.Cancel.Execute.Execute.actionCalls = t.actionCalls := by
  obtain ⟨h1, _⟩ := h
  rcases h1 with h1 | h1 <;>
    simp [Task.Cancel, Task.Execute, Task.executeBegin, h1]

theorem C3_execute_after_cancel_witness :
    (NewTask "a" Callback.returns).WF ∧
    ((NewTask "a" Callback.returns).Cancel.executeBegin).2 = false ∧
    (NewTask "a" Callback.returns).Cancel.Execute.state = TaskState.Cancelled ∧
    (NewTask "a" Callback.returns).Cancel.Execute.actionCalls =
      (NewTask "a" Callback.returns).actionCalls ∧
    (NewTask "a" Callback.returns).Cancel.Execute.Execute.actionCalls =
      (NewTask "a" Callback.returns).actionCalls :=
  ⟨by decide, C3_execute_after_cancel (NewTask "a" Callback.returns) (by decide)⟩

/-- C4, as stated, fails: the callback of the task `NewTask "a" Callback.returns` panics (as the
call of a nil callback does); the flag is never set, `Execute` invokes the
callback once and is left by the panic with the state `Running`, so the state
never becomes `Completed`; with a callback that never returns the call of
`Execute` has no end. -/
theorem C4_counterexample :
    (NewTask "a" Callback.panics).cancel = 0 ∧
    (NewTask "a" Callback.panics).Execute.actionCalls = 1 ∧
    (NewTask "a" Callback.panics).Execute.state = TaskState.Running ∧
    (NewTask "a" Callback.panics).ExecuteReturns = false ∧
    TaskRun.states (TaskRun.new "a" Callback.panics)
      [TaskStep.execLoad, TaskStep.execStore, TaskStep.execEnd] =
      some [TaskState.Pending, TaskState.Pending, TaskState.Running, TaskState.Running] ∧
    TaskRun.states (TaskRun.new "a" Callback.hangs)
      [TaskStep.execLoad, TaskStep.execStore, TaskStep.execEnd] = none := by
  decide

/-- C4, amended: a task created by `NewTask` and never cancelled is `Pending`
with no invocation of the callback; the start of `Execute` goes on to the
callback and leaves it `Running`, still with no invocation; the whole call is
that start followed by the call of the callback, which is invoked exactly once.
The call of `Execute` returns exactly when the callback returns, and then the
state is `Completed` and the states seen are `Pending, Running, Completed`;
when the callback panics or never returns the state stays `Running`. -/
theorem C4_execute_runs_once (id : String) (action : Callback) :
    (NewTask id action).state = TaskState.Pending ∧ (NewTask id action).actionCalls = 0 ∧
    ((NewTask id action).executeBegin).2 = true ∧
    ((NewTask id action).executeBegin).1.state = TaskState.Running ∧
    ((NewTask id action).executeBegin).1.actionCalls = 0 ∧
    (NewTask id action).Execute = ((NewTask id action).executeBegin).1.executeEnd ∧
    (NewTask id action).Execute.actionCalls = 1 ∧
    (NewTask id action).ExecuteReturns = decide (action = Callback.returns) ∧
    (NewTask id action).Execute.state =
      (if action = Callback.returns then TaskState.Completed else TaskState.Running) ∧
    ((NewTask id action).Execute.state = TaskState.Completed ↔ action = Callback.returns) ∧
    TaskRun.states (TaskRun.new id Callback.returns)
      [TaskStep.execLoad, TaskStep.execStore, TaskStep.execEnd] =
      some [TaskState.Pending, TaskState.Pending, TaskState.Running, TaskState.Completed] := by
  cases action <;>
    simp [NewTask, Task.Execute, Task.executeBegin, Task.executeEnd, Task.ExecuteReturns,
      Task.executeStore, TaskRun.states, TaskRun.step, TaskRun.new]

/-- C5, as stated, fails: the task `NewTask "a" Callback.returns` after `Execute` is `Completed`
with one invocation of its callback, and `Cancel` then stores `Cancelled`. -/
theorem C5_counterexample :
    (NewTask "a" Callback.returns).Execute.state = TaskState.Completed ∧
    (NewTask "a" Callback.returns).Execute.actionCalls = 1 ∧
    (NewTask "a" Callback.returns).Execute.Cancel.state = TaskState.Cancelled := by
  decide

/-- C5, amended: on a `Completed` task, `Cancel` leaves the state `Completed`
exactly when the flag is already set (a `Cancel` came while `Execute` was
running); when the flag is clear, `Cancel` sets it and stores `Cancelled`.  In
both cases the count of invocations of the callback is unchanged. -/
theorem C5_cancel_after_completed (t : Task) (h : t.WF) (hs : t.state = TaskState.Completed) :
    (t.cancel = 1 → t.Cancel = t) ∧
    (t.cancel = 0 → t.Cancel.state = TaskState.Cancelled ∧ t.Cancel.cancel = 1) ∧
    (t.Cancel.state = TaskState.Completed ↔ t.cancel = 1) ∧
    t.Cancel.actionCalls = t.actionCalls := by
  obtain ⟨h1, _⟩ := h
  rcases h1 with h1 | h1 <;> simp [Task.Cancel, h1, hs]

theorem C5_cancel_after_completed_witness :
    (NewTask "a" Callback.returns).Execute.WF ∧
    (NewTask "a" Callback.returns).Execute.state = TaskState.Completed ∧
    (((NewTask "a" Callback.returns).Execute.cancel = 1 →
      (NewTask "a" Callback.returns).Execute.Cancel = (NewTask "a" Callback.returns).Execute) ∧
    ((NewTask "a" Callback.returns).Execute.cancel = 0 →
      (NewTask "a" Callback.returns).Execute.Cancel.state = TaskState.Cancelled ∧
      (NewTask "a" Callback.returns).Execute.Cancel.cancel = 1) ∧
    ((NewTask "a" Callback.returns).Execute.Cancel.state = TaskState.Completed ↔
      (NewTask "a" Callback.returns).Execute.cancel = 1) ∧
    (NewTask "a" Callback.returns).Execute.Cancel.actionCalls =
      (NewTask "a" Callback.returns).Execute.actionCalls) :=
  ⟨by decide, by decide,
   C5_cancel_after_completed (NewTask "a" Callback.returns).Execute (by decide) (by decide)⟩

/-- C6, as stated, fails.  With the swap and the store of a `Cancel` between
the load and the first store of `Execute` the states seen are
`Pending, Cancelled, Running, Completed`: the state leaves `Cancelled` and goes
back to `Running`.  With the `Cancel` during the callback they are
`Pending, Running, Cancelled, Completed`, and with the `Cancel` after `Execute`
they are `Pending, Running, Completed, Cancelled`: the state leaves
`Completed`. -/
theorem C6_counterexample :
    TaskRun.states (TaskRun.new "a" Callback.returns)
      [TaskStep.execLoad, TaskStep.cancel, TaskStep.cancelStore, TaskStep.execStore,
        TaskStep.execEnd] =
      some [TaskState.Pending, TaskState.Pending, TaskState.Pending, TaskState.Cancelled,
        TaskState.Running, TaskState.Completed] ∧
    movesBy forwardMove
      [TaskState.Pending, TaskState.Pending, TaskState.Pending, TaskState.Cancelled,
        TaskState.Running, TaskState.Completed] = false ∧
    TaskRun.states (TaskRun.new "a" Callback.returns)
      [TaskStep.execLoad, TaskStep.execStore, TaskStep.cancel, TaskStep.cancelStore,
        TaskStep.execEnd] =
      some [TaskState.Pending, TaskState.Pending, TaskState.Running, TaskState.Running,
        TaskState.Cancelled, TaskState.Completed] ∧
    movesBy forwardMove
      [TaskState.Pending, TaskState.Pending, TaskState.Running, TaskState.Running,
        TaskState.Cancelled, TaskState.Completed] = false ∧
    TaskRun.states (TaskRun.new "a" Callback.returns)
      [TaskStep.execLoad, TaskStep.execStore, TaskStep.execEnd, TaskStep.cancel,
        TaskStep.cancelStore] =
      some [TaskState.Pending, TaskState.Pending, TaskState.Running, TaskState.Completed,
        TaskState.Completed, TaskState.Cancelled] ∧
    movesBy forwardMove
      [TaskState.Pending, TaskState.Pending, TaskState.Running, TaskState.Completed,
        TaskState.Completed, TaskState.Cancelled] = false := by
  decide

/-- C6, amended: along every sequence of atomic steps of a task created by
`NewTask` (`Execute` called at most once, `Cancel` at any point and any number
of times; the steps are the swap and the store of `Cancel`, the load and the
first store of `Execute`, and the callback with the last store), every change
of the state is one of `Pending → Running`, `Running → Completed`,
`Pending → Cancelled`, or one of the moves that a `Cancel` whose swap comes
after the load of `Execute` brings: `Running → Cancelled`,
`Completed → Cancelled`, `Cancelled → Running` and `Cancelled → Completed`; so
the state never returns to `Pending`.  When no `Cancel` makes its swap after
the load of `Execute`, every change is one of the first three. -/
theorem C6_state_moves (id : String) (action : Callback) (steps : List TaskStep)
    (l : List TaskState) (h : TaskRun.states (TaskRun.new id action) steps = some l) :
    movesBy (fun a b => forwardMove a b || lateCancelMove a b) l = true ∧
    (noCancelAfterBegin steps = true → movesBy forwardMove l = true) :=
  ⟨TaskRun.states_moves steps _ l (TaskRun.Inv_new id action) h,
   fun hn => TaskRun.states_forward steps _ l (TaskRun.Before_new id action) hn h⟩

theorem C6_state_moves_witness :
    TaskRun.states (TaskRun.new "a" Callback.returns)
      [TaskStep.execLoad, TaskStep.cancel, TaskStep.cancelStore, TaskStep.execStore,
        TaskStep.execEnd] =
      some [TaskState.Pending, TaskState.Pending, TaskState.Pending, TaskState.Cancelled,
        TaskState.Running, TaskState.Completed] ∧
    (movesBy (fun a b => forwardMove a b || lateCancelMove a b)
      [TaskState.Pending, TaskState.Pending, TaskState.Pending, TaskState.Cancelled,
        TaskState.Running, TaskState.Completed] = true ∧
    (noCancelAfterBegin
      [TaskStep.execLoad, TaskStep.cancel, TaskStep.cancelStore, TaskStep.execStore,
        TaskStep.execEnd] = true →
      movesBy forwardMove
        [TaskState.Pending, TaskState.Pending, TaskState.Pending, TaskState.Cancelled,
          TaskState.Running, TaskState.Completed] = true)) :=
  ⟨by decide, C6_state_moves "a" Callback.returns _ _ (by decide)⟩

/-! ## The priority queue: stores and `Swap` -/

theorem prioAt_setIndex (mem : List priorityTask) (p q : Nat) (v : Int) :
    prioAt (setIndex mem p v) q = prioAt mem q := by
  unfold prioAt setIndex
  by_cases hp : p < mem.length
  · by_cases hq : p = q
    · subst hq; simp [List.getD_eq_getElem?_getD, hp]
    · simp [List.getD_eq_getElem?_getD, List.getElem?_set, hq]
  · rw [List.set_eq_of_length_le (by omega)]

theorem length_setIndex (mem : List priorityTask) (p : Nat) (v : Int) :
    (setIndex mem p v).length = mem.length := by
  simp [setIndex]

theorem task_setIndex (mem : List priorityTask) (p q : Nat) (v : Int) :
    ((setIndex mem p v).getD q default).task = (mem.getD q default).task := by
  unfold setIndex
  by_cases hp : p < mem.length
  · by_cases hq : p = q
    · subst hq; simp [List.getD_eq_getElem?_getD, hp]
    · simp [List.getD_eq_getElem?_getD, List.getElem?_set, hq]
  · rw [List.set_eq_of_length_le (by omega)]

theorem index_setIndex_same (mem : List priorityTask) (p : Nat) (v : Int) (hp : p < mem.length) :
    ((setIndex mem p v).getD p default).index = v := by
  simp [setIndex, List.getD_eq_getElem?_getD, hp]

theorem index_setIndex_other (mem : List priorityTask) (p q : Nat) (v : Int) (hq : p ≠ q) :
    ((setIndex mem p v).getD q default).index = (mem.getD q default).index := by
  unfold setIndex
  by_cases hp : p < mem.length
  · simp [List.getD_eq_getElem?_getD, List.getElem?_set, hq]
  · rw [List.set_eq_of_length_le (by omega)]

theorem Swap_length (h : priorityQueue) (i j : Nat) : (h.Swap i j).pq.length = h.pq.length := by
  simp [priorityQueue.Swap]

theorem Swap_Len (h : priorityQueue) (i j : Nat) : (h.Swap i j).Len = h.Len := by
  simp [priorityQueue.Len, Swap_length]

theorem Swap_mem_length (h : priorityQueue) (i j : Nat) :
    (h.Swap i j).mem.length = h.mem.length := by
  simp [priorityQueue.Swap, length_setIndex]

theorem prioAt_Swap (h : priorityQueue) (i j p : Nat) :
    prioAt (h.Swap i j).mem p = prioAt h.mem p := by
  simp [priorityQueue.Swap, prioAt_setIndex]

theorem task_Swap (h : priorityQueue) (i j p : Nat) :
    ((h.Swap i j).mem.getD p default).task = (h.mem.getD p default).task := by
  simp only [priorityQueue.Swap, task_setIndex]

theorem Swap_getD (h : priorityQueue) (i j k : Nat) (hi : i < h.pq.length)
    (hj : j < h.pq.length) :
    (h.Swap i j).pq.getD k 0 =
      if k = j then h.pq.getD i 0 else if k = i then h.pq.getD j 0 else h.pq.getD k 0 := by
  simp only [priorityQueue.Swap, List.getD_eq_getElem?_getD, List.getElem?_set, List.length_set]
  by_cases hkj : k = j
  · subst hkj; simp [hj]
  · by_cases hki : k = i
    · subst hki; simp [hi, Ne.symm hkj, hkj]
    · simp [Ne.symm hkj, Ne.symm hki, hkj, hki]

theorem key_Swap (h : priorityQueue) (i j k : Nat) (hi : i < h.pq.length)
    (hj : j < h.pq.length) :
    key (h.Swap i j) k = if k = j then key h i else if k = i then key h j else key h k := by
  unfold key
  rw [prioAt_Swap, Swap_getD h i j k hi hj]
  split
  · rfl
  · split <;> rfl

theorem mem_pq_iff (l : List Nat) (x : Nat) : x ∈ l ↔ ∃ k, k < l.length ∧ l.getD k 0 = x := by
  rw [List.mem_iff_getElem]
  constructor
  · rintro ⟨k, hk, rfl⟩; exact ⟨k, hk, by simp [List.getD_eq_getElem?_getD, hk]⟩
  · rintro ⟨k, hk, rfl⟩; exact ⟨k, hk, by simp [List.getD_eq_getElem?_getD, hk]⟩

theorem mem_Swap_pq (h : priorityQueue) (i j x : Nat) (hi : i < h.pq.length)
    (hj : j < h.pq.length) : x ∈ (h.Swap i j).pq ↔ x ∈ h.pq := by
  rw [mem_pq_iff, mem_pq_iff, Swap_length]
  constructor
  · rintro ⟨k, hk, rfl⟩
    rw [Swap_getD h i j k hi hj]
    split
    · exact ⟨i, hi, rfl⟩
    · split
      · exact ⟨j, hj, rfl⟩
      · exact ⟨k, hk, rfl⟩
  · rintro ⟨k, hk, rfl⟩
    by_cases hki : k = i
    · subst hki
      refine ⟨j, hj, ?_⟩
      rw [Swap_getD h k j j hi hj]; simp
    · by_cases hkj : k = j
      · subst hkj
        refine ⟨i, hi, ?_⟩
        rw [Swap_getD h i k i hi hj]; simp
        intro e; subst e; rfl
      · refine ⟨k, hk, ?_⟩
        rw [Swap_getD h i j k hi hj]; simp [hki, hkj]

theorem IndexOK_inj (h : priorityQueue) (hI : IndexOK h) (a b : Nat) (ha : a < h.pq.length)
    (hb : b < h.pq.length) (e : h.pq.getD a 0 = h.pq.getD b 0) : a = b := by
  have h1 := (hI a ha).2
  have h2 := (hI b hb).2
  rw [e] at h1
  have : (a : Int) = b := by rw [← h1, ← h2]
  exact_mod_cast this

theorem IndexOK_nodup (h : priorityQueue) (hI : IndexOK h) : h.pq.Nodup := by
  rw [List.nodup_iff_injective_get]
  intro a b e
  have := IndexOK_inj h hI a.1 b.1 a.2 b.2
    (by simpa [List.getD_eq_getElem?_getD, a.2, b.2] using e)
  exact Fin.ext this

theorem IndexOK_Swap (h : priorityQueue) (i j : Nat) (hi : i < h.pq.length)
    (hj : j < h.pq.length) (hI : IndexOK h) : IndexOK (h.Swap i j) := by
  intro k hk
  rw [Swap_length] at hk
  rw [Swap_mem_length]
  have hgi := Swap_getD h i j i hi hj
  have hgj := Swap_getD h i j j hi hj
  have hgk := Swap_getD h i j k hi hj
  simp only [if_true] at hgj
  constructor
  · rw [hgk]; split
    · exact (hI i hi).1
    · split
      · exact (hI j hj).1
      · exact (hI k hk).1
  · show ((setIndex (setIndex h.mem ((h.Swap i j).pq.getD i 0) i) ((h.Swap i j).pq.getD j 0) j).getD
      ((h.Swap i j).pq.getD k 0) default).index = k
    by_cases hkj : k = j
    · subst hkj
      rw [index_setIndex_same]
      rw [length_setIndex, hgj]; exact (hI i hi).1
    · rw [hgj]
      have hne : h.pq.getD i 0 ≠ (h.Swap i j).pq.getD k 0 := by
        rw [hgk]; simp only [hkj, if_false]
        split
        · intro e; exact hkj (by rename_i hki; rw [hki]; exact IndexOK_inj h hI i j hi hj e)
        · intro e; rename_i hki; exact hki (IndexOK_inj h hI i k hi hk e).symm
      rw [index_setIndex_other _ _ _ _ hne]
      by_cases hki : k = i
      · subst hki
        rw [index_setIndex_same]
        rw [hgi]; split
        · exact (hI k hi).1
        · simp only [↓reduceIte]; exact (hI j hj).1
      · have hne2 : (h.Swap i j).pq.getD i 0 ≠ (h.Swap i j).pq.getD k 0 := by
          rw [hgi, hgk]; simp only [hkj, hki, if_false]
          split
          · rename_i hij; subst hij; intro e; exact hki (IndexOK_inj h hI i k hi hk e).symm
          · intro e; exact hkj (IndexOK_inj h hI j k hj hk e).symm
        rw [index_setIndex_other _ _ _ _ hne2]
        rw [hgk]; simp only [hkj, hki, if_false]
        exact (hI k hk).2

/-! ## The heap order and the loops of `container/heap` -/

theorem key_Swap_fun (h : priorityQueue) (i j : Nat) (hi : i < h.pq.length)
    (hj : j < h.pq.length) : key (h.Swap i j) = swapF (key h) i j := by
  funext k; exact key_Swap h i j k hi hj

theorem Less_eq (h : priorityQueue) (i j : Nat) : h.Less i j = decide (key h i > key h j) := rfl

theorem DownExc.both {f : Nat → Int} {n i : Nat} (h : DownExc f n i) : BothExc f n i :=
  ⟨fun k h1 h2 _ h4 => h.1 k h1 h2 h4, h.2⟩

theorem IsHeap.upExc {f : Nat → Int} {n : Nat} (h : IsHeap f n) (j : Nat) : UpExc f n j := by
  refine ⟨fun k h1 h2 _ => h k h1 h2, fun k h1 h2 h3 h4 => ?_⟩
  have a := h k h1 h2
  have b := h j h4 (by omega)
  rw [h3] at a; omega

theorem up_stop {f : Nat → Int} {n j : Nat} (h : UpExc f n j)
    (hs : (j - 1) / 2 = j ∨ f j ≤ f ((j - 1) / 2)) : IsHeap f n := by
  intro k h1 h2
  by_cases hk : k = j
  · subst hk
    rcases hs with hs | hs
    · omega
    · exact hs
  · exact h.1 k h1 h2 hk

theorem up_step {f : Nat → Int} {n j : Nat} (h : UpExc f n j) (hj : j < n)
    (hne : (j - 1) / 2 ≠ j) (hlt : f ((j - 1) / 2) < f j) :
    UpExc (swapF f ((j - 1) / 2) j) n ((j - 1) / 2) := by
  obtain ⟨h1, h2⟩ := h
  have hj0 : 0 < j := by omega
  constructor
  · intro k k0 kn kne
    simp only [swapF]
    by_cases hkj : k = j
    · subst hkj
      simp only [if_true, hne, if_false]
      omega
    · simp only [hkj, kne, if_false]
      by_cases hp : (k - 1) / 2 = j
      · simp only [hp, if_true]
        exact h2 k k0 kn hp hj0
      · simp only [hp, if_false]
        by_cases hp2 : (k - 1) / 2 = (j - 1) / 2
        · simp only [hp2, if_true]
          have := h1 k k0 kn hkj
          rw [hp2] at this; omega
        · simp only [hp2, if_false]
          exact h1 k k0 kn hkj
  · intro k k0 kn kp i0
    have hpi1 : ((j - 1) / 2 - 1) / 2 ≠ j := by omega
    have hpi2 : ((j - 1) / 2 - 1) / 2 ≠ (j - 1) / 2 := by omega
    have hi := h1 ((j - 1) / 2) i0 (by omega) hne
    simp only [swapF, hpi1, hpi2, if_false]
    by_cases hkj : k = j
    · subst hkj; simp only [if_true]; exact hi
    · have hki : k ≠ (j - 1) / 2 := by omega
      simp only [hkj, hki, if_false]
      have := h1 k k0 kn hkj
      rw [kp] at this; omega

theorem down_stop {f : Nat → Int} {n i : Nat} (h : DownExc f n i)
    (hs : ∀ k, 0 < k → k < n → (k - 1) / 2 = i → f k ≤ f i) : IsHeap f n := by
  intro k h1 h2
  by_cases hp : (k - 1) / 2 = i
  · rw [hp]; exact hs k h1 h2 hp
  · exact h.1 k h1 h2 hp

theorem down_step {f : Nat → Int} {n i j : Nat} (h : BothExc f n i) (hj : j < n)
    (hji : (j - 1) / 2 = i) (hj0 : 0 < j) (hlt : f i < f j)
    (hmax : ∀ k, 0 < k → k < n → (k - 1) / 2 = i → f k ≤ f j) :
    DownExc (swapF f i j) n j := by
  obtain ⟨h1, h2⟩ := h
  have hij : i ≠ j := by omega
  constructor
  · intro k k0 kn kp
    simp only [swapF]
    by_cases hkj : k = j
    · subst hkj
      simp only [if_true, hji, hij, if_false]
      omega
    · simp only [hkj, kp, if_false]
      by_cases hki : k = i
      · subst hki
        have hpp : (k - 1) / 2 ≠ k := by omega
        simp only [if_true, hpp, if_false]
        exact h2 j hj0 hj hji k0
      · simp only [hki, if_false]
        by_cases hp : (k - 1) / 2 = i
        · simp only [hp, if_true]
          exact hmax k k0 kn hp
        · simp only [hp, if_false]
          exact h1 k k0 kn hki hp
  · intro k k0 kn kp _
    have hkj : k ≠ j := by omega
    have hki : k ≠ i := by omega
    simp only [swapF, hkj, hki, if_false, hji, if_true, hij]
    have := h1 k k0 kn hki (by omega)
    rw [kp] at this; exact this

theorem upLoop_succ (fuel : Nat) (h : priorityQueue) (j : Nat) :
    heap.upLoop (fuel + 1) h j =
      if (j - 1) / 2 = j ∨ h.Less j ((j - 1) / 2) = false then h
      else heap.upLoop fuel (h.Swap ((j - 1) / 2) j) ((j - 1) / 2) := rfl

theorem downLoop_succ (fuel : Nat) (h : priorityQueue) (i n : Nat) :
    heap.downLoop (fuel + 1) h i n =
      if 2 * i + 1 ≥ n then (h, i)
      else if h.Less (heap.pickChild h (2 * i + 1) n) i = false then (h, i)
      else heap.downLoop fuel (h.Swap i (heap.pickChild h (2 * i + 1) n))
        (heap.pickChild h (2 * i + 1) n) n := rfl

theorem pickChild_cases (h : priorityQueue) (j1 n : Nat) :
    (heap.pickChild h j1 n = j1 ∧ (j1 + 1 < n → key h (j1 + 1) ≤ key h j1)) ∨
    (heap.pickChild h j1 n = j1 + 1 ∧ j1 + 1 < n ∧ key h j1 < key h (j1 + 1)) := by
  unfold heap.pickChild
  by_cases hc : j1 + 1 < n ∧ h.Less (j1 + 1) j1 = true
  · right
    rw [if_pos hc]
    obtain ⟨h1, h2⟩ := hc
    rw [Less_eq] at h2
    simp at h2
    exact ⟨rfl, h1, h2⟩
  · left
    rw [if_neg hc]
    refine ⟨rfl, fun h1 => ?_⟩
    rw [Less_eq] at hc
    simp at hc
    exact hc h1

/-- The loop of `up` has enough iterations as soon as the bound exceeds `j`. -/
theorem upLoop_fuel : ∀ (fuel : Nat) (h : priorityQueue) (j : Nat), j < fuel →
    heap.upLoop fuel h j = heap.upLoop (j + 1) h j := by
  intro fuel
  induction fuel using Nat.strong_induction_on with
  | _ fuel ih =>
    intro h j hj
    cases fuel with
    | zero => omega
    | succ fuel =>
      rw [upLoop_succ, upLoop_succ]
      split
      · rfl
      · rename_i hc
        have hlt : (j - 1) / 2 < j := by omega
        by_cases hf : (j - 1) / 2 < fuel
        · rw [ih fuel (by omega) _ _ hf]
          cases j with
          | zero => omega
          | succ j => rw [ih (j + 1) (by omega) _ _ hlt]
        · have : fuel = j := by omega
          subst this; rfl

/-- The function `up` satisfies the equation of Go's loop: the bound on the
iterations is never what ends it. -/
theorem up_unfold (h : priorityQueue) (j : Nat) :
    heap.up h j =
      if (j - 1) / 2 = j ∨ h.Less j ((j - 1) / 2) = false then h
      else heap.up (h.Swap ((j - 1) / 2) j) ((j - 1) / 2) := by
  unfold heap.up
  rw [upLoop_succ]
  split
  · rfl
  · rename_i hc
    exact upLoop_fuel j _ _ (by omega)

/-- The loop of `down` has enough iterations as soon as the bound reaches
`n - i`. -/
theorem downLoop_fuel : ∀ (fuel : Nat) (h : priorityQueue) (i n : Nat), n - i ≤ fuel →
    heap.downLoop fuel h i n = heap.downLoop (n - i) h i n := by
  intro fuel
  induction fuel using Nat.strong_induction_on with
  | _ fuel ih =>
    intro h i n hf
    cases fuel with
    | zero =>
      have : n - i = 0 := by omega
      rw [this]
    | succ fuel =>
      rw [downLoop_succ]
      by_cases hc : 2 * i + 1 ≥ n
      · rw [if_pos hc]
        cases hk : n - i with
        | zero => rfl
        | succ m => rw [downLoop_succ, if_pos hc]
      · rw [if_neg hc]
        obtain ⟨m, hm⟩ : ∃ m, n - i = m + 1 := ⟨n - i - 1, by omega⟩
        rw [hm, downLoop_succ, if_neg hc]
        split
        · rfl
        · have hj : i < heap.pickChild h (2 * i + 1) n := by
            rcases pickChild_cases h (2 * i + 1) n with ⟨e, _⟩ | ⟨e, _, _⟩ <;> omega
          rw [ih fuel (by omega) _ _ _ (by omega)]
          by_cases hmf : m = fuel
          · subst hmf
            rw [ih m (by omega) _ _ _ (by omega)]
          · rw [ih m (by omega) _ _ _ (by omega)]

/-- The function `down` satisfies the equation of Go's loop. -/
theorem downLoop_unfold (h : priorityQueue) (i n : Nat) :
    heap.downLoop (n - i) h i n =
      if 2 * i + 1 ≥ n then (h, i)
      else if h.Less (heap.pickChild h (2 * i + 1) n) i = false then (h, i)
      else heap.downLoop (n - heap.pickChild h (2 * i + 1) n)
        (h.Swap i (heap.pickChild h (2 * i + 1) n)) (heap.pickChild h (2 * i + 1) n) n := by
  by_cases hc : 2 * i + 1 ≥ n
  · rw [if_pos hc]
    cases hk : n - i with
    | zero => rfl
    | succ m => rw [downLoop_succ, if_pos hc]
  · rw [if_neg hc]
    obtain ⟨m, hm⟩ : ∃ m, n - i = m + 1 := ⟨n - i - 1, by omega⟩
    rw [hm, downLoop_succ, if_neg hc]
    split
    · rfl
    · have hj : i < heap.pickChild h (2 * i + 1) n := by
        rcases pickChild_cases h (2 * i + 1) n with ⟨e, _⟩ | ⟨e, _, _⟩ <;> omega
      exact downLoop_fuel m _ _ _ (by omega)

theorem down_eq (h : priorityQueue) (i n : Nat) :
    heap.down h i n =
      ((heap.downLoop (n - i) h i n).1, decide ((heap.downLoop (n - i) h i n).2 > i)) := by
  unfold heap.down
  rw [downLoop_fuel n h i n (by omega)]

theorem upLoop_inv (P : priorityQueue → Prop) (j0 : Nat)
    (hP : ∀ h a b, a < b → b ≤ j0 → b < h.pq.length → P h → P (h.Swap a b)) :
    ∀ (fuel : Nat) (h : priorityQueue) (j : Nat), j ≤ j0 → j < h.pq.length → P h →
      P (heap.upLoop fuel h j) := by
  intro fuel
  induction fuel with
  | zero => intro h j _ _ hp; exact hp
  | succ fuel ih =>
    intro h j hj hl hp
    rw [upLoop_succ]
    split
    · exact hp
    · rename_i hc
      have hlt : (j - 1) / 2 < j := by omega
      exact ih _ _ (by omega) (by rw [Swap_length]; omega) (hP h _ _ hlt hj hl hp)

theorem downLoop_inv (P : priorityQueue → Prop) (i0 n : Nat)
    (hP : ∀ h a b, i0 ≤ a → a < b → b < n → n ≤ h.pq.length → P h → P (h.Swap a b)) :
    ∀ (fuel : Nat) (h : priorityQueue) (i : Nat), i0 ≤ i → n ≤ h.pq.length → P h →
      P (heap.downLoop fuel h i n).1 := by
  intro fuel
  induction fuel with
  | zero => intro h i _ _ hp; exact hp
  | succ fuel ih =>
    intro h i hi hl hp
    rw [downLoop_succ]
    split
    · exact hp
    · rename_i hc
      split
      · exact hp
      · have hj : i < heap.pickChild h (2 * i + 1) n ∧ heap.pickChild h (2 * i + 1) n < n := by
          rcases pickChild_cases h (2 * i + 1) n with ⟨e, _⟩ | ⟨e, _, _⟩ <;> omega
        exact ih _ _ (by omega) (by rw [Swap_length]; exact hl) (hP h _ _ hi hj.1 hj.2 hl hp)

theorem downLoop_ge : ∀ (fuel : Nat) (h : priorityQueue) (i n : Nat),
    i ≤ (heap.downLoop fuel h i n).2 := by
  intro fuel
  induction fuel with
  | zero => intro h i n; exact Nat.le_refl _
  | succ fuel ih =>
    intro h i n
    rw [downLoop_succ]
    split
    · exact Nat.le_refl _
    · split
      · exact Nat.le_refl _
      · have hj : i < heap.pickChild h (2 * i + 1) n := by
          rcases pickChild_cases h (2 * i + 1) n with ⟨e, _⟩ | ⟨e, _, _⟩ <;> omega
        exact Nat.le_trans (Nat.le_of_lt hj) (ih _ _ _)

theorem upLoop_heap : ∀ (fuel : Nat) (h : priorityQueue) (j n : Nat), j < fuel → j < n →
    n ≤ h.pq.length → UpExc (key h) n j → IsHeap (key (heap.upLoop fuel h j)) n := by
  intro fuel
  induction fuel with
  | zero => intro h j n hf; omega
  | succ fuel ih =>
    intro h j n hf hj hn hu
    rw [upLoop_succ]
    split
    · rename_i hc
      apply up_stop hu
      rcases hc with hc | hc
      · exact Or.inl hc
      · right
        rw [Less_eq] at hc
        simpa using hc
    · rename_i hc
      have hc1 : (j - 1) / 2 ≠ j := fun e => hc (Or.inl e)
      have hc2 : key h ((j - 1) / 2) < key h j := by
        by_contra hx
        apply hc; right
        rw [Less_eq]; simpa using hx
      have hlt : (j - 1) / 2 < j := by omega
      apply ih _ _ _ (by omega) (by omega) (by rw [Swap_length]; exact hn)
      rw [key_Swap_fun h _ _ (by omega) (by omega)]
      exact up_step hu hj hc1 hc2

theorem up_heap (h : priorityQueue) (j n : Nat) (hj : j < n) (hn : n ≤ h.pq.length)
    (hu : UpExc (key h) n j) : IsHeap (key (heap.up h j)) n :=
  upLoop_heap (j + 1) h j n (by omega) hj hn hu

/-- The children of `i` below `n` carry at most the priority of the child that
`pickChild` selects. -/
theorem pickChild_max (h : priorityQueue) (i n : Nat) (_hc : 2 * i + 1 < n) (k : Nat)
    (k0 : 0 < k) (kn : k < n) (kp : (k - 1) / 2 = i) :
    key h k ≤ key h (heap.pickChild h (2 * i + 1) n) := by
  have hk : k = 2 * i + 1 ∨ k = 2 * i + 1 + 1 := by omega
  rcases pickChild_cases h (2 * i + 1) n with ⟨e, h1⟩ | ⟨e, h1, h2⟩
  · rw [e]
    rcases hk with hk | hk
    · rw [hk]
    · rw [hk]; exact h1 (by omega)
  · rw [e]
    rcases hk with hk | hk
    · rw [hk]; omega
    · rw [hk]

theorem pickChild_child (h : priorityQueue) (i n : Nat) (hc : 2 * i + 1 < n) :
    i < heap.pickChild h (2 * i + 1) n ∧ heap.pickChild h (2 * i + 1) n < n ∧
    (heap.pickChild h (2 * i + 1) n - 1) / 2 = i := by
  rcases pickChild_cases h (2 * i + 1) n with ⟨e, _⟩ | ⟨e, _, _⟩ <;> omega

theorem downLoop_heap : ∀ (fuel : Nat) (h : priorityQueue) (i n : Nat), n ≤ fuel + i →
    n ≤ h.pq.length → DownExc (key h) n i → IsHeap (key (heap.downLoop fuel h i n).1) n := by
  intro fuel
  induction fuel with
  | zero =>
    intro h i n hf hn hd
    exact down_stop hd (fun k k0 kn kp => by omega)
  | succ fuel ih =>
    intro h i n hf hn hd
    rw [downLoop_succ]
    split
    · exact down_stop hd (fun k k0 kn kp => by omega)
    · rename_i hc
      have hc' : 2 * i + 1 < n := by omega
      obtain ⟨c1, c2, c3⟩ := pickChild_child h i n hc'
      split
      · rename_i hl
        rw [Less_eq] at hl
        have hl' : key h (heap.pickChild h (2 * i + 1) n) ≤ key h i := by simpa using hl
        exact down_stop hd
          (fun k k0 kn kp => le_trans (pickChild_max h i n hc' k k0 kn kp) hl')
      · rename_i hl
        rw [Less_eq] at hl
        have hl' : key h i < key h (heap.pickChild h (2 * i + 1) n) := by simpa using hl
        apply ih _ _ _ (by omega) (by rw [Swap_length]; exact hn)
        rw [key_Swap_fun h _ _ (by omega) (by omega)]
        exact down_step hd.both c2 c3 (by omega) hl' (pickChild_max h i n hc')

/-- After position `i` has been overwritten, `down` either moves (and the heap
order holds) or leaves the queue as it is, in a state `up` repairs. -/
theorem downLoop_both (fuel : Nat) (h : priorityQueue) (i n : Nat) (hf : n ≤ fuel + i)
    (hn : n ≤ h.pq.length) (hb : BothExc (key h) n i) :
    (i < (heap.downLoop fuel h i n).2 ∧ IsHeap (key (heap.downLoop fuel h i n).1) n) ∨
    ((heap.downLoop fuel h i n).2 = i ∧ (heap.downLoop fuel h i n).1 = h ∧
      UpExc (key h) n i) := by
  have hup : (∀ k, 0 < k → k < n → (k - 1) / 2 = i → key h k ≤ key h i) → UpExc (key h) n i := by
    intro hch
    refine ⟨fun k k0 kn kne => ?_, hb.2⟩
    by_cases kp : (k - 1) / 2 = i
    · rw [kp]; exact hch k k0 kn kp
    · exact hb.1 k k0 kn kne kp
  cases fuel with
  | zero =>
    right
    exact ⟨rfl, rfl, hup (fun k k0 kn kp => by omega)⟩
  | succ fuel =>
    rw [downLoop_succ]
    split
    · right
      exact ⟨rfl, rfl, hup (fun k k0 kn kp => by omega)⟩
    · rename_i hc
      have hc' : 2 * i + 1 < n := by omega
      obtain ⟨c1, c2, c3⟩ := pickChild_child h i n hc'
      split
      · rename_i hl
        rw [Less_eq] at hl
        have hl' : key h (heap.pickChild h (2 * i + 1) n) ≤ key h i := by simpa using hl
        right
        exact ⟨rfl, rfl,
          hup (fun k k0 kn kp => le_trans (pickChild_max h i n hc' k k0 kn kp) hl')⟩
      · rename_i hl
        rw [Less_eq] at hl
        have hl' : key h i < key h (heap.pickChild h (2 * i + 1) n) := by simpa using hl
        left
        refine ⟨Nat.lt_of_lt_of_le c1 (downLoop_ge _ _ _ _), ?_⟩
        apply downLoop_heap _ _ _ _ (by omega) (by rw [Swap_length]; exact hn)
        rw [key_Swap_fun h _ _ (by omega) (by omega)]
        exact down_step hb c2 c3 (by omega) hl' (pickChild_max h i n hc')

theorem IsHeap.root_max {f : Nat → Int} {n : Nat} (h : IsHeap f n) :
    ∀ k, k < n → f k ≤ f 0 := by
  intro k
  induction k using Nat.strong_induction_on with
  | _ k ih =>
    intro hk
    by_cases k0 : k = 0
    · subst k0; exact le_refl _
    · exact le_trans (h k (by omega) hk) (ih ((k - 1) / 2) (by omega) (by omega))

theorem IsHeap.mono {f : Nat → Int} {n m : Nat} (h : IsHeap f n) (hm : m ≤ n) : IsHeap f m :=
  fun k k0 km => h k k0 (by omega)

/-! ## The operations of `container/heap` on the queue -/

theorem SameObjs.same (m : List priorityTask) : SameObjs m m := ⟨rfl, fun _ => ⟨rfl, rfl⟩⟩

theorem SameObjs.chain {m0 m1 m2 : List priorityTask} (h1 : SameObjs m0 m1)
    (h2 : SameObjs m1 m2) : SameObjs m0 m2 :=
  ⟨h2.1.trans h1.1, fun p =>
    ⟨(h2.2 p).1.trans (h1.2 p).1, (h2.2 p).2.trans (h1.2 p).2⟩⟩

theorem SameObjs_setIndex (m : List priorityTask) (p : Nat) (v : Int) :
    SameObjs m (setIndex m p v) :=
  ⟨length_setIndex m p v, fun q => ⟨prioAt_setIndex m p q v, task_setIndex m p q v⟩⟩

theorem SameObjs_Swap (h : priorityQueue) (i j : Nat) : SameObjs h.mem (h.Swap i j).mem :=
  ⟨Swap_mem_length h i j, fun p => ⟨prioAt_Swap h i j p, task_Swap h i j p⟩⟩

theorem SameObjs.key_eq {h0 h : priorityQueue} (hs : SameObjs h0.mem h.mem) (k : Nat)
    (hk : h.pq.getD k 0 = h0.pq.getD k 0) : key h k = key h0 k := by
  unfold key; rw [hk]; exact (hs.2 _).1

theorem Rearr.same_queue (h : priorityQueue) (hI : IndexOK h) (n : Nat) : Rearr h h n :=
  ⟨hI, rfl, SameObjs.same _, fun _ => Iff.rfl, fun _ _ => rfl⟩

theorem Rearr.swap {h0 h : priorityQueue} {n : Nat} (hr : Rearr h0 h n) (a b : Nat)
    (ha : a < n) (hb : b < n) (hn : n ≤ h.pq.length) : Rearr h0 (h.Swap a b) n := by
  obtain ⟨r1, r2, r3, r4, r5⟩ := hr
  have hal : a < h.pq.length := by omega
  have hbl : b < h.pq.length := by omega
  refine ⟨IndexOK_Swap h a b hal hbl r1, by rw [Swap_length]; exact r2,
    r3.chain (SameObjs_Swap h a b), fun x => (mem_Swap_pq h a b x hal hbl).trans (r4 x), ?_⟩
  intro k hk
  rw [Swap_getD h a b k hal hbl, if_neg (by omega), if_neg (by omega)]
  exact r5 k hk

theorem Rearr.compose {h0 h1 h2 : priorityQueue} {n m : Nat} (a : Rearr h0 h1 n)
    (b : Rearr h1 h2 m) : Rearr h0 h2 (max n m) :=
  ⟨b.1, b.2.1.trans a.2.1, a.2.2.1.chain b.2.2.1, fun x => (b.2.2.2.1 x).trans (a.2.2.2.1 x),
    fun k hk => (b.2.2.2.2 k (le_trans (le_max_right _ _) hk)).trans
      (a.2.2.2.2 k (le_trans (le_max_left _ _) hk))⟩

theorem Rearr.upLoop {h0 h : priorityQueue} {n : Nat} (hr : Rearr h0 h n) (fuel j : Nat)
    (hj : j < n) (hn : n ≤ h.pq.length) : Rearr h0 (heap.upLoop fuel h j) n := by
  have := upLoop_inv (fun h => Rearr h0 h n ∧ n ≤ h.pq.length) j
    (fun h a b hab hbj _ hp =>
      ⟨hp.1.swap a b (by omega) (by omega) hp.2, by rw [Swap_length]; exact hp.2⟩)
    fuel h j (le_refl _) (by omega) ⟨hr, hn⟩
  exact this.1

theorem Rearr.downLoop {h0 h : priorityQueue} {n : Nat} (hr : Rearr h0 h n) (fuel i : Nat)
    (hn : n ≤ h.pq.length) : Rearr h0 (heap.downLoop fuel h i n).1 n := by
  have := downLoop_inv (fun h => Rearr h0 h n) i n
    (fun h a b _ hab hbn hl hp => hp.swap a b (by omega) hbn hl)
    fuel h i (le_refl _) hn hr
  exact this

theorem getD_dropLast (l : List Nat) (k : Nat) (hk : k < l.length - 1) :
    l.dropLast.getD k 0 = l.getD k 0 := by
  have hk2 : k < l.length := by omega
  simp [List.getD_eq_getElem?_getD, List.getElem?_dropLast, hk, hk2]

/-- The method `Pop` on a queue whose `index` fields are up to date and whose
first `Len - 1` positions are in heap order. -/
theorem Pop_spec (h : priorityQueue) (hI : IndexOK h) (hl : 0 < h.pq.length)
    (hh : IsHeap (key h) (h.pq.length - 1)) :
    ∃ h1, h.Pop = some (h1, h.pq.getD (h.pq.length - 1) 0) ∧ QOK h1 ∧
      h1.pq.length = h.pq.length - 1 ∧ SameObjs h.mem h1.mem ∧
      (∀ x, x ∈ h1.pq ↔ x ∈ h.pq ∧ x ≠ h.pq.getD (h.pq.length - 1) 0) ∧
      (∀ k, k < h.pq.length - 1 → h1.pq.getD k 0 = h.pq.getD k 0) ∧
      (h1.mem.getD (h.pq.getD (h.pq.length - 1) 0) default).index = -1 := by
  have hlast : h.pq.getLast? = some (h.pq.getD (h.pq.length - 1) 0) := by
    rw [List.getLast?_eq_getElem?]
    simp [List.getD_eq_getElem?_getD, hl]
  refine ⟨{ mem := setIndex h.mem (h.pq.getD (h.pq.length - 1) 0) (-1), pq := h.pq.dropLast },
    ?_, ⟨?_, ?_⟩, ?_, ?_, ?_, ?_, ?_⟩
  · unfold priorityQueue.Pop
    rw [hlast]
  · intro k hk
    simp only [List.length_dropLast] at hk
    simp only [length_setIndex]
    rw [getD_dropLast _ _ hk]
    refine ⟨(hI k (by omega)).1, ?_⟩
    rw [index_setIndex_other]
    · exact (hI k (by omega)).2
    · intro e
      have := IndexOK_inj h hI _ _ (by omega) (by omega) e
      omega
  · intro k k0 hk
    simp only [List.length_dropLast] at hk
    have := hh k k0 hk
    unfold key at this ⊢
    simp only [prioAt_setIndex]
    rw [getD_dropLast _ _ hk, getD_dropLast _ _ (by omega)]
    exact this
  · simp
  · exact SameObjs_setIndex _ _ _
  · intro x
    simp only [mem_pq_iff, List.length_dropLast]
    constructor
    · rintro ⟨k, hk, rfl⟩
      rw [getD_dropLast _ _ hk]
      refine ⟨⟨k, by omega, rfl⟩, fun e => ?_⟩
      have := IndexOK_inj h hI _ _ (by omega) (by omega) e
      omega
    · rintro ⟨⟨k, hk, rfl⟩, hne⟩
      have hk' : k < h.pq.length - 1 := by
        by_contra hx
        apply hne
        have : k = h.pq.length - 1 := by omega
        rw [← this]
      exact ⟨k, hk', getD_dropLast _ _ hk'⟩
  · intro k hk
    exact getD_dropLast _ _ hk
  · exact index_setIndex_same _ _ _ (hI _ (by omega)).1

/-- The queue on which `heap.Remove(h, i)` calls `h.Pop()`: the entry that was
at position `i` is last, the `index` fields are up to date, and the positions
before the last are in heap order. -/
theorem Remove_mid (h : priorityQueue) (hq : QOK h) (i : Nat) (hi : i < h.pq.length)
    (hne : h.pq.length - 1 ≠ i) :
    ∃ h2, (if (heap.down (h.Swap i (h.pq.length - 1)) i (h.pq.length - 1)).2 = false then
        heap.up (heap.down (h.Swap i (h.pq.length - 1)) i (h.pq.length - 1)).1 i
      else (heap.down (h.Swap i (h.pq.length - 1)) i (h.pq.length - 1)).1) = h2 ∧
      Rearr h h2 h.pq.length ∧ h2.pq.getD (h.pq.length - 1) 0 = h.pq.getD i 0 ∧
      IsHeap (key h2) (h.pq.length - 1) := by
  obtain ⟨hI, hH⟩ := hq
  have hn : h.pq.length - 1 < h.pq.length := by omega
  have hin : i < h.pq.length - 1 := by omega
  have hr1 : Rearr h (h.Swap i (h.pq.length - 1)) h.pq.length :=
    (Rearr.same_queue h hI _).swap _ _ hi hn (le_refl _)
  have hlast1 : (h.Swap i (h.pq.length - 1)).pq.getD (h.pq.length - 1) 0 = h.pq.getD i 0 := by
    rw [Swap_getD h _ _ _ hi hn]; simp
  have hl1 : (h.Swap i (h.pq.length - 1)).pq.length = h.pq.length := Swap_length _ _ _
  have hb : BothExc (key (h.Swap i (h.pq.length - 1))) (h.pq.length - 1) i := by
    rw [key_Swap_fun h _ _ hi hn]
    constructor
    · intro k k0 kn kne kp
      have := hH k k0 (by omega)
      simp only [swapF]
      rw [if_neg (by omega), if_neg kne, if_neg (by omega), if_neg kp]
      exact this
    · intro k k0 kn kp i0
      have a := hH k k0 (by omega)
      have b := hH i i0 hi
      simp only [swapF]
      rw [if_neg (by omega), if_neg (by omega), if_neg (by omega), if_neg (by omega)]
      rw [kp] at a; omega
  rw [down_eq]
  have hrd := (Rearr.same_queue (h.Swap i (h.pq.length - 1))
    (hr1.1) (h.pq.length - 1)).downLoop (h.pq.length - 1 - i) i (by omega)
  rcases downLoop_both (h.pq.length - 1 - i) (h.Swap i (h.pq.length - 1)) i (h.pq.length - 1)
    (by omega) (by omega) hb with ⟨c1, c2⟩ | ⟨c1, c2, c3⟩
  · refine ⟨_, rfl, ?_⟩
    have hd : decide ((heap.downLoop (h.pq.length - 1 - i) (h.Swap i (h.pq.length - 1)) i
        (h.pq.length - 1)).2 > i) = true := by simpa using c1
    simp only [hd, Bool.true_eq_false, ↓reduceIte]
    have ht := hr1.compose hrd
    rw [max_eq_left (by omega)] at ht
    refine ⟨ht, ?_, c2⟩
    rw [hrd.2.2.2.2 _ (le_refl _)]
    exact hlast1
  · refine ⟨_, rfl, ?_⟩
    have hd : decide ((heap.downLoop (h.pq.length - 1 - i) (h.Swap i (h.pq.length - 1)) i
        (h.pq.length - 1)).2 > i) = false := by simp [c1]
    simp only [hd, ↓reduceIte]
    rw [c2]
    have hru := (Rearr.same_queue (h.Swap i (h.pq.length - 1)) (hr1.1) (h.pq.length - 1)).upLoop
      (i + 1) i hin (by omega)
    have ht := hr1.compose hru
    rw [max_eq_left (by omega)] at ht
    refine ⟨ht, ?_, ?_⟩
    · unfold heap.up
      rw [hru.2.2.2.2 _ (le_refl _)]
      exact hlast1
    · exact up_heap _ _ _ hin (by omega) c3

theorem Removed_of_Pop (h h2 : priorityQueue) (item : Nat) (hr : Rearr h h2 h.pq.length)
    (hl : 0 < h.pq.length) (hlast : h2.pq.getD (h.pq.length - 1) 0 = item)
    (hitem : item ∈ h.pq) (hh : IsHeap (key h2) (h.pq.length - 1)) :
    ∃ h1, h2.Pop = some (h1, item) ∧ Removed h h1 item := by
  obtain ⟨r1, r2, r3, r4, _⟩ := hr
  obtain ⟨h1, p1, p2, p3, p4, p5, _, p7⟩ := Pop_spec h2 r1 (by omega) (by rw [r2]; exact hh)
  rw [r2, hlast] at p1 p5 p7
  refine ⟨h1, p1, p2, by omega, r3.chain p4, fun x => ?_, p7, hitem⟩
  rw [p5 x, r4 x]

/-- The function `heap.Remove` at a position `k` of a well-formed queue returns
the entry at that position and leaves the well-formed queue of the others. -/
theorem heap_Remove_spec (h : priorityQueue) (hq : QOK h) (k : Nat) (hk : k < h.pq.length) :
    ∃ h1, heap.Remove h (k : Int) = some (h1, h.pq.getD k 0) ∧ Removed h h1 (h.pq.getD k 0) := by
  have hitem : h.pq.getD k 0 ∈ h.pq := (mem_pq_iff _ _).2 ⟨k, hk, rfl⟩
  unfold heap.Remove
  have hc : 0 ≤ (k : Int) ∧ (k : Int) < (h.Len : Int) := by
    constructor
    · omega
    · unfold priorityQueue.Len; omega
  rw [if_pos hc]
  simp only [Int.toNat_ofNat, priorityQueue.Len]
  by_cases hne : h.pq.length - 1 ≠ k
  · rw [if_pos hne]
    obtain ⟨h2, e, r, hlast, hh⟩ := Remove_mid h hq k hk hne
    have e2 : (if (heap.down (h.Swap k (h.pq.length - 1)) k (h.pq.length - 1)).2 = false then
        (heap.up (heap.down (h.Swap k (h.pq.length - 1)) k (h.pq.length - 1)).1 k).Pop
      else (heap.down (h.Swap k (h.pq.length - 1)) k (h.pq.length - 1)).1.Pop) = h2.Pop := by
      rw [← e]; split <;> rfl
    rw [e2]
    exact Removed_of_Pop h h2 _ r (by omega) hlast hitem hh
  · rw [if_neg hne]
    have hk2 : h.pq.length - 1 = k := by omega
    exact Removed_of_Pop h h _ (Rearr.same_queue h hq.1 _) (by omega) (by rw [hk2]) hitem
      (hq.2.mono (by omega))

/-- The function `heap.Pop` on a non-empty well-formed queue returns the entry
at position `0` and leaves the well-formed queue of the others. -/
theorem heap_Pop_spec (h : priorityQueue) (hq : QOK h) (hl : 0 < h.pq.length) :
    ∃ h1, heap.Pop h = some (h1, h.pq.getD 0 0) ∧ Removed h h1 (h.pq.getD 0 0) := by
  obtain ⟨hI, hH⟩ := hq
  have hitem : h.pq.getD 0 0 ∈ h.pq := (mem_pq_iff _ _).2 ⟨0, hl, rfl⟩
  have hn : h.pq.length - 1 < h.pq.length := by omega
  unfold heap.Pop
  simp only [priorityQueue.Len]
  rw [if_neg (by omega), down_eq]
  have hr1 : Rearr h (h.Swap 0 (h.pq.length - 1)) h.pq.length :=
    (Rearr.same_queue h hI _).swap _ _ hl hn (le_refl _)
  have hlast1 : (h.Swap 0 (h.pq.length - 1)).pq.getD (h.pq.length - 1) 0 = h.pq.getD 0 0 := by
    rw [Swap_getD h _ _ _ hl hn]; simp
  have hd : DownExc (key (h.Swap 0 (h.pq.length - 1))) (h.pq.length - 1) 0 := by
    rw [key_Swap_fun h _ _ hl hn]
    constructor
    · intro k k0 kn kp
      have := hH k k0 (by omega)
      simp only [swapF]
      rw [if_neg (by omega), if_neg (by omega), if_neg (by omega), if_neg kp]
      exact this
    · intro k _ _ _ i0; omega
  have hrd := (Rearr.same_queue (h.Swap 0 (h.pq.length - 1))
    (hr1.1) (h.pq.length - 1)).downLoop (h.pq.length - 1 - 0) 0
    (by rw [Swap_length]; omega)
  have ht := hr1.compose hrd
  rw [max_eq_left (by omega)] at ht
  apply Removed_of_Pop h _ _ ht hl _ hitem
  · exact downLoop_heap _ _ _ _ (by omega) (by rw [Swap_length]; omega) hd
  · rw [hrd.2.2.2.2 _ (le_refl _)]
    exact hlast1

theorem getD_append_left (l : List Nat) (x k : Nat) (hk : k < l.length) :
    (l ++ [x]).getD k 0 = l.getD k 0 := by
  simp [List.getD_eq_getElem?_getD, List.getElem?_append_left hk]

theorem getD_append_last (l : List Nat) (x : Nat) : (l ++ [x]).getD l.length 0 = x := by
  simp [List.getD_eq_getElem?_getD]

/-- The function `heap.Push` of an allocated entry `x` that is not in the
well-formed queue: the queue is well formed again and holds `x` besides the
former entries. -/
theorem heap_Push_spec (h : priorityQueue) (hq : QOK h) (x : Nat) (hx : x < h.mem.length)
    (hnx : x ∉ h.pq) :
    QOK (heap.Push h x) ∧ (heap.Push h x).pq.length = h.pq.length + 1 ∧
    SameObjs h.mem (heap.Push h x).mem ∧ (∀ y, y ∈ (heap.Push h x).pq ↔ y ∈ h.pq ∨ y = x) := by
  obtain ⟨hI, hH⟩ := hq
  have hlen : (h.Push x).pq.length = h.pq.length + 1 := by simp [priorityQueue.Push]
  have hI1 : IndexOK (h.Push x) := by
    intro k hk
    rw [hlen] at hk
    simp only [priorityQueue.Push, length_setIndex]
    by_cases hkl : k < h.pq.length
    · rw [getD_append_left _ _ _ hkl]
      refine ⟨(hI k hkl).1, ?_⟩
      rw [index_setIndex_other]
      · exact (hI k hkl).2
      · intro e; apply hnx; rw [e]; exact (mem_pq_iff _ _).2 ⟨k, hkl, rfl⟩
    · have : k = h.pq.length := by omega
      subst this
      rw [getD_append_last]
      exact ⟨hx, index_setIndex_same _ _ _ hx⟩
  have hkey : ∀ k, k < h.pq.length → key (h.Push x) k = key h k := by
    intro k hk
    simp only [key, priorityQueue.Push, prioAt_setIndex]
    rw [getD_append_left _ _ _ hk]
  have hU : UpExc (key (h.Push x)) (h.pq.length + 1) h.pq.length := by
    constructor
    · intro k k0 kn kne
      rw [hkey k (by omega), hkey _ (by omega)]
      exact hH k k0 (by omega)
    · intro k k0 kn kp _; omega
  have hr := (Rearr.same_queue (h.Push x) hI1 (h.pq.length + 1)).upLoop (h.pq.length + 1)
    h.pq.length (by omega) (by omega)
  have hLen : (h.Push x).Len - 1 = h.pq.length := by
    simp [priorityQueue.Len, hlen]
  have e : heap.Push h x = heap.upLoop (h.pq.length + 1) (h.Push x) h.pq.length := by
    unfold heap.Push heap.up
    rw [hLen]
  rw [e]
  refine ⟨⟨hr.1, ?_⟩, by rw [hr.2.1, hlen], ?_, ?_⟩
  · rw [hr.2.1, hlen]
    exact upLoop_heap _ _ _ _ (by omega) (by omega) (by omega) hU
  · exact (SameObjs_setIndex _ _ _).chain hr.2.2.1
  · intro y
    rw [hr.2.2.2.1 y]
    simp [priorityQueue.Push]

/-! ## The pool: the map and the invariant -/

theorem lookup_eq_some_mem (m : List (String × Nat)) (k : String) (v : Nat)
    (h : m.lookup k = some v) : (k, v) ∈ m := by
  induction m with
  | nil => simp at h
  | cons b m ih =>
    obtain ⟨k1, v1⟩ := b
    by_cases e : k = k1
    · subst e
      simp [List.lookup] at h
      subst h; exact List.mem_cons_self _ _
    · have e' : (k == k1) = false := by simpa using e
      simp only [List.lookup, e'] at h
      exact List.mem_cons_of_mem _ (ih h)

theorem lookup_eq_none_iff (m : List (String × Nat)) (k : String) :
    m.lookup k = none ↔ ∀ v, (k, v) ∉ m := by
  induction m with
  | nil => simp
  | cons b m ih =>
    obtain ⟨k1, v1⟩ := b
    by_cases e : k = k1
    · subst e
      simp [List.lookup]
      exact ⟨v1, fun hv => absurd rfl hv⟩
    · have e' : (k == k1) = false := by simpa using e
      simp only [List.lookup, e', ih]
      constructor
      · intro h v hv
        rcases List.mem_cons.1 hv with hv | hv
        · exact e (by simpa using (Prod.mk.inj hv).1)
        · exact h v hv
      · intro h v hv
        exact h v (List.mem_cons_of_mem _ hv)

theorem mem_lookup_of_nodup (m : List (String × Nat)) (k : String) (v : Nat)
    (hn : (m.map Prod.fst).Nodup) (h : (k, v) ∈ m) : m.lookup k = some v := by
  induction m with
  | nil => simp at h
  | cons b m ih =>
    obtain ⟨k1, v1⟩ := b
    simp only [List.map_cons, List.nodup_cons] at hn
    rcases List.mem_cons.1 h with h1 | h2
    · obtain ⟨e1, e2⟩ := Prod.mk.inj h1
      subst e1; subst e2
      simp [List.lookup]
    · have e : k ≠ k1 := by
        intro e; subst e
        exact hn.1 (List.mem_map.2 ⟨(k, v), h2, rfl⟩)
      have e' : (k == k1) = false := by simpa using e
      simp only [List.lookup, e']
      exact ih hn.2 h2

theorem mem_mapDelete (m : List (String × Nat)) (k k1 : String) (v : Nat) :
    (k1, v) ∈ mapDelete m k ↔ (k1, v) ∈ m ∧ k1 ≠ k := by
  simp [mapDelete, List.mem_filter]

theorem mem_mapSet (m : List (String × Nat)) (k k1 : String) (v v1 : Nat) :
    (k1, v1) ∈ mapSet m k v ↔ (k1 = k ∧ v1 = v) ∨ ((k1, v1) ∈ m ∧ k1 ≠ k) := by
  simp [mapSet, List.mem_filter]

theorem nodup_mapDelete (m : List (String × Nat)) (k : String)
    (hn : (m.map Prod.fst).Nodup) : ((mapDelete m k).map Prod.fst).Nodup := by
  unfold mapDelete
  exact List.Nodup.sublist (List.Sublist.map _ (List.filter_sublist _)) hn

theorem nodup_mapSet (m : List (String × Nat)) (k : String) (v : Nat)
    (hn : (m.map Prod.fst).Nodup) : ((mapSet m k v).map Prod.fst).Nodup := by
  unfold mapSet
  simp only [List.map_cons, List.nodup_cons]
  refine ⟨?_, nodup_mapDelete m k hn⟩
  intro h
  obtain ⟨b, hb, e⟩ := List.mem_map.1 h
  simp [List.mem_filter] at hb
  exact hb.2 e

theorem lookup_mapDelete_self (m : List (String × Nat)) (k : String) :
    (mapDelete m k).lookup k = none := by
  rw [lookup_eq_none_iff]
  intro v hv
  exact ((mem_mapDelete m k k v).1 hv).2 rfl

theorem getElem?_eq_some_getD {α : Type} (l : List α) (i : Nat) (d : α) (h : i < l.length) :
    l[i]? = some (l.getD i d) := by
  simp [List.getD_eq_getElem?_getD, h]

theorem getD_of_getElem? {α : Type} (l : List α) (i : Nat) (d a : α) (h : l[i]? = some a) :
    l.getD i d = a ∧ i < l.length := by
  have hl : i < l.length := by
    by_contra hx
    rw [List.getElem?_eq_none (by omega)] at h
    exact Option.noConfusion h
  refine ⟨?_, hl⟩
  simp [List.getD_eq_getElem?_getD, h]

theorem taskId_set (tasks : List Task) (t u : Nat) (tk : Task)
    (hid : tk.id = (tasks.getD t default).id) : taskId (tasks.set t tk) u = taskId tasks u := by
  unfold taskId Task.ID
  by_cases ht : t < tasks.length
  · by_cases e : t = u
    · subst e; simp [List.getD_eq_getElem?_getD, ht, hid]
    · simp [List.getD_eq_getElem?_getD, List.getElem?_set, e]
  · rw [List.set_eq_of_length_le (by omega)]

theorem taskId_append (tasks : List Task) (tk : Task) (u : Nat) (hu : u < tasks.length) :
    taskId (tasks ++ [tk]) u = taskId tasks u := by
  unfold taskId
  simp [List.getD_eq_getElem?_getD, List.getElem?_append_left hu]

theorem Task.Cancel_id (t : Task) : t.Cancel.id = t.id := by
  unfold Task.Cancel; split <;> rfl

theorem Task.Execute_id (t : Task) : t.Execute.id = t.id := by
  unfold Task.Execute Task.executeBegin Task.executeEnd
  by_cases h : t.cancel = 1 <;> cases ha : t.action <;> simp [h]

theorem IndexOK.pos_of_mem {h : priorityQueue} (hI : IndexOK h) {p : Nat} (hp : p ∈ h.pq) :
    ∃ k, k < h.pq.length ∧ h.pq.getD k 0 = p ∧ p < h.mem.length ∧
      (h.mem.getD p default).index = (k : Int) := by
  obtain ⟨k, hk, e⟩ := (mem_pq_iff _ _).1 hp
  refine ⟨k, hk, e, ?_, ?_⟩
  · rw [← e]; exact (hI k hk).1
  · rw [← e]; exact (hI k hk).2

theorem Inv_NewWorkpool (tasks : List Task) : Inv (NewWorkpool tasks) := by
  refine ⟨⟨?_, ?_⟩, ?_, ?_, ?_⟩
  · intro k hk; simp [NewWorkpool] at hk
  · intro k _ hk; simp [NewWorkpool] at hk
  · intro p hp; simp [NewWorkpool] at hp
  · intro id p hp; simp [NewWorkpool] at hp
  · simp [NewWorkpool]

theorem getD_mem_append (mem : List priorityTask) (e : priorityTask) (p : Nat)
    (hp : p < mem.length) : (mem ++ [e]).getD p default = mem.getD p default := by
  simp [List.getD_eq_getElem?_getD, List.getElem?_append_left hp]

theorem getD_mem_append_last (mem : List priorityTask) (e : priorityTask) :
    (mem ++ [e]).getD mem.length default = e := by
  simp [List.getD_eq_getElem?_getD]

/-- Allocating an entry leaves the queue well formed. -/
theorem QOK_alloc (h : priorityQueue) (hq : QOK h) (e : priorityTask) :
    QOK { mem := h.mem ++ [e], pq := h.pq } := by
  obtain ⟨hI, hH⟩ := hq
  have hk : ∀ k, k < h.pq.length →
      key { mem := h.mem ++ [e], pq := h.pq } k = key h k := by
    intro k hk
    simp only [key, prioAt]
    rw [getD_mem_append _ _ _ (hI k hk).1]
  constructor
  · intro k hk'
    have hk : k < h.pq.length := hk'
    simp only [List.length_append, List.length_singleton]
    refine ⟨by have := (hI k hk).1; omega, ?_⟩
    rw [getD_mem_append _ _ _ (hI k hk).1]
    exact (hI k hk).2
  · intro k k0 kn
    have kn' : k < h.pq.length := kn
    rw [hk k kn', hk _ (by omega)]
    exact hH k k0 kn'

/-- The method `Submit` on a state satisfying the invariant, for a task that
exists: it returns, and the new state satisfies the invariant; the queue holds
the new entry besides the former ones. -/
theorem Submit_spec (w : World) (hinv : Inv w) (t : Nat) (priority : Int)
    (ht : t < w.tasks.length) :
    ∃ w1, Submit w t priority = some w1 ∧ Inv w1 ∧ w1.tasks = w.tasks ∧
      w1.claimed = w.claimed ∧ w1.running = w.running ∧
      w1.taskMap = mapSet w.taskMap (taskId w.tasks t) w.taskQueue.mem.length ∧
      w1.taskQueue.pq.length = w.taskQueue.pq.length + 1 ∧
      w1.taskQueue.mem.length = w.taskQueue.mem.length + 1 ∧
      (∀ y, y ∈ w1.taskQueue.pq ↔ y ∈ w.taskQueue.pq ∨ y = w.taskQueue.mem.length) ∧
      (∀ p, p < w.taskQueue.mem.length → entryOf w1 p = entryOf w p) ∧
      entryOf w1 w.taskQueue.mem.length = (t, priority) := by
  obtain ⟨hq, hv, hm, hn⟩ := hinv
  have hget : w.tasks[t]? = some (w.tasks.getD t default) := getElem?_eq_some_getD _ _ _ ht
  have hq0 := QOK_alloc w.taskQueue hq { task := t, priority := priority, index := 0 }
  have hfresh : w.taskQueue.mem.length ∉ w.taskQueue.pq := by
    intro hx
    obtain ⟨k, _, _, h3, _⟩ := hq.1.pos_of_mem hx
    omega
  obtain ⟨p1, p2, p3, p4⟩ := heap_Push_spec _ hq0 w.taskQueue.mem.length
    (by simp) hfresh
  refine ⟨{ w with
      taskQueue := heap.Push
        { mem := w.taskQueue.mem ++ [{ task := t, priority := priority, index := 0 }],
          pq := w.taskQueue.pq } w.taskQueue.mem.length
      taskMap := mapSet w.taskMap (w.tasks.getD t default).ID w.taskQueue.mem.length },
    by unfold Submit; rw [hget], ⟨p1, ?_, ?_, ?_⟩, rfl, rfl, rfl, rfl, p2, ?_, p4, ?_, ?_⟩
  · intro p hp
    show ((heap.Push _ _).mem.getD p default).task < w.tasks.length
    rw [(p3.2 p).2]
    rw [p3.1] at hp
    simp only [List.length_append, List.length_singleton] at hp
    by_cases hpl : p < w.taskQueue.mem.length
    · rw [getD_mem_append _ _ _ hpl]; exact hv p hpl
    · have : p = w.taskQueue.mem.length := by omega
      subst this
      rw [getD_mem_append_last]; exact ht
  · intro id p hp
    show p ∈ (heap.Push _ _).pq ∧ taskId w.tasks ((heap.Push _ _).mem.getD p default).task = id
    rw [(p3.2 p).2, p4 p]
    have hp' : (id, p) ∈ mapSet w.taskMap (w.tasks.getD t default).ID w.taskQueue.mem.length := hp
    rcases (mem_mapSet _ _ _ _ _).1 hp' with ⟨e1, e2⟩ | ⟨h1, _⟩
    · subst e2
      refine ⟨Or.inr rfl, ?_⟩
      rw [getD_mem_append_last, e1]; rfl
    · obtain ⟨a, b⟩ := hm id p h1
      obtain ⟨k, _, _, h3, _⟩ := hq.1.pos_of_mem a
      refine ⟨Or.inl a, ?_⟩
      rw [getD_mem_append _ _ _ h3]; exact b
  · exact nodup_mapSet _ _ _ hn
  · rw [p3.1]; simp
  · intro p hp
    unfold entryOf
    have a := (p3.2 p).1
    have b := (p3.2 p).2
    simp only [prioAt] at a
    rw [getD_mem_append _ _ _ hp] at a b
    exact Prod.ext b a
  · unfold entryOf
    have a := (p3.2 w.taskQueue.mem.length).1
    have b := (p3.2 w.taskQueue.mem.length).2
    simp only [prioAt] at a
    rw [getD_mem_append_last] at a b
    exact Prod.ext b a

theorem Inv_removed (w : World) (hinv : Inv w) (q1 : priorityQueue) (item : Nat)
    (hr : Removed w.taskQueue q1 item) (tasks1 : List Task)
    (hlen : tasks1.length = w.tasks.length) (hid : ∀ u, taskId tasks1 u = taskId w.tasks u)
    (r : Int) (cl : List Nat) :
    Inv { tasks := tasks1, taskQueue := q1, taskMap := mapDelete w.taskMap (idOf w item),
          running := r, claimed := cl } := by
  obtain ⟨hq, hv, hm, hn⟩ := hinv
  obtain ⟨r1, r2, r3, r4, r5, r6⟩ := hr
  refine ⟨r1, ?_, ?_, nodup_mapDelete _ _ hn⟩
  · intro p hp
    show (q1.mem.getD p default).task < tasks1.length
    rw [(r3.2 p).2, hlen]
    exact hv p (by rw [← r3.1]; exact hp)
  · intro id p hp
    show p ∈ q1.pq ∧ taskId tasks1 (q1.mem.getD p default).task = id
    obtain ⟨h1, h2⟩ := (mem_mapDelete _ _ _ _).1 hp
    obtain ⟨a, b⟩ := hm id p h1
    rw [r4 p, hid, (r3.2 p).2]
    refine ⟨⟨a, ?_⟩, b⟩
    intro e; subst e
    exact h2 b.symm

/-- The method `Cancel` for an identifier the map binds, on a state satisfying
the invariant: it returns; the entry bound to the identifier is removed from
the queue and the binding from the map, and `Cancel` is called on its task. -/
theorem Cancel_spec (w : World) (hinv : Inv w) (taskID : String) (pt : Nat)
    (hl : w.taskMap.lookup taskID = some pt) :
    ∃ q1, Removed w.taskQueue q1 pt ∧ idOf w pt = taskID ∧
      (w.taskQueue.mem.getD pt default).task < w.tasks.length ∧
      Cancel w taskID = some { w with
        taskQueue := q1
        taskMap := mapDelete w.taskMap taskID
        tasks := w.tasks.set (w.taskQueue.mem.getD pt default).task
          (w.tasks.getD (w.taskQueue.mem.getD pt default).task default).Cancel } ∧
      Inv { w with
        taskQueue := q1
        taskMap := mapDelete w.taskMap taskID
        tasks := w.tasks.set (w.taskQueue.mem.getD pt default).task
          (w.tasks.getD (w.taskQueue.mem.getD pt default).task default).Cancel } := by
  have hinv' := hinv
  obtain ⟨hq, hv, hm, hn⟩ := hinv
  obtain ⟨hp, hidp⟩ := hm taskID pt (lookup_eq_some_mem _ _ _ hl)
  obtain ⟨k, hk, e1, e2, e3⟩ := hq.1.pos_of_mem hp
  obtain ⟨q1, c1, c2⟩ := heap_Remove_spec w.taskQueue hq k hk
  rw [e1] at c1 c2
  have ht := hv pt e2
  refine ⟨q1, c2, hidp, ht, ?_, ?_⟩
  · unfold Cancel
    rw [hl]
    simp only
    rw [getElem?_eq_some_getD _ _ default e2]
    simp only
    rw [e3, c1]
    simp only
    rw [getElem?_eq_some_getD _ _ default ht]
  · have := Inv_removed w hinv' q1 pt c2
      (w.tasks.set (w.taskQueue.mem.getD pt default).task
        (w.tasks.getD (w.taskQueue.mem.getD pt default).task default).Cancel)
      (by simp) (fun u => taskId_set _ _ _ _ (Task.Cancel_id _)) w.running w.claimed
    rw [hidp] at this
    exact this

theorem Cancel_absent (w : World) (taskID : String) (hl : w.taskMap.lookup taskID = none) :
    Cancel w taskID = some w := by
  unfold Cancel; rw [hl]

/-- The critical section of the worker on a non-empty queue, in a state
satisfying the invariant: it returns the entry at position `0`, which is
removed from the queue, and deletes the binding of its task's identifier. -/
theorem dequeue_spec (w : World) (hinv : Inv w) (hl : 0 < w.taskQueue.pq.length) :
    ∃ q1, Removed w.taskQueue q1 (w.taskQueue.pq.getD 0 0) ∧
      dequeue w = some { w with
        taskQueue := q1
        taskMap := mapDelete w.taskMap (idOf w (w.taskQueue.pq.getD 0 0))
        claimed := w.claimed ++ [w.taskQueue.pq.getD 0 0] } ∧
      Inv { w with
        taskQueue := q1
        taskMap := mapDelete w.taskMap (idOf w (w.taskQueue.pq.getD 0 0))
        claimed := w.claimed ++ [w.taskQueue.pq.getD 0 0] } := by
  have hinv' := hinv
  obtain ⟨hq, hv, hm, hn⟩ := hinv
  obtain ⟨q1, c1, c2⟩ := heap_Pop_spec w.taskQueue hq hl
  have hitem : w.taskQueue.pq.getD 0 0 < w.taskQueue.mem.length := (hq.1 0 hl).1
  have hitem1 : w.taskQueue.pq.getD 0 0 < q1.mem.length := by rw [c2.2.2.1.1]; exact hitem
  have htask := (c2.2.2.1.2 (w.taskQueue.pq.getD 0 0)).2
  have ht := hv _ hitem
  refine ⟨q1, c2, ?_, ?_⟩
  · unfold dequeue
    rw [if_neg (by unfold priorityQueue.Len; omega), c1]
    simp only
    rw [getElem?_eq_some_getD _ _ default hitem1]
    simp only
    rw [htask, getElem?_eq_some_getD _ _ default ht]
    rfl
  · exact Inv_removed w hinv' q1 _ c2 w.tasks rfl (fun _ => rfl) w.running _

theorem dequeue_blocked (w : World) (hl : w.taskQueue.pq.length = 0) : dequeue w = none := by
  unfold dequeue
  rw [if_pos (by unfold priorityQueue.Len; exact hl)]

theorem Inv_tasks (w : World) (hinv : Inv w) (tasks1 : List Task)
    (hlen : w.tasks.length ≤ tasks1.length)
    (hid : ∀ u, u < w.tasks.length → taskId tasks1 u = taskId w.tasks u) :
    Inv { w with tasks := tasks1 } := by
  obtain ⟨hq, hv, hm, hn⟩ := hinv
  refine ⟨hq, fun p hp => lt_of_lt_of_le (hv p hp) hlen, ?_, hn⟩
  intro id p hp
  obtain ⟨a, b⟩ := hm id p hp
  refine ⟨a, ?_⟩
  obtain ⟨k, _, _, h3, _⟩ := hq.1.pos_of_mem a
  show taskId tasks1 (w.taskQueue.mem.getD p default).task = id
  rw [hid _ (hv p h3)]; exact b

theorem execute_spec (w : World) (t : Nat) (ht : t < w.tasks.length) :
    execute w t = some { w with tasks := w.tasks.set t (w.tasks.getD t default).Execute } := by
  unfold execute
  rw [getElem?_eq_some_getD _ _ default ht]

theorem execute_some (w w1 : World) (t : Nat) (h : execute w t = some w1) :
    t < w.tasks.length ∧
    w1 = { w with tasks := w.tasks.set t (w.tasks.getD t default).Execute } := by
  have ht : t < w.tasks.length := by
    by_contra hx
    unfold execute at h
    rw [List.getElem?_eq_none (by omega)] at h
    exact Option.noConfusion h
  rw [execute_spec w t ht] at h
  exact ⟨ht, (Option.some.inj h).symm⟩

theorem Submit_some (w w1 : World) (t : Nat) (priority : Int)
    (h : Submit w t priority = some w1) : t < w.tasks.length := by
  by_contra hx
  unfold Submit at h
  rw [List.getElem?_eq_none (by omega)] at h
  exact Option.noConfusion h

/-- Every operation that returns preserves the invariant. -/
theorem Inv_step (w w1 : World) (o : Op) (hinv : Inv w) (h : step w o = some w1) : Inv w1 := by
  cases o with
  | newTask id action =>
    simp only [step, Option.some.injEq] at h
    subst h
    exact Inv_tasks w hinv _ (by simp) (fun u hu => taskId_append _ _ _ hu)
  | submit t priority =>
    simp only [step] at h
    obtain ⟨w2, e, hi, _⟩ := Submit_spec w hinv t priority (Submit_some w w1 t priority h)
    rw [e] at h
    rw [← Option.some.inj h]; exact hi
  | cancel taskID =>
    simp only [step] at h
    cases hl : w.taskMap.lookup taskID with
    | none =>
      rw [Cancel_absent w taskID hl] at h
      rw [← Option.some.inj h]; exact hinv
    | some pt =>
      obtain ⟨q1, _, _, _, e, hi⟩ := Cancel_spec w hinv taskID pt hl
      rw [e] at h
      rw [← Option.some.inj h]; exact hi
  | dequeue =>
    simp only [step] at h
    by_cases hl : w.taskQueue.pq.length = 0
    · rw [dequeue_blocked w hl] at h
      exact Option.noConfusion h
    · obtain ⟨q1, _, e, hi⟩ := dequeue_spec w hinv (by omega)
      rw [e] at h
      rw [← Option.some.inj h]; exact hi
  | execute t =>
    simp only [step] at h
    obtain ⟨ht, e⟩ := execute_some w w1 t h
    subst e
    exact Inv_tasks w hinv _ (by simp) (fun u _ => taskId_set _ _ _ _ (Task.Execute_id _))

theorem Inv_run (ops : List Op) : ∀ (w w1 : World), Inv w → run w ops = some w1 → Inv w1 := by
  induction ops with
  | nil => intro w w1 hinv h; simp only [run] at h; rw [← Option.some.inj h]; exact hinv
  | cons o os ih =>
    intro w w1 hinv h
    simp only [run] at h
    cases hs : step w o with
    | none => rw [hs] at h; exact Option.noConfusion h
    | some w2 =>
      rw [hs] at h
      exact ih w2 w1 (Inv_step w w2 o hinv hs) h

theorem Inv_of_Reachable (w : World) (h : Reachable w) : Inv w := by
  obtain ⟨tasks, ops, hr⟩ := h
  exact Inv_run ops _ _ (Inv_NewWorkpool tasks) hr

/-! ## The claims on the pool -/

theorem exampleWorld_reachable : Reachable exampleWorld :=
  ⟨[NewTask "a" Callback.returns, NewTask "b" Callback.returns, NewTask "c" Callback.returns],
   [Op.submit 0 1, Op.submit 1 3, Op.submit 2 2, Op.cancel "b"], by decide⟩

theorem prio_le_root (w : World) (hinv : Inv w) (p : Nat) (hp : p ∈ w.taskQueue.pq) :
    (entryOf w p).2 ≤ (entryOf w (w.taskQueue.pq.getD 0 0)).2 := by
  obtain ⟨k, hk, e⟩ := (mem_pq_iff _ _).1 hp
  have := hinv.1.2.root_max k hk
  unfold key prioAt at this
  rw [e] at this
  exact this

/-- C7: in every state reachable from a new pool by `Submit`, `Cancel`, worker
dequeues (and task creation and execution), if the queue is not empty the
worker's dequeue returns: it hands over an entry `pt` of the queue, removes
exactly that entry, and the priority of `pt` is at least the priority of every
entry that was in the queue. -/
theorem C7_dequeue_takes_highest (w : World) (hr : Reachable w) (hne : w.taskQueue.Len ≠ 0) :
    ∃ w1 pt, dequeue w = some w1 ∧ w1.claimed = w.claimed ++ [pt] ∧ pt ∈ w.taskQueue.pq ∧
      (∀ p, p ∈ w1.taskQueue.pq ↔ p ∈ w.taskQueue.pq ∧ p ≠ pt) ∧
      (∀ p, p ∈ w.taskQueue.pq → (entryOf w p).2 ≤ (entryOf w pt).2) := by
  have hinv := Inv_of_Reachable w hr
  have hl : 0 < w.taskQueue.pq.length := by
    unfold priorityQueue.Len at hne; omega
  obtain ⟨q1, hrm, e, _⟩ := dequeue_spec w hinv hl
  exact ⟨_, w.taskQueue.pq.getD 0 0, e, rfl, hrm.2.2.2.2.2, hrm.2.2.2.1,
    fun p hp => prio_le_root w hinv p hp⟩

theorem C7_dequeue_takes_highest_witness :
    Reachable exampleWorld ∧ exampleWorld.taskQueue.Len ≠ 0 ∧
    ∃ w1 pt, dequeue exampleWorld = some w1 ∧ w1.claimed = exampleWorld.claimed ++ [pt] ∧
      pt ∈ exampleWorld.taskQueue.pq ∧
      (∀ p, p ∈ w1.taskQueue.pq ↔ p ∈ exampleWorld.taskQueue.pq ∧ p ≠ pt) ∧
      (∀ p, p ∈ exampleWorld.taskQueue.pq →
        (entryOf exampleWorld p).2 ≤ (entryOf exampleWorld pt).2) :=
  ⟨exampleWorld_reachable, by decide,
   C7_dequeue_takes_highest exampleWorld exampleWorld_reachable (by decide)⟩

/-- C8: in every reachable state and for every identifier, `Cancel` returns, a
second `Cancel` of the same identifier returns and changes nothing (queue, map,
task states and all the rest are exactly as after the first), and `Cancel` of
an identifier the map does not bind changes nothing. -/
theorem C8_cancel_idempotent (w : World) (hr : Reachable w) (taskID : String) :
    ∃ w1, Cancel w taskID = some w1 ∧ Cancel w1 taskID = some w1 ∧
      (w.taskMap.lookup taskID = none → w1 = w) := by
  have hinv := Inv_of_Reachable w hr
  cases hl : w.taskMap.lookup taskID with
  | none => exact ⟨w, Cancel_absent w taskID hl, Cancel_absent w taskID hl, fun _ => rfl⟩
  | some pt =>
    obtain ⟨q1, _, _, _, e, _⟩ := Cancel_spec w hinv taskID pt hl
    refine ⟨_, e, ?_, fun h => Option.noConfusion h⟩
    exact Cancel_absent _ taskID (lookup_mapDelete_self _ _)

theorem C8_cancel_idempotent_witness :
    Reachable exampleWorld ∧
    ∃ w1, Cancel exampleWorld "a" = some w1 ∧ Cancel w1 "a" = some w1 ∧
      (exampleWorld.taskMap.lookup "a" = none → w1 = exampleWorld) :=
  ⟨exampleWorld_reachable, C8_cancel_idempotent exampleWorld exampleWorld_reachable "a"⟩

theorem Agree_NewWorkpool (tasks : List Task) : Agree (NewWorkpool tasks) :=
  ⟨Inv_NewWorkpool tasks, fun p hp => by simp [NewWorkpool] at hp⟩

theorem Agree_removed (w : World) (ha : Agree w) (q1 : priorityQueue) (item : Nat)
    (hr : Removed w.taskQueue q1 item) (tasks1 : List Task)
    (hlen : tasks1.length = w.tasks.length) (hid : ∀ u, taskId tasks1 u = taskId w.tasks u)
    (r : Int) (cl : List Nat) :
    Agree { tasks := tasks1, taskQueue := q1, taskMap := mapDelete w.taskMap (idOf w item),
            running := r, claimed := cl } := by
  obtain ⟨hinv, hag⟩ := ha
  refine ⟨Inv_removed w hinv q1 item hr tasks1 hlen hid r cl, ?_⟩
  intro p hp
  have hp' : p ∈ q1.pq := hp
  obtain ⟨h1, h2⟩ := (hr.2.2.2.1 p).1 hp'
  show (taskId tasks1 (q1.mem.getD p default).task, p) ∈ mapDelete w.taskMap (idOf w item)
  rw [hid, (hr.2.2.1.2 p).2]
  refine (mem_mapDelete _ _ _ _).2 ⟨hag p h1, ?_⟩
  intro e
  have a := mem_lookup_of_nodup _ _ _ hinv.2.2.2 (hag p h1)
  have b := mem_lookup_of_nodup _ _ _ hinv.2.2.2 (hag item hr.2.2.2.2.2)
  have e' : idOf w p = idOf w item := e
  rw [e'] at a
  rw [a] at b
  exact h2 (Option.some.inj b)

theorem Agree_tasks (w : World) (ha : Agree w) (tasks1 : List Task)
    (hlen : w.tasks.length ≤ tasks1.length)
    (hid : ∀ u, u < w.tasks.length → taskId tasks1 u = taskId w.tasks u) :
    Agree { w with tasks := tasks1 } := by
  obtain ⟨hinv, hag⟩ := ha
  refine ⟨Inv_tasks w hinv tasks1 hlen hid, ?_⟩
  intro p hp
  have hp' : p ∈ w.taskQueue.pq := hp
  obtain ⟨k, _, _, h3, _⟩ := hinv.1.1.pos_of_mem hp'
  show (taskId tasks1 (w.taskQueue.mem.getD p default).task, p) ∈ w.taskMap
  rw [hid _ (hinv.2.1 p h3)]
  exact hag p hp'

theorem Agree_step (w w1 : World) (o : Op) (ha : Agree w) (h : step w o = some w1)
    (hf : ∀ t priority, o = Op.submit t priority →
      w.taskMap.lookup (taskId w.tasks t) = none) : Agree w1 := by
  have hinv := ha.1
  cases o with
  | newTask id action =>
    simp only [step, Option.some.injEq] at h
    subst h
    exact Agree_tasks w ha _ (by simp) (fun u hu => taskId_append _ _ _ hu)
  | submit t priority =>
    simp only [step] at h
    obtain ⟨w2, e, hi, s1, _, _, s4, _, _, s7, s8, s9⟩ :=
      Submit_spec w hinv t priority (Submit_some w w1 t priority h)
    rw [e] at h
    have := Option.some.inj h
    subst this
    refine ⟨hi, ?_⟩
    intro p hp
    have hno := (lookup_eq_none_iff _ _).1 (hf t priority rfl)
    show (taskId w2.tasks (entryOf w2 p).1, p) ∈ w2.taskMap
    rw [s4, s1]
    rcases (s7 p).1 hp with hp1 | hp1
    · obtain ⟨k, _, _, h3, _⟩ := hinv.1.1.pos_of_mem hp1
      rw [s8 p h3]
      refine (mem_mapSet _ _ _ _ _).2 (Or.inr ⟨ha.2 p hp1, ?_⟩)
      intro e2
      have e3 : idOf w p = taskId w.tasks t := e2
      have := ha.2 p hp1
      rw [e3] at this
      exact hno p this
    · subst hp1
      rw [s9]
      exact (mem_mapSet _ _ _ _ _).2 (Or.inl ⟨rfl, rfl⟩)
  | cancel taskID =>
    simp only [step] at h
    cases hl : w.taskMap.lookup taskID with
    | none =>
      rw [Cancel_absent w taskID hl] at h
      rw [← Option.some.inj h]; exact ha
    | some pt =>
      obtain ⟨q1, hr, hidp, _, e, _⟩ := Cancel_spec w hinv taskID pt hl
      rw [e] at h
      rw [← Option.some.inj h]
      have := Agree_removed w ha q1 pt hr
        (w.tasks.set (w.taskQueue.mem.getD pt default).task
          (w.tasks.getD (w.taskQueue.mem.getD pt default).task default).Cancel)
        (by simp) (fun u => taskId_set _ _ _ _ (Task.Cancel_id _)) w.running w.claimed
      rw [hidp] at this
      exact this
  | dequeue =>
    simp only [step] at h
    by_cases hl : w.taskQueue.pq.length = 0
    · rw [dequeue_blocked w hl] at h
      exact Option.noConfusion h
    · obtain ⟨q1, hr, e, _⟩ := dequeue_spec w hinv (by omega)
      rw [e] at h
      rw [← Option.some.inj h]
      exact Agree_removed w ha q1 _ hr w.tasks rfl (fun _ => rfl) w.running _
  | execute t =>
    simp only [step] at h
    obtain ⟨ht, e⟩ := execute_some w w1 t h
    subst e
    exact Agree_tasks w ha _ (by simp) (fun u _ => taskId_set _ _ _ _ (Task.Execute_id _))

theorem Agree_run (ops : List Op) : ∀ (w w1 : World), Agree w → run w ops = some w1 →
    freshSubmits w ops = true → Agree w1 := by
  induction ops with
  | nil => intro w w1 ha h _; simp only [run] at h; rw [← Option.some.inj h]; exact ha
  | cons o os ih =>
    intro w w1 ha h hf
    simp only [run] at h
    simp only [freshSubmits, Bool.and_eq_true] at hf
    cases hs : step w o with
    | none => rw [hs] at h; exact Option.noConfusion h
    | some w2 =>
      rw [hs] at h hf
      refine ih w2 w1 (Agree_step w w2 o ha hs ?_) h hf.2
      intro t priority e
      subst e
      simpa using hf.1

theorem Agree.lookup_iff {w : World} (ha : Agree w) (id : String) (p : Nat) :
    w.taskMap.lookup id = some p ↔ p ∈ w.taskQueue.pq ∧ idOf w p = id := by
  constructor
  · intro h
    exact ha.1.2.2.1 id p (lookup_eq_some_mem _ _ _ h)
  · rintro ⟨h1, h2⟩
    have := ha.2 p h1
    rw [h2] at this
    exact mem_lookup_of_nodup _ _ _ ha.1.2.2.2 this

theorem Agree.length_eq {w : World} (ha : Agree w) :
    w.taskQueue.pq.length = w.taskMap.length := by
  obtain ⟨⟨hq, _, hm, hn⟩, hag⟩ := ha
  have d1 : w.taskQueue.pq.Nodup := IndexOK_nodup _ hq.1
  have d2 : (w.taskMap.map Prod.snd).Nodup := by
    refine List.Nodup.map_on ?_ (List.Nodup.of_map _ hn)
    intro x hx y hy e
    obtain ⟨k1, v1⟩ := x
    obtain ⟨k2, v2⟩ := y
    simp only at e
    subst e
    rw [← (hm k1 v1 hx).2, ← (hm k2 v1 hy).2]
  have hp : w.taskQueue.pq.Perm (w.taskMap.map Prod.snd) := by
    rw [List.perm_ext_iff_of_nodup d1 d2]
    intro p
    constructor
    · intro hp
      exact List.mem_map.2 ⟨(idOf w p, p), hag p hp, rfl⟩
    · intro hp
      obtain ⟨⟨k, v⟩, hb, e⟩ := List.mem_map.1 hp
      simp only at e
      subst e
      exact (hm k v hb).1
  rw [hp.length_eq, List.length_map]

/-- C9: after any sequence of operations from a new pool in which no task is
submitted while its identifier is bound in the map, the queue has as many
entries as the map has bindings, and the map binds an identifier to an entry
exactly when that entry is in the queue and belongs to a task with that
identifier. -/
theorem C9_queue_and_map_agree (tasks : List Task) (ops : List Op) (w : World)
    (hrun : run (NewWorkpool tasks) ops = some w)
    (hfresh : freshSubmits (NewWorkpool tasks) ops = true) :
    w.taskQueue.Len = w.taskMap.length ∧
    (∀ id p, w.taskMap.lookup id = some p ↔ p ∈ w.taskQueue.pq ∧ idOf w p = id) ∧
    w.taskQueue.pq.Nodup := by
  have ha := Agree_run ops _ _ (Agree_NewWorkpool tasks) hrun hfresh
  exact ⟨ha.length_eq, ha.lookup_iff, IndexOK_nodup _ ha.1.1.1⟩

theorem C9_queue_and_map_agree_witness :
    run (NewWorkpool
      [NewTask "a" Callback.returns, NewTask "b" Callback.returns, NewTask "c" Callback.returns])
      [Op.submit 0 1, Op.submit 1 3, Op.submit 2 2, Op.cancel "b"] = some exampleWorld ∧
    freshSubmits (NewWorkpool
      [NewTask "a" Callback.returns, NewTask "b" Callback.returns, NewTask "c" Callback.returns])
      [Op.submit 0 1, Op.submit 1 3, Op.submit 2 2, Op.cancel "b"] = true ∧
    (exampleWorld.taskQueue.Len = exampleWorld.taskMap.length ∧
    (∀ id p, exampleWorld.taskMap.lookup id = some p ↔
      p ∈ exampleWorld.taskQueue.pq ∧ idOf exampleWorld p = id) ∧
    exampleWorld.taskQueue.pq.Nodup) :=
  ⟨by decide, by decide,
   C9_queue_and_map_agree
     [NewTask "a" Callback.returns, NewTask "b" Callback.returns, NewTask "c" Callback.returns]
     [Op.submit 0 1, Op.submit 1 3, Op.submit 2 2, Op.cancel "b"] exampleWorld
     (by decide) (by decide)⟩

theorem lookup_mapDelete_other (m : List (String × Nat)) (k id : String) (h : id ≠ k) :
    (mapDelete m k).lookup id = m.lookup id := by
  unfold mapDelete
  induction m with
  | nil => rfl
  | cons b m ih =>
    obtain ⟨k1, v1⟩ := b
    by_cases e : k1 = k
    · subst e
      have e1 : (id == k1) = false := by simpa using h
      simp only [List.filter, bne_self_eq_false, List.lookup, e1]
      exact ih
    · have e1 : (k1 != k) = true := by simpa using e
      simp only [List.filter, e1, List.lookup]
      rw [ih]

theorem lookup_mapSet_self (m : List (String × Nat)) (k : String) (v : Nat) :
    (mapSet m k v).lookup k = some v := by
  simp [mapSet, List.lookup]

theorem lookup_mapSet_other (m : List (String × Nat)) (k id : String) (v : Nat) (h : id ≠ k) :
    (mapSet m k v).lookup id = m.lookup id := by
  have e1 : (id == k) = false := by simpa using h
  have := lookup_mapDelete_other m k id h
  unfold mapDelete at this
  simp only [mapSet, List.lookup, e1]
  exact this

theorem length_mapDelete_present (m : List (String × Nat)) (k : String) (v : Nat)
    (hn : (m.map Prod.fst).Nodup) (h : (k, v) ∈ m) :
    (mapDelete m k).length + 1 = m.length := by
  unfold mapDelete
  induction m with
  | nil => simp at h
  | cons b m ih =>
    obtain ⟨k1, v1⟩ := b
    simp only [List.map_cons, List.nodup_cons] at hn
    by_cases e : k1 = k
    · subst e
      have hnot : ∀ b ∈ m, (b.1 != k1) = true := by
        intro b hb
        have : b.1 ≠ k1 := fun e2 => hn.1 (List.mem_map.2 ⟨b, hb, e2⟩)
        simpa using this
      simp only [List.filter, bne_self_eq_false, List.length_cons]
      rw [List.filter_eq_self.2 hnot]
    · have e1 : (k1 != k) = true := by simpa using e
      have hm : (k, v) ∈ m := by
        rcases List.mem_cons.1 h with h1 | h1
        · exact absurd (Prod.mk.inj h1).1.symm e
        · exact h1
      simp only [List.filter, e1, List.length_cons]
      rw [ih hn.2 hm]

/-- C10, as stated, fails: with the identifier `a` already bound in the map,
`Submit` of the same task returns normally, puts a second entry for it in the
queue and rebinds the identifier: queue and map both change. -/
theorem C10_counterexample :
    run (NewWorkpool [NewTask "a" Callback.returns]) [Op.submit 0 1] = some dupBefore ∧
    dupBefore.taskMap.lookup (taskId dupBefore.tasks 0) = some 0 ∧
    Submit dupBefore 0 2 = some dupAfter ∧
    dupBefore.taskQueue.pq = [0] ∧ dupAfter.taskQueue.pq = [1, 0] ∧
    entryOf dupAfter 0 = (0, 1) ∧ entryOf dupAfter 1 = (0, 2) ∧
    dupBefore.taskMap = [("a", 0)] ∧ dupAfter.taskMap = [("a", 1)] := by
  decide

/-- C10, amended: `Submit` does not reject a duplicate.  In a reachable state
where the identifier of the task is already bound in the map, `Submit` returns
normally; the queue keeps all its entries (the one bound so far among them) and
gains a new entry for the task with the given priority; the map rebinds the
identifier to the new entry, keeps its other bindings and its size. -/
theorem C10_submit_duplicate (w : World) (hr : Reachable w) (t : Nat) (priority : Int)
    (ht : t < w.tasks.length) (p0 : Nat)
    (hdup : w.taskMap.lookup (taskId w.tasks t) = some p0) :
    ∃ w1, Submit w t priority = some w1 ∧
      w1.taskQueue.pq.length = w.taskQueue.pq.length + 1 ∧
      (∀ y, y ∈ w1.taskQueue.pq ↔ y ∈ w.taskQueue.pq ∨ y = w.taskQueue.mem.length) ∧
      w.taskQueue.mem.length ∉ w.taskQueue.pq ∧
      entryOf w1 w.taskQueue.mem.length = (t, priority) ∧
      p0 ∈ w1.taskQueue.pq ∧ p0 ≠ w.taskQueue.mem.length ∧
      w1.taskMap.lookup (taskId w.tasks t) = some w.taskQueue.mem.length ∧
      (∀ id, id ≠ taskId w.tasks t → w1.taskMap.lookup id = w.taskMap.lookup id) ∧
      w1.taskMap.length = w.taskMap.length := by
  have hinv := Inv_of_Reachable w hr
  obtain ⟨w1, e, _, _, _, _, s4, s5, _, s7, _, s9⟩ := Submit_spec w hinv t priority ht
  have hmem := lookup_eq_some_mem _ _ _ hdup
  have hp0 := (hinv.2.2.1 _ _ hmem).1
  obtain ⟨k, _, _, h3, _⟩ := hinv.1.1.pos_of_mem hp0
  have hfresh : w.taskQueue.mem.length ∉ w.taskQueue.pq := by
    intro hx
    obtain ⟨k, _, _, h3, _⟩ := hinv.1.1.pos_of_mem hx
    omega
  refine ⟨w1, e, s5, s7, hfresh, s9, (s7 p0).2 (Or.inl hp0), by omega, ?_, ?_, ?_⟩
  · rw [s4]; exact lookup_mapSet_self _ _ _
  · intro id hid
    rw [s4]; exact lookup_mapSet_other _ _ _ _ hid
  · rw [s4]
    have := length_mapDelete_present _ _ _ hinv.2.2.2 hmem
    unfold mapDelete at this
    simp only [mapSet, List.length_cons]
    exact this

theorem C10_submit_duplicate_witness :
    Reachable dupBefore ∧ 0 < dupBefore.tasks.length ∧
    dupBefore.taskMap.lookup (taskId dupBefore.tasks 0) = some 0 ∧
    ∃ w1, Submit dupBefore 0 2 = some w1 ∧
      w1.taskQueue.pq.length = dupBefore.taskQueue.pq.length + 1 ∧
      (∀ y, y ∈ w1.taskQueue.pq ↔
        y ∈ dupBefore.taskQueue.pq ∨ y = dupBefore.taskQueue.mem.length) ∧
      dupBefore.taskQueue.mem.length ∉ dupBefore.taskQueue.pq ∧
      entryOf w1 dupBefore.taskQueue.mem.length = (0, 2) ∧
      0 ∈ w1.taskQueue.pq ∧ 0 ≠ dupBefore.taskQueue.mem.length ∧
      w1.taskMap.lookup (taskId dupBefore.tasks 0) = some dupBefore.taskQueue.mem.length ∧
      (∀ id, id ≠ taskId dupBefore.tasks 0 →
        w1.taskMap.lookup id = dupBefore.taskMap.lookup id) ∧
      w1.taskMap.length = dupBefore.taskMap.length :=
  ⟨⟨[NewTask "a" Callback.returns], [Op.submit 0 1], by decide⟩, by decide, by decide,
   C10_submit_duplicate dupBefore
     ⟨[NewTask "a" Callback.returns], [Op.submit 0 1], by decide⟩ 0 2
     (by decide) 0 (by decide)⟩

theorem run_append (a b : List Op) : ∀ (w : World),
    run w (a ++ b) = (run w a).bind (fun w1 => run w1 b) := by
  induction a with
  | nil => intro w; rfl
  | cons o os ih =>
    intro w
    simp only [List.cons_append, run]
    cases step w o with
    | none => rfl
    | some w1 => exact ih w1

theorem getD_set_same {α : Type} (l : List α) (i : Nat) (a d : α) (h : i < l.length) :
    (l.set i a).getD i d = a := by
  simp [List.getD_eq_getElem?_getD, h]

theorem getD_set_other {α : Type} (l : List α) (i j : Nat) (a d : α) (h : i ≠ j) :
    (l.set i a).getD j d = l.getD j d := by
  simp [List.getD_eq_getElem?_getD, List.getElem?_set, h]

theorem entryOf_removed (w w1 : World) (item : Nat)
    (hr : Removed w.taskQueue w1.taskQueue item) (p : Nat) : entryOf w1 p = entryOf w p := by
  unfold entryOf
  have a := (hr.2.2.1.2 p).1
  have b := (hr.2.2.1.2 p).2
  simp only [prioAt] at a
  exact Prod.ext b a

/-- What an operation that returns does to the store of entries, the queue, the
record of claimed entries and the tasks. -/
theorem step_effect (w w1 : World) (o : Op) (hinv : Inv w) (h : step w o = some w1) :
    w.taskQueue.mem.length ≤ w1.taskQueue.mem.length ∧
    w.tasks.length ≤ w1.tasks.length ∧
    (∀ p, p < w.taskQueue.mem.length → entryOf w1 p = entryOf w p) ∧
    (∀ p, p ∈ w1.taskQueue.pq → p ∈ w.taskQueue.pq ∨
      (p = w.taskQueue.mem.length ∧ p < w1.taskQueue.mem.length ∧
        ∃ priority, o = Op.submit (entryOf w1 p).1 priority)) ∧
    (∀ p, p ∈ w1.claimed → p ∈ w.claimed ∨ p ∈ w.taskQueue.pq) ∧
    (∀ t, t < w.tasks.length →
      w1.tasks.getD t default = w.tasks.getD t default ∨
      w1.tasks.getD t default = (w.tasks.getD t default).Cancel ∨
      w1.tasks.getD t default = (w.tasks.getD t default).Execute) := by
  cases o with
  | newTask id action =>
    simp only [step, Option.some.injEq] at h
    subst h
    refine ⟨le_refl _, by simp, fun _ _ => rfl, fun p hp => Or.inl hp, fun p hp => Or.inl hp, ?_⟩
    intro t ht
    left
    simp [List.getD_eq_getElem?_getD, List.getElem?_append_left ht]
  | submit t priority =>
    simp only [step] at h
    obtain ⟨w2, e, _, s1, s2, _, _, _, s6, s7, s8, s9⟩ :=
      Submit_spec w hinv t priority (Submit_some w w1 t priority h)
    rw [e] at h
    have := Option.some.inj h
    subst this
    refine ⟨by omega, by rw [s1], s8, ?_, fun p hp => Or.inl (by rw [← s2]; exact hp), ?_⟩
    · intro p hp
      rcases (s7 p).1 hp with hp1 | hp1
      · exact Or.inl hp1
      · right
        subst hp1
        exact ⟨rfl, by omega, priority, by rw [s9]⟩
    · intro t _; left; rw [s1]
  | cancel taskID =>
    simp only [step] at h
    cases hl : w.taskMap.lookup taskID with
    | none =>
      rw [Cancel_absent w taskID hl] at h
      have := Option.some.inj h
      subst this
      exact ⟨le_refl _, le_refl _, fun _ _ => rfl, fun p hp => Or.inl hp,
        fun p hp => Or.inl hp, fun _ _ => Or.inl rfl⟩
    | some pt =>
      obtain ⟨q1, hr, _, _, e, _⟩ := Cancel_spec w hinv taskID pt hl
      rw [e] at h
      have := Option.some.inj h
      subst this
      refine ⟨by rw [← hr.2.2.1.1], by simp, fun p _ => entryOf_removed w _ pt hr p,
        fun p hp => Or.inl ((hr.2.2.2.1 p).1 hp).1, fun p hp => Or.inl hp, ?_⟩
      intro t ht
      by_cases et : (w.taskQueue.mem.getD pt default).task = t
      · right; left
        subst et
        exact getD_set_same _ _ _ _ ht
      · left
        exact getD_set_other _ _ _ _ _ et
  | dequeue =>
    simp only [step] at h
    by_cases hl : w.taskQueue.pq.length = 0
    · rw [dequeue_blocked w hl] at h
      exact Option.noConfusion h
    · obtain ⟨q1, hr, e, _⟩ := dequeue_spec w hinv (by omega)
      rw [e] at h
      have := Option.some.inj h
      subst this
      refine ⟨by rw [← hr.2.2.1.1], le_refl _, fun p _ => entryOf_removed w _ _ hr p,
        fun p hp => Or.inl ((hr.2.2.2.1 p).1 hp).1, ?_, fun _ _ => Or.inl rfl⟩
      intro p hp
      rcases List.mem_append.1 hp with hp1 | hp1
      · exact Or.inl hp1
      · right
        rw [List.mem_singleton.1 hp1]
        exact hr.2.2.2.2.2
  | execute t =>
    simp only [step] at h
    obtain ⟨ht, e⟩ := execute_some w w1 t h
    subst e
    refine ⟨le_refl _, by simp, fun _ _ => rfl, fun p hp => Or.inl hp,
      fun p hp => Or.inl hp, ?_⟩
    intro u hu
    by_cases et : t = u
    · right; right
      subst et
      exact getD_set_same _ _ _ _ ht
    · left
      exact getD_set_other _ _ _ _ _ et

theorem Task.Cancel_flagged (tk : Task) (h : tk.cancel = 1) : tk.Cancel = tk := by
  unfold Task.Cancel
  rw [if_neg (by rw [h]; decide)]

theorem Task.Execute_flagged (tk : Task) (h : tk.cancel = 1) :
    tk.Execute.cancel = 1 ∧ tk.Execute.actionCalls = tk.actionCalls ∧
    tk.Execute.state = TaskState.Cancelled := by
  simp [Task.Execute, Task.executeBegin, h]

/-- Once the flag of a task is set, no operation invokes its callback or clears
the flag. -/
theorem flagged_run (ops : List Op) : ∀ (w w1 : World) (t : Nat), Inv w →
    t < w.tasks.length → (w.tasks.getD t default).cancel = 1 → run w ops = some w1 →
    (w1.tasks.getD t default).cancel = 1 ∧
    (w1.tasks.getD t default).actionCalls = (w.tasks.getD t default).actionCalls := by
  induction ops with
  | nil =>
    intro w w1 t _ _ hc h
    simp only [run] at h
    rw [← Option.some.inj h]; exact ⟨hc, rfl⟩
  | cons o os ih =>
    intro w w1 t hinv ht hc h
    simp only [run] at h
    cases hs : step w o with
    | none => rw [hs] at h; exact Option.noConfusion h
    | some w2 =>
      rw [hs] at h
      obtain ⟨_, e2, _, _, _, e6⟩ := step_effect w w2 o hinv hs
      have key : (w2.tasks.getD t default).cancel = 1 ∧
          (w2.tasks.getD t default).actionCalls = (w.tasks.getD t default).actionCalls := by
        rcases e6 t ht with e | e | e
        · rw [e]; exact ⟨hc, rfl⟩
        · rw [e, Task.Cancel_flagged _ hc]; exact ⟨hc, rfl⟩
        · rw [e]
          exact ⟨(Task.Execute_flagged _ hc).1, (Task.Execute_flagged _ hc).2.1⟩
      obtain ⟨a, b⟩ := ih w2 w1 t (Inv_step w w2 o hinv hs) (by omega) key.1 h
      exact ⟨a, b.trans key.2⟩

/-- While a task has no entry in the queue and is not submitted, no dequeue
hands it to a worker. -/
theorem absent_run (ops : List Op) : ∀ (w w1 : World) (t : Nat), Inv w →
    (∀ p, p ∈ w.taskQueue.pq → (entryOf w p).1 ≠ t) →
    (∀ p, p ∈ w.claimed → p < w.taskQueue.mem.length ∧ (entryOf w p).1 ≠ t) →
    (∀ priority, Op.submit t priority ∉ ops) → run w ops = some w1 →
    (∀ p, p ∈ w1.taskQueue.pq → (entryOf w1 p).1 ≠ t) ∧
    (∀ p, p ∈ w1.claimed → p < w1.taskQueue.mem.length ∧ (entryOf w1 p).1 ≠ t) := by
  induction ops with
  | nil =>
    intro w w1 t _ hq hc _ h
    simp only [run] at h
    rw [← Option.some.inj h]; exact ⟨hq, hc⟩
  | cons o os ih =>
    intro w w1 t hinv hq hc hns h
    simp only [run] at h
    cases hs : step w o with
    | none => rw [hs] at h; exact Option.noConfusion h
    | some w2 =>
      rw [hs] at h
      obtain ⟨e1, _, e3, e4, e5, _⟩ := step_effect w w2 o hinv hs
      have hpq : ∀ p, p ∈ w.taskQueue.pq → p < w.taskQueue.mem.length := by
        intro p hp
        obtain ⟨k, _, _, h3, _⟩ := hinv.1.1.pos_of_mem hp
        exact h3
      refine ih w2 w1 t (Inv_step w w2 o hinv hs) ?_ ?_
        (fun priority hm => hns priority (List.mem_cons_of_mem _ hm)) h
      · intro p hp
        rcases e4 p hp with h1 | ⟨_, _, priority, h3⟩
        · rw [e3 p (hpq p h1)]; exact hq p h1
        · intro e
          apply hns priority
          rw [← e, ← h3]
          exact List.mem_cons_self _ _
      · intro p hp
        rcases e5 p hp with h1 | h1
        · obtain ⟨a, b⟩ := hc p h1
          exact ⟨by omega, by rw [e3 p a]; exact b⟩
        · have a := hpq p h1
          exact ⟨by omega, by rw [e3 p a]; exact hq p h1⟩

theorem run_submits_frame (subs : List (Nat × Int)) : ∀ (w w1 : World), Inv w →
    run w (submitOps subs) = some w1 → w1.tasks = w.tasks ∧ w1.claimed = w.claimed := by
  induction subs with
  | nil =>
    intro w w1 _ h
    simp only [submitOps, List.map_nil, run] at h
    rw [← Option.some.inj h]; exact ⟨rfl, rfl⟩
  | cons s ss ih =>
    intro w w1 hinv h
    simp only [submitOps, List.map_cons, run] at h
    cases hs : step w (Op.submit s.1 s.2) with
    | none => rw [hs] at h; exact Option.noConfusion h
    | some w2 =>
      rw [hs] at h
      have hs' : Submit w s.1 s.2 = some w2 := hs
      obtain ⟨w3, e, hi, s1, s2, _⟩ := Submit_spec w hinv s.1 s.2 (Submit_some w w2 _ _ hs')
      rw [e] at hs'
      have := Option.some.inj hs'
      subst this
      obtain ⟨a, b⟩ := ih w3 w1 hi h
      exact ⟨a.trans s1, b.trans s2⟩

theorem Task.Cancel_clear (tk : Task)
    (h : tk.cancel = 0 ∨ (tk.cancel = 1 ∧ tk.state = TaskState.Cancelled)) :
    tk.Cancel.state = TaskState.Cancelled ∧ tk.Cancel.cancel = 1 ∧
    tk.Cancel.actionCalls = tk.actionCalls := by
  rcases h with h | ⟨h1, h2⟩
  · simp [Task.Cancel, h]
  · rw [Task.Cancel_flagged tk h1]; exact ⟨h2, h1, rfl⟩

/-- C2: in a state reached from a new pool by `Submit` calls, none for an
identifier already bound in the map, of tasks whose flag is clear (as `NewTask`
creates them) or that are already `Cancelled` with the flag set, `Cancel` of
an identifier the map binds returns; the task of the bound entry has that
identifier and is now `Cancelled`; the identifier is no longer bound; the queue
holds exactly the former entries without the bound one, each with its task and
priority, and none of them is an entry of the cancelled task; whatever the
program does next, the callback of the task is not invoked, and as long as the
task is not submitted again no dequeue hands it to a worker. -/
theorem C2_cancel_queued_task (tasks : List Task) (subs : List (Nat × Int)) (w : World)
    (hflag : ∀ tk, tk ∈ tasks →
      tk.cancel = 0 ∨ (tk.cancel = 1 ∧ tk.state = TaskState.Cancelled))
    (hrun : run (NewWorkpool tasks) (submitOps subs) = some w)
    (hfresh : freshSubmits (NewWorkpool tasks) (submitOps subs) = true)
    (taskID : String) (pt : Nat) (hl : w.taskMap.lookup taskID = some pt) :
    ∃ w1, Cancel w taskID = some w1 ∧
      taskId w.tasks (entryOf w pt).1 = taskID ∧
      (w1.tasks.getD (entryOf w pt).1 default).state = TaskState.Cancelled ∧
      w1.taskMap.lookup taskID = none ∧
      w1.taskQueue.pq.Perm (w.taskQueue.pq.erase pt) ∧ pt ∈ w.taskQueue.pq ∧
      (∀ p, entryOf w1 p = entryOf w p) ∧
      (∀ p, p ∈ w1.taskQueue.pq → (entryOf w1 p).1 ≠ (entryOf w pt).1) ∧
      (∀ ops w2, run w1 ops = some w2 →
        (w2.tasks.getD (entryOf w pt).1 default).actionCalls =
          (w.tasks.getD (entryOf w pt).1 default).actionCalls ∧
        ((∀ priority, Op.submit (entryOf w pt).1 priority ∉ ops) →
          ∀ p, p ∈ w2.claimed → (entryOf w2 p).1 ≠ (entryOf w pt).1)) := by
  have ha := Agree_run _ _ _ (Agree_NewWorkpool tasks) hrun hfresh
  have hinv := ha.1
  obtain ⟨ft, fc⟩ := run_submits_frame subs _ _ (Inv_NewWorkpool tasks) hrun
  have ft' : w.tasks = tasks := ft
  have fc' : w.claimed = [] := fc
  obtain ⟨q1, hr, hidp, htv, e, hinv1⟩ := Cancel_spec w hinv taskID pt hl
  have hd : w.taskQueue.pq.Nodup := IndexOK_nodup _ hinv.1.1
  have hd1 : q1.pq.Nodup := IndexOK_nodup _ hr.1.1
  have hcl : (w.tasks.getD (w.taskQueue.mem.getD pt default).task default).cancel = 0 ∨
      ((w.tasks.getD (w.taskQueue.mem.getD pt default).task default).cancel = 1 ∧
        (w.tasks.getD (w.taskQueue.mem.getD pt default).task default).state =
          TaskState.Cancelled) := by
    apply hflag
    rw [← ft', List.getD_eq_getElem?_getD, List.getElem?_eq_getElem htv]
    exact List.getElem_mem _
  have hent : ∀ p, entryOf
      { w with
        taskQueue := q1
        taskMap := mapDelete w.taskMap taskID
        tasks := w.tasks.set (w.taskQueue.mem.getD pt default).task
          (w.tasks.getD (w.taskQueue.mem.getD pt default).task default).Cancel } p =
      entryOf w p := fun p => entryOf_removed w _ pt hr p
  have hno : ∀ p, p ∈ q1.pq → (entryOf w p).1 ≠ (entryOf w pt).1 := by
    intro p hp et
    obtain ⟨h1, h2⟩ := (hr.2.2.2.1 p).1 hp
    have e1 : idOf w p = taskID := by
      rw [← hidp]
      show taskId w.tasks (entryOf w p).1 = taskId w.tasks (entryOf w pt).1
      rw [et]
    have := (ha.lookup_iff taskID p).2 ⟨h1, e1⟩
    rw [hl] at this
    exact h2 (Option.some.inj this).symm
  have hst : ((w.tasks.set (w.taskQueue.mem.getD pt default).task
      (w.tasks.getD (w.taskQueue.mem.getD pt default).task default).Cancel).getD
      (w.taskQueue.mem.getD pt default).task default) =
      (w.tasks.getD (w.taskQueue.mem.getD pt default).task default).Cancel :=
    getD_set_same _ _ _ _ htv
  refine ⟨_, e, hidp, ?_, lookup_mapDelete_self _ _, ?_, hr.2.2.2.2.2, hent, ?_, ?_⟩
  · show ((w.tasks.set (w.taskQueue.mem.getD pt default).task _).getD
      (w.taskQueue.mem.getD pt default).task default).state = TaskState.Cancelled
    rw [hst]
    exact (Task.Cancel_clear _ hcl).1
  · show q1.pq.Perm (w.taskQueue.pq.erase pt)
    rw [List.perm_ext_iff_of_nodup hd1 (hd.erase pt)]
    intro p
    rw [hr.2.2.2.1 p, hd.mem_erase_iff]
    exact And.comm
  · intro p hp
    rw [hent p]
    exact hno p hp
  · intro ops w2 hrun2
    have hfl : ((w.tasks.set (w.taskQueue.mem.getD pt default).task
        (w.tasks.getD (w.taskQueue.mem.getD pt default).task default).Cancel).getD
        (w.taskQueue.mem.getD pt default).task default).cancel = 1 := by
      rw [hst]; exact (Task.Cancel_clear _ hcl).2.1
    obtain ⟨_, b⟩ := flagged_run ops _ w2 (w.taskQueue.mem.getD pt default).task hinv1
      (by simpa using htv) hfl hrun2
    constructor
    · show (w2.tasks.getD (w.taskQueue.mem.getD pt default).task default).actionCalls = _
      rw [b, hst]
      exact (Task.Cancel_clear _ hcl).2.2
    · intro hns p hp
      have := absent_run ops _ w2 (entryOf w pt).1 hinv1
        (fun p hp => by rw [hent p]; exact hno p hp)
        (fun p hp => by
          have : p ∈ w.claimed := hp
          rw [fc'] at this
          exact absurd this (List.not_mem_nil _))
        hns hrun2
      exact (this.2 p hp).2

theorem C2_cancel_queued_task_witness :
    (∀ tk, tk ∈ [NewTask "a" Callback.returns, NewTask "b" Callback.returns] →
      tk.cancel = 0 ∨ (tk.cancel = 1 ∧ tk.state = TaskState.Cancelled)) ∧
    run (NewWorkpool
      [NewTask "a" Callback.returns,
       NewTask "b" Callback.returns]) (submitOps [(0, 1), (1, 2)]) = some twoQueued ∧
    freshSubmits (NewWorkpool
      [NewTask "a" Callback.returns,
       NewTask "b" Callback.returns]) (submitOps [(0, 1), (1, 2)]) = true ∧
    twoQueued.taskMap.lookup "a" = some 0 ∧
    ∃ w1, Cancel twoQueued "a" = some w1 ∧
      taskId twoQueued.tasks (entryOf twoQueued 0).1 = "a" ∧
      (w1.tasks.getD (entryOf twoQueued 0).1 default).state = TaskState.Cancelled ∧
      w1.taskMap.lookup "a" = none ∧
      w1.taskQueue.pq.Perm (twoQueued.taskQueue.pq.erase 0) ∧ 0 ∈ twoQueued.taskQueue.pq ∧
      (∀ p, entryOf w1 p = entryOf twoQueued p) ∧
      (∀ p, p ∈ w1.taskQueue.pq → (entryOf w1 p).1 ≠ (entryOf twoQueued 0).1) ∧
      (∀ ops w2, run w1 ops = some w2 →
        (w2.tasks.getD (entryOf twoQueued 0).1 default).actionCalls =
          (twoQueued.tasks.getD (entryOf twoQueued 0).1 default).actionCalls ∧
        ((∀ priority, Op.submit (entryOf twoQueued 0).1 priority ∉ ops) →
          ∀ p, p ∈ w2.claimed → (entryOf w2 p).1 ≠ (entryOf twoQueued 0).1)) :=
  ⟨by decide, by decide, by decide, by decide,
   C2_cancel_queued_task
     [NewTask "a" Callback.returns,
      NewTask "b" Callback.returns] [(0, 1), (1, 2)] twoQueued (by decide)
     (by decide) (by decide) "a" 0 (by decide)⟩

/-- A sequence of `Submit` calls of existing tasks returns; the entries it
allocates are, in order, the submitted pairs, and they are all in the queue. -/
theorem run_submits (subs : List (Nat × Int)) : ∀ (w : World), Inv w →
    (∀ s, s ∈ subs → s.1 < w.tasks.length) →
    ∃ w1, run w (submitOps subs) = some w1 ∧ Inv w1 ∧ w1.tasks = w.tasks ∧
      w1.claimed = w.claimed ∧
      w1.taskQueue.mem.length = w.taskQueue.mem.length + subs.length ∧
      (∀ y, y ∈ w1.taskQueue.pq ↔
        y ∈ w.taskQueue.pq ∨ (w.taskQueue.mem.length ≤ y ∧ y < w1.taskQueue.mem.length)) ∧
      (∀ p, p < w.taskQueue.mem.length → entryOf w1 p = entryOf w p) ∧
      (∀ k, k < subs.length →
        entryOf w1 (w.taskQueue.mem.length + k) = subs.getD k default) := by
  induction subs with
  | nil =>
    intro w hinv _
    refine ⟨w, rfl, hinv, rfl, rfl, rfl, fun y => ?_, fun _ _ => rfl, fun k hk => ?_⟩
    · constructor
      · exact fun h => Or.inl h
      · rintro (h | ⟨h1, h2⟩)
        · exact h
        · omega
    · simp at hk
  | cons s ss ih =>
    intro w hinv hv
    obtain ⟨w2, e, hi, s1, s2, _, _, _, s6, s7, s8, s9⟩ :=
      Submit_spec w hinv s.1 s.2 (hv s (List.mem_cons_self _ _))
    obtain ⟨w1, r1, r2, r3, r4, r5, r6, r7, r8⟩ := ih w2 hi
      (fun x hx => by rw [s1]; exact hv x (List.mem_cons_of_mem _ hx))
    refine ⟨w1, ?_, r2, r3.trans s1, r4.trans s2, ?_, ?_, ?_, ?_⟩
    · simp only [submitOps, List.map_cons, run]
      have : step w (Op.submit s.1 s.2) = some w2 := e
      rw [this]
      exact r1
    · rw [r5, s6, List.length_cons]; omega
    · intro y
      rw [r6 y, s7 y, s6]
      constructor
      · rintro ((h | h) | ⟨h1, h2⟩)
        · exact Or.inl h
        · exact Or.inr ⟨by omega, by rw [r5, s6]; omega⟩
        · exact Or.inr ⟨by omega, h2⟩
      · rintro (h | ⟨h1, h2⟩)
        · exact Or.inl (Or.inl h)
        · by_cases hy : y = w.taskQueue.mem.length
          · exact Or.inl (Or.inr hy)
          · exact Or.inr ⟨by omega, h2⟩
    · intro p hp
      rw [r7 p (by omega), s8 p hp]
    · intro k hk
      cases k with
      | zero =>
        rw [Nat.add_zero, r7 _ (by omega), s9]
        rfl
      | succ k =>
        have := r8 k (by simpa using hk)
        rw [s6] at this
        rw [show w.taskQueue.mem.length + (k + 1) = w.taskQueue.mem.length + 1 + k by omega,
          this]
        rfl

/-- As many dequeues as the queue has entries all return; they hand over the
entries of the queue, each once, in an order of non-increasing priority, and
leave the queue empty. -/
theorem run_dequeues (n : Nat) : ∀ (w : World), Inv w → w.taskQueue.pq.length = n →
    ∃ w1 out, run w (List.replicate n Op.dequeue) = some w1 ∧ w1.claimed = w.claimed ++ out ∧
      out.Perm w.taskQueue.pq ∧
      out.Pairwise (fun a b => (entryOf w b).2 ≤ (entryOf w a).2) ∧
      w1.taskQueue.pq = [] ∧ (∀ p, entryOf w1 p = entryOf w p) := by
  induction n with
  | zero =>
    intro w _ hl
    refine ⟨w, [], rfl, by simp, ?_, List.Pairwise.nil, List.eq_nil_of_length_eq_zero hl,
      fun _ => rfl⟩
    rw [List.eq_nil_of_length_eq_zero hl]
  | succ n ih =>
    intro w hinv hl
    obtain ⟨q1, hr, e, hi⟩ := dequeue_spec w hinv (by omega)
    have hent := fun p => entryOf_removed w
      { w with
        taskQueue := q1
        taskMap := mapDelete w.taskMap (idOf w (w.taskQueue.pq.getD 0 0))
        claimed := w.claimed ++ [w.taskQueue.pq.getD 0 0] } _ hr p
    obtain ⟨w1, out, r1, r2, r3, r4, r5, r6⟩ := ih _ hi (by
      show q1.pq.length = n
      have := hr.2.1
      omega)
    have r3' : out.Perm q1.pq := r3
    have hd : w.taskQueue.pq.Nodup := IndexOK_nodup _ hinv.1.1
    have hd1 : q1.pq.Nodup := IndexOK_nodup _ hr.1.1
    refine ⟨w1, w.taskQueue.pq.getD 0 0 :: out, ?_, ?_, ?_, ?_, r5, fun p => ?_⟩
    · simp only [List.replicate_succ, run]
      have : step w Op.dequeue = some _ := e
      rw [this]
      exact r1
    · rw [r2]; simp
    · refine (List.Perm.cons _ r3').trans ?_
      have hni : w.taskQueue.pq.getD 0 0 ∉ q1.pq := fun hx => ((hr.2.2.2.1 _).1 hx).2 rfl
      rw [List.perm_ext_iff_of_nodup (List.nodup_cons.2 ⟨hni, hd1⟩) hd]
      intro x
      rw [List.mem_cons, hr.2.2.2.1 x]
      constructor
      · rintro (h | h)
        · rw [h]; exact hr.2.2.2.2.2
        · exact h.1
      · intro h
        by_cases hx : x = w.taskQueue.pq.getD 0 0
        · exact Or.inl hx
        · exact Or.inr ⟨h, hx⟩
    · refine List.Pairwise.cons ?_ ?_
      · intro b hb
        have hb1 : b ∈ q1.pq := r3'.subset hb
        exact prio_le_root w hinv b ((hr.2.2.2.1 b).1 hb1).1
      · refine r4.imp ?_
        intro a b hab
        rw [hent a, hent b] at hab
        exact hab
    · rw [r6 p, hent p]

/-- The queue taken alone: tasks submitted to a new pool with pairwise distinct
priorities, then as many runs of the critical section of the worker loop
(`dequeue`) as submissions with no `Submit` or `Cancel` in between: every one
returns; the entries handed over are exactly the submitted (task, priority)
pairs, each once, in strictly descending order of priority; the queue is then
empty and a further dequeue blocks.  (These runs of the critical section are
those of as many workers: a worker of the program makes one of them only.) -/
theorem dequeues_in_priority_order (tasks : List Task) (subs : List (Nat × Int))
    (hvalid : ∀ s, s ∈ subs → s.1 < tasks.length)
    (hdist : (subs.map Prod.snd).Nodup) :
    ∃ w, run (NewWorkpool tasks) (submitOps subs ++ List.replicate subs.length Op.dequeue)
        = some w ∧
      (w.claimed.map (entryOf w)).Perm subs ∧
      (w.claimed.map (fun p => (entryOf w p).2)).Pairwise (fun a b => a > b) ∧
      w.taskQueue.pq = [] ∧ dequeue w = none := by
  obtain ⟨w0, a1, a2, _, a4, a5, a6, _, a8⟩ :=
    run_submits subs (NewWorkpool tasks) (Inv_NewWorkpool tasks) hvalid
  have hlen0 : w0.taskQueue.mem.length = subs.length := by
    rw [a5]; simp [NewWorkpool]
  have hd0 : w0.taskQueue.pq.Nodup := IndexOK_nodup _ a2.1.1
  have hperm0 : w0.taskQueue.pq.Perm (List.range subs.length) := by
    rw [List.perm_ext_iff_of_nodup hd0 (List.nodup_range _)]
    intro y
    rw [a6 y, List.mem_range, hlen0]
    simp [NewWorkpool]
  have hmap : (List.range subs.length).map (entryOf w0) = subs := by
    apply List.ext_getElem
    · simp
    · intro i h1 h2
      have := a8 i h2
      simp only [NewWorkpool, List.length_nil, Nat.zero_add] at this
      simp only [List.getElem_map, List.getElem_range]
      rw [this, List.getD_eq_getElem?_getD, List.getElem?_eq_getElem h2]
      rfl
  obtain ⟨w, out, b1, b2, b3, b4, b5, b6⟩ :=
    run_dequeues subs.length w0 a2 (by rw [hperm0.length_eq]; simp)
  have hcl : w.claimed = out := by
    rw [b2, a4]; rfl
  have hpe : (out.map (entryOf w0)).Perm subs := by
    have := (b3.trans hperm0).map (entryOf w0)
    rw [hmap] at this
    exact this
  have hfun : entryOf w = entryOf w0 := funext b6
  refine ⟨w, ?_, ?_, ?_, b5, dequeue_blocked w (by rw [b5]; rfl)⟩
  · rw [run_append, a1]
    exact b1
  · rw [hcl, hfun]; exact hpe
  · rw [hcl, hfun, List.pairwise_map]
    have hnd : (out.map (fun p => (entryOf w0 p).2)).Nodup := by
      have h1 := (hpe.map Prod.snd).nodup_iff.2 hdist
      rw [List.map_map] at h1
      exact h1
    have hne : out.Pairwise (fun a b => (entryOf w0 a).2 ≠ (entryOf w0 b).2) := by
      have := hnd
      unfold List.Nodup at this
      rw [List.pairwise_map] at this
      exact this
    refine (b4.and hne).imp ?_
    intro a b hab
    exact lt_of_le_of_ne hab.1 (Ne.symm hab.2)

theorem dequeues_in_priority_order_example :
    (∀ s, s ∈ [((0 : Nat), (3 : Int)), (1, 5), (2, 1)] →
      s.1 <
        [NewTask "a" Callback.returns, NewTask "b" Callback.returns,
         NewTask "c" Callback.returns].length) ∧
    (([((0 : Nat), (3 : Int)), (1, 5), (2, 1)]).map Prod.snd).Nodup ∧
    ∃ w, run (NewWorkpool
      [NewTask "a" Callback.returns, NewTask "b" Callback.returns, NewTask "c" Callback.returns])
        (submitOps [(0, 3), (1, 5), (2, 1)] ++
          List.replicate [((0 : Nat), (3 : Int)), (1, 5), (2, 1)].length Op.dequeue) = some w ∧
      (w.claimed.map (entryOf w)).Perm [(0, 3), (1, 5), (2, 1)] ∧
      (w.claimed.map (fun p => (entryOf w p).2)).Pairwise (fun a b => a > b) ∧
      w.taskQueue.pq = [] ∧ dequeue w = none :=
  ⟨by decide, by decide,
   dequeues_in_priority_order
     [NewTask "a" Callback.returns, NewTask "b" Callback.returns, NewTask "c" Callback.returns]
     [(0, 3), (1, 5), (2, 1)] (by decide) (by decide)⟩

/-! ## The `index` field of the entries outside the queue -/

theorem getD_mem_self (l : List Nat) (i : Nat) (hi : i < l.length) : l.getD i 0 ∈ l :=
  (mem_pq_iff l _).2 ⟨i, hi, rfl⟩

theorem OffSame.same_off (h : priorityQueue) : OffSame h h :=
  ⟨rfl, fun _ => Iff.rfl, fun _ _ => rfl⟩

theorem OffSame.swap_off {h0 h : priorityQueue} (ho : OffSame h0 h) (i j : Nat)
    (hi : i < h.pq.length) (hj : j < h.pq.length) : OffSame h0 (h.Swap i j) := by
  obtain ⟨o1, o2, o3⟩ := ho
  refine ⟨by rw [Swap_length]; exact o1, fun x => (mem_Swap_pq h i j x hi hj).trans (o2 x), ?_⟩
  intro p hp
  have hi' : i < (h.Swap i j).pq.length := by rw [Swap_length]; exact hi
  have hj' : j < (h.Swap i j).pq.length := by rw [Swap_length]; exact hj
  have m1 : (h.Swap i j).pq.getD i 0 ∈ h0.pq :=
    (o2 _).1 ((mem_Swap_pq h i j _ hi hj).1 (getD_mem_self _ _ hi'))
  have m2 : (h.Swap i j).pq.getD j 0 ∈ h0.pq :=
    (o2 _).1 ((mem_Swap_pq h i j _ hi hj).1 (getD_mem_self _ _ hj'))
  show ((setIndex (setIndex h.mem ((h.Swap i j).pq.getD i 0) i)
    ((h.Swap i j).pq.getD j 0) j).getD p default).index = _
  rw [index_setIndex_other _ _ _ _ (fun e => hp (by rw [← e]; exact m2)),
    index_setIndex_other _ _ _ _ (fun e => hp (by rw [← e]; exact m1))]
  exact o3 p hp

theorem OffSame.upLoop_off {h0 h : priorityQueue} (ho : OffSame h0 h) (fuel j : Nat)
    (hj : j < h.pq.length) : OffSame h0 (heap.upLoop fuel h j) := by
  have := upLoop_inv (fun h => OffSame h0 h) j
    (fun h a b hab _ hbl hp => hp.swap_off a b (by omega) hbl) fuel h j (le_refl _) hj ho
  exact this

theorem OffSame.downLoop_off {h0 h : priorityQueue} (ho : OffSame h0 h) (fuel i n : Nat)
    (hn : n ≤ h.pq.length) : OffSame h0 (heap.downLoop fuel h i n).1 := by
  have := downLoop_inv (fun h => OffSame h0 h) i n
    (fun h a b _ hab hbn hl hp => hp.swap_off a b (by omega) (by omega)) fuel h i (le_refl _) hn ho
  exact this

/-- The method `Pop` changes the `index` field of the entry it returns only. -/
theorem Pop_off (h h1 : priorityQueue) (item : Nat) (e : h.Pop = some (h1, item)) :
    item ∈ h.pq ∧ ∀ p, p ≠ item → (h1.mem.getD p default).index = (h.mem.getD p default).index := by
  unfold priorityQueue.Pop at e
  cases hl : h.pq.getLast? with
  | none => rw [hl] at e; exact Option.noConfusion e
  | some last =>
    rw [hl] at e
    simp only [Option.some.injEq, Prod.mk.injEq] at e
    obtain ⟨e1, e2⟩ := e
    subst e1; subst e2
    have hm : last ∈ h.pq := by
      have := List.dropLast_append_getLast? last hl
      rw [← this]; simp
    refine ⟨hm, fun p hp => ?_⟩
    exact index_setIndex_other _ _ _ _ (Ne.symm hp)

/-- The function `heap.Remove` leaves the `index` field of the entries outside
the queue as it is. -/
theorem heap_Remove_off (h h1 : priorityQueue) (i : Int) (item : Nat)
    (e : heap.Remove h i = some (h1, item)) (p : Nat) (hp : p ∉ h.pq) :
    (h1.mem.getD p default).index = (h.mem.getD p default).index := by
  unfold heap.Remove at e
  by_cases hc : 0 ≤ i ∧ i < (h.Len : Int)
  · rw [if_pos hc] at e
    have hi : i.toNat < h.pq.length := by
      have := hc.2
      unfold priorityQueue.Len at this
      omega
    have hn : h.pq.length - 1 < h.pq.length := by omega
    simp only [priorityQueue.Len] at e
    have hs : OffSame h (h.Swap i.toNat (h.pq.length - 1)) :=
      (OffSame.same_off h).swap_off _ _ hi hn
    have hd : OffSame h (heap.down (h.Swap i.toNat (h.pq.length - 1)) i.toNat
        (h.pq.length - 1)).1 :=
      hs.downLoop_off _ _ _ (by rw [Swap_length]; omega)
    by_cases hne : h.pq.length - 1 ≠ i.toNat
    · rw [if_pos hne] at e
      split at e
      · have hu := hd.upLoop_off (i.toNat + 1) i.toNat (by rw [hd.1]; exact hi)
        obtain ⟨a, b⟩ := Pop_off _ _ _ e
        have hm : item ∈ h.pq := (hu.2.1 _).1 a
        rw [b p (fun e2 => hp (by rw [e2]; exact hm))]
        exact hu.2.2 p hp
      · obtain ⟨a, b⟩ := Pop_off _ _ _ e
        have hm : item ∈ h.pq := (hd.2.1 _).1 a
        rw [b p (fun e2 => hp (by rw [e2]; exact hm))]
        exact hd.2.2 p hp
    · rw [if_neg hne] at e
      obtain ⟨a, b⟩ := Pop_off _ _ _ e
      exact b p (fun e2 => hp (by rw [e2]; exact a))
  · rw [if_neg hc] at e
    exact Option.noConfusion e

/-- The function `heap.Pop` leaves the `index` field of the entries outside the
queue as it is. -/
theorem heap_Pop_off (h h1 : priorityQueue) (item : Nat)
    (e : heap.Pop h = some (h1, item)) (p : Nat) (hp : p ∉ h.pq) :
    (h1.mem.getD p default).index = (h.mem.getD p default).index := by
  unfold heap.Pop at e
  by_cases hc : h.Len = 0
  · rw [if_pos hc] at e
    exact Option.noConfusion e
  · rw [if_neg hc] at e
    have hl : 0 < h.pq.length := by
      unfold priorityQueue.Len at hc; omega
    simp only [priorityQueue.Len] at e
    have hs : OffSame h (h.Swap 0 (h.pq.length - 1)) :=
      (OffSame.same_off h).swap_off _ _ hl (by omega)
    have hd : OffSame h (heap.down (h.Swap 0 (h.pq.length - 1)) 0 (h.pq.length - 1)).1 :=
      hs.downLoop_off _ _ _ (by rw [Swap_length]; omega)
    obtain ⟨a, b⟩ := Pop_off _ _ _ e
    have hm : item ∈ h.pq := (hd.2.1 _).1 a
    rw [b p (fun e2 => hp (by rw [e2]; exact hm))]
    exact hd.2.2 p hp

/-- The function `heap.Push` leaves the `index` field of the entries other than
the pushed one and outside the queue as it is. -/
theorem heap_Push_off (h : priorityQueue) (x p : Nat) (hp : p ∉ h.pq) (hx : p ≠ x) :
    ((heap.Push h x).mem.getD p default).index = (h.mem.getD p default).index := by
  have hlen : (h.Push x).pq.length = h.pq.length + 1 := by simp [priorityQueue.Push]
  have hu := (OffSame.same_off (h.Push x)).upLoop_off ((h.Push x).Len - 1 + 1)
    ((h.Push x).Len - 1) (by unfold priorityQueue.Len; omega)
  have hp2 : p ∉ (h.Push x).pq := by
    simp only [priorityQueue.Push, List.mem_append, List.mem_singleton]
    exact fun e => e.elim hp hx
  have := hu.2.2 p hp2
  unfold heap.Push heap.up
  rw [this]
  exact index_setIndex_other _ _ _ _ (Ne.symm hx)

theorem Submit_queue (w w1 : World) (t : Nat) (priority : Int)
    (h : Submit w t priority = some w1) :
    w1.taskQueue = heap.Push
      { mem := w.taskQueue.mem ++ [{ task := t, priority := priority, index := 0 }],
        pq := w.taskQueue.pq } w.taskQueue.mem.length ∧
    w1.claimed = w.claimed := by
  unfold Submit at h
  split at h
  · exact Option.noConfusion h
  · have := Option.some.inj h
    subst this
    exact ⟨rfl, rfl⟩

/-- The method `Cancel` for an identifier the map binds to `pt`: the position
`pt.index` it passes to `heap.Remove` is a position of the queue, it holds
`pt`, and `heap.Remove` returns `pt`. -/
theorem Cancel_remove (w : World) (hinv : Inv w) (taskID : String) (pt : Nat)
    (hl : w.taskMap.lookup taskID = some pt) :
    ∃ k q1, k < w.taskQueue.pq.length ∧ w.taskQueue.pq.getD k 0 = pt ∧
      (w.taskQueue.mem.getD pt default).index = (k : Int) ∧
      heap.Remove w.taskQueue (w.taskQueue.mem.getD pt default).index = some (q1, pt) ∧
      Removed w.taskQueue q1 pt ∧
      Cancel w taskID = some { w with
        taskQueue := q1
        taskMap := mapDelete w.taskMap taskID
        tasks := w.tasks.set (w.taskQueue.mem.getD pt default).task
          (w.tasks.getD (w.taskQueue.mem.getD pt default).task default).Cancel } := by
  obtain ⟨hq, hv, hm, hn⟩ := hinv
  obtain ⟨hp, hidp⟩ := hm taskID pt (lookup_eq_some_mem _ _ _ hl)
  obtain ⟨k, hk, e1, e2, e3⟩ := hq.1.pos_of_mem hp
  obtain ⟨q1, c1, c2⟩ := heap_Remove_spec w.taskQueue hq k hk
  rw [e1] at c1 c2
  have ht := hv pt e2
  refine ⟨k, q1, hk, e1, e3, by rw [e3]; exact c1, c2, ?_⟩
  unfold Cancel
  rw [hl]
  simp only
  rw [getElem?_eq_some_getD _ _ default e2]
  simp only
  rw [e3, c1]
  simp only
  rw [getElem?_eq_some_getD _ _ default ht]

theorem dequeue_pop (w : World) (hinv : Inv w) (hl : 0 < w.taskQueue.pq.length) :
    ∃ q1, heap.Pop w.taskQueue = some (q1, w.taskQueue.pq.getD 0 0) ∧
      Removed w.taskQueue q1 (w.taskQueue.pq.getD 0 0) ∧
      dequeue w = some { w with
        taskQueue := q1
        taskMap := mapDelete w.taskMap (idOf w (w.taskQueue.pq.getD 0 0))
        claimed := w.claimed ++ [w.taskQueue.pq.getD 0 0] } := by
  obtain ⟨hq, hv, hm, hn⟩ := hinv
  obtain ⟨q1, c1, c2⟩ := heap_Pop_spec w.taskQueue hq hl
  have hitem : w.taskQueue.pq.getD 0 0 < w.taskQueue.mem.length := (hq.1 0 hl).1
  have hitem1 : w.taskQueue.pq.getD 0 0 < q1.mem.length := by rw [c2.2.2.1.1]; exact hitem
  have htask := (c2.2.2.1.2 (w.taskQueue.pq.getD 0 0)).2
  have ht := hv _ hitem
  refine ⟨q1, c1, c2, ?_⟩
  unfold dequeue
  rw [if_neg (by unfold priorityQueue.Len; omega), c1]
  simp only
  rw [getElem?_eq_some_getD _ _ default hitem1]
  simp only
  rw [htask, getElem?_eq_some_getD _ _ default ht]
  rfl

theorem OffQueue_NewWorkpool (tasks : List Task) : OffQueue (NewWorkpool tasks) :=
  ⟨fun p hp => by simp [NewWorkpool] at hp, fun p hp => by simp [NewWorkpool] at hp⟩

theorem OffQueue_removed (w : World) (ho : OffQueue w) (q1 : priorityQueue) (item : Nat)
    (hr : Removed w.taskQueue q1 item)
    (hoff : ∀ p, p ∉ w.taskQueue.pq →
      (q1.mem.getD p default).index = (w.taskQueue.mem.getD p default).index)
    (p : Nat) (hp : p < q1.mem.length) (hnp : p ∉ q1.pq) :
    (q1.mem.getD p default).index = -1 := by
  by_cases e : p = item
  · rw [e]; exact hr.2.2.2.2.1
  · have hnq : p ∉ w.taskQueue.pq := fun hx => hnp ((hr.2.2.2.1 p).2 ⟨hx, e⟩)
    rw [hoff p hnq]
    exact ho.1 p (by rw [← hr.2.2.1.1]; exact hp) hnq

/-- Every operation that returns keeps the entries outside the queue at
`index = -1`. -/
theorem OffQueue_step (w w1 : World) (o : Op) (hinv : Inv w) (ho : OffQueue w)
    (h : step w o = some w1) : OffQueue w1 := by
  cases o with
  | newTask id action =>
    simp only [step, Option.some.injEq] at h
    subst h
    exact ho
  | submit t priority =>
    simp only [step] at h
    obtain ⟨w2, e, _, _, _, _, _, _, s6, s7, _, _⟩ :=
      Submit_spec w hinv t priority (Submit_some w w1 t priority h)
    obtain ⟨q, c⟩ := Submit_queue w w1 t priority h
    rw [e] at h
    have := Option.some.inj h
    subst this
    constructor
    · intro p hp hnp
      have hnq : p ∉ w.taskQueue.pq := fun hx => hnp ((s7 p).2 (Or.inl hx))
      have hne : p ≠ w.taskQueue.mem.length := fun hx => hnp ((s7 p).2 (Or.inr hx))
      have hlt : p < w.taskQueue.mem.length := by omega
      rw [q, heap_Push_off
        { mem := w.taskQueue.mem ++ [{ task := t, priority := priority, index := 0 }],
          pq := w.taskQueue.pq } w.taskQueue.mem.length p hnq hne]
      show ((w.taskQueue.mem ++ [_]).getD p default).index = -1
      rw [getD_mem_append _ _ _ hlt]
      exact ho.1 p hlt hnq
    · intro p hp
      rw [c] at hp
      obtain ⟨a, b⟩ := ho.2 p hp
      refine ⟨by omega, fun hx => ?_⟩
      rcases (s7 p).1 hx with h1 | h1
      · exact b h1
      · omega
  | cancel taskID =>
    simp only [step] at h
    cases hl : w.taskMap.lookup taskID with
    | none =>
      rw [Cancel_absent w taskID hl] at h
      rw [← Option.some.inj h]; exact ho
    | some pt =>
      obtain ⟨k, q1, _, _, _, c1, c2, e⟩ := Cancel_remove w hinv taskID pt hl
      rw [e] at h
      rw [← Option.some.inj h]
      constructor
      · intro p hp hnp
        exact OffQueue_removed w ho q1 pt c2
          (fun p hp => heap_Remove_off _ _ _ _ c1 p hp) p hp hnp
      · intro p hp
        obtain ⟨a, b⟩ := ho.2 p hp
        exact ⟨by show p < q1.mem.length; rw [c2.2.2.1.1]; exact a,
          fun hx => b ((c2.2.2.2.1 p).1 hx).1⟩
  | dequeue =>
    simp only [step] at h
    by_cases hl : w.taskQueue.pq.length = 0
    · rw [dequeue_blocked w hl] at h
      exact Option.noConfusion h
    · obtain ⟨q1, c1, c2, e⟩ := dequeue_pop w hinv (by omega)
      rw [e] at h
      rw [← Option.some.inj h]
      constructor
      · intro p hp hnp
        exact OffQueue_removed w ho q1 _ c2
          (fun p hp => heap_Pop_off _ _ _ c1 p hp) p hp hnp
      · intro p hp
        rcases List.mem_append.1 hp with h1 | h1
        · obtain ⟨a, b⟩ := ho.2 p h1
          exact ⟨by show p < q1.mem.length; rw [c2.2.2.1.1]; exact a,
            fun hx => b ((c2.2.2.2.1 p).1 hx).1⟩
        · rw [List.mem_singleton.1 h1]
          obtain ⟨k, _, _, h3, _⟩ := hinv.1.1.pos_of_mem c2.2.2.2.2.2
          exact ⟨by show _ < q1.mem.length; rw [c2.2.2.1.1]; exact h3,
            fun hx => ((c2.2.2.2.1 _).1 hx).2 rfl⟩
  | execute t =>
    simp only [step] at h
    obtain ⟨_, e⟩ := execute_some w w1 t h
    subst e
    exact ho

theorem OffQueue_run (ops : List Op) : ∀ (w w1 : World), Inv w → OffQueue w →
    run w ops = some w1 → OffQueue w1 := by
  induction ops with
  | nil => intro w w1 _ ho h; simp only [run] at h; rw [← Option.some.inj h]; exact ho
  | cons o os ih =>
    intro w w1 hinv ho h
    simp only [run] at h
    cases hs : step w o with
    | none => rw [hs] at h; exact Option.noConfusion h
    | some w2 =>
      rw [hs] at h
      exact ih w2 w1 (Inv_step w w2 o hinv hs) (OffQueue_step w w2 o hinv ho hs) h

/-- C13: in every state reached from a new pool by `Submit`, the worker's
dequeue and `Cancel` (which issue `heap.Push`, `heap.Pop` and
`heap.Remove(pt.index)`), the entry at position `i` of the queue has `index`
equal to `i`; every allocated entry that is no longer in the queue, and so
every entry handed to a worker, has `index` equal to `-1`; and for an entry
`pt` the map binds, `pt.index` is a position of the queue, that position holds
`pt`, and `heap.Remove` at `pt.index` returns `pt`. -/
theorem C13_index_fields_up_to_date (w : World) (hr : Reachable w) :
    (∀ i, i < w.taskQueue.pq.length →
      (w.taskQueue.mem.getD (w.taskQueue.pq.getD i 0) default).index = (i : Int)) ∧
    (∀ p, p < w.taskQueue.mem.length → p ∉ w.taskQueue.pq →
      (w.taskQueue.mem.getD p default).index = -1) ∧
    (∀ p, p ∈ w.claimed → (w.taskQueue.mem.getD p default).index = -1) ∧
    (∀ taskID pt, w.taskMap.lookup taskID = some pt →
      ∃ k q1, k < w.taskQueue.pq.length ∧ w.taskQueue.pq.getD k 0 = pt ∧
        (w.taskQueue.mem.getD pt default).index = (k : Int) ∧
        heap.Remove w.taskQueue (w.taskQueue.mem.getD pt default).index = some (q1, pt)) := by
  have hinv := Inv_of_Reachable w hr
  obtain ⟨tasks, ops, hrun⟩ := hr
  have ho := OffQueue_run ops _ _ (Inv_NewWorkpool tasks) (OffQueue_NewWorkpool tasks) hrun
  refine ⟨fun i hi => (hinv.1.1 i hi).2, ho.1, fun p hp => ?_, fun taskID pt hl => ?_⟩
  · obtain ⟨a, b⟩ := ho.2 p hp
    exact ho.1 p a b
  · obtain ⟨k, q1, h1, h2, h3, h4, _, _⟩ := Cancel_remove w hinv taskID pt hl
    exact ⟨k, q1, h1, h2, h3, h4⟩

theorem C13_index_fields_up_to_date_witness :
    Reachable exampleWorld ∧
    ((∀ i, i < exampleWorld.taskQueue.pq.length →
      (exampleWorld.taskQueue.mem.getD (exampleWorld.taskQueue.pq.getD i 0) default).index
        = (i : Int)) ∧
    (∀ p, p < exampleWorld.taskQueue.mem.length → p ∉ exampleWorld.taskQueue.pq →
      (exampleWorld.taskQueue.mem.getD p default).index = -1) ∧
    (∀ p, p ∈ exampleWorld.claimed → (exampleWorld.taskQueue.mem.getD p default).index = -1) ∧
    (∀ taskID pt, exampleWorld.taskMap.lookup taskID = some pt →
      ∃ k q1, k < exampleWorld.taskQueue.pq.length ∧ exampleWorld.taskQueue.pq.getD k 0 = pt ∧
        (exampleWorld.taskQueue.mem.getD pt default).index = (k : Int) ∧
        heap.Remove exampleWorld.taskQueue (exampleWorld.taskQueue.mem.getD pt default).index
          = some (q1, pt))) :=
  ⟨exampleWorld_reachable, C13_index_fields_up_to_date exampleWorld exampleWorld_reachable⟩

/-! ## The goroutines -/

/-- What a step of worker `i` is, by the statement the worker stands at. -/
theorem workerStep_cases (s s1 : Sys) (i : Nat) (h : workerStep s i = some s1) :
    ∃ wk, s.workers[i]? = some wk ∧
      ((wk.todo = [] ∧ s.mu = false ∧ ∃ w1 pt, dequeue s.w = some w1 ∧
          w1.claimed.getLast? = some pt ∧
          s1 = { s with
            w := w1
            workers := s.workers.set i { pt := pt, todo := workerBody s.variant } }) ∨
       (∃ rest, wk.todo = Instr.incr :: rest ∧
          s1 = { s with
            w := { s.w with running := s.w.running + 1 }
            workers := s.workers.set i { wk with todo := rest } }) ∨
       (∃ rest tk, wk.todo = Instr.execute :: rest ∧
          s.w.tasks[(entryOf s.w wk.pt).1]? = some tk ∧
          s1 = { s with
            w := { s.w with
              tasks := s.w.tasks.set (entryOf s.w wk.pt).1 (tk.executeBegin).1 }
            workers := s.workers.set i
              { wk with todo := if (tk.executeBegin).2 then rest else rest.tail } }) ∨
       (∃ rest tk, wk.todo = Instr.finish :: rest ∧
          s.w.tasks[(entryOf s.w wk.pt).1]? = some tk ∧
          s1 = { s with
            w := { s.w with tasks := s.w.tasks.set (entryOf s.w wk.pt).1 tk.executeEnd }
            workers := s.workers.set i { wk with todo := rest } }) ∨
       (∃ rest, wk.todo = Instr.notify :: rest ∧
          s1 = { s with
            notified := s.notified ++ [idOf s.w wk.pt]
            workers := s.workers.set i { wk with todo := rest } }) ∨
       (∃ rest, wk.todo = Instr.decr :: rest ∧
          s1 = { s with
            w := { s.w with running := s.w.running - 1 }
            workers := s.workers.set i { wk with todo := rest } })) := by
  unfold workerStep at h
  cases hw : s.workers[i]? with
  | none => rw [hw] at h; exact Option.noConfusion h
  | some wk =>
    rw [hw] at h
    refine ⟨wk, rfl, ?_⟩
    simp only at h
    cases ht : wk.todo with
    | nil =>
      rw [ht] at h
      simp only at h
      left
      cases hm : s.mu with
      | true => rw [hm] at h; simp at h
      | false =>
        rw [hm] at h
        simp only [Bool.false_eq_true, if_false] at h
        cases hd : dequeue s.w with
        | none => rw [hd] at h; exact Option.noConfusion h
        | some w1 =>
          rw [hd] at h
          simp only at h
          cases hg : w1.claimed.getLast? with
          | none => rw [hg] at h; exact Option.noConfusion h
          | some pt =>
            rw [hg] at h
            simp only [Option.some.injEq] at h
            exact ⟨rfl, rfl, w1, pt, rfl, hg, h.symm⟩
    | cons ins rest =>
      rw [ht] at h
      cases ins with
      | incr =>
        simp only [Option.some.injEq] at h
        right; left
        exact ⟨rest, rfl, h.symm⟩
      | send => exact Option.noConfusion h
      | execute =>
        simp only at h
        right; right; left
        cases hk : s.w.tasks[(entryOf s.w wk.pt).1]? with
        | none => rw [hk] at h; exact Option.noConfusion h
        | some tk =>
          rw [hk] at h
          simp only [Option.some.injEq] at h
          exact ⟨rest, tk, rfl, rfl, h.symm⟩
      | finish =>
        simp only at h
        right; right; right; left
        cases hk : s.w.tasks[(entryOf s.w wk.pt).1]? with
        | none => rw [hk] at h; exact Option.noConfusion h
        | some tk =>
          rw [hk] at h
          simp only at h
          by_cases ha : tk.action = Callback.returns
          · rw [if_pos ha] at h
            simp only [Option.some.injEq] at h
            exact ⟨rest, tk, rfl, rfl, h.symm⟩
          · rw [if_neg ha] at h
            exact Option.noConfusion h
      | notify =>
        simp only [Option.some.injEq] at h
        right; right; right; right; left
        exact ⟨rest, rfl, h.symm⟩
      | decr =>
        simp only [Option.some.injEq] at h
        right; right; right; right; right
        exact ⟨rest, rfl, h.symm⟩

/-- A step of a client or of a worker leaves the mutex and the goroutine of
`Shutdown` as they are. -/
theorem Sys.step_frame (s s1 : Sys) (a : Act) (h : Sys.step s a = some s1)
    (ha : a ≠ Act.shutdown) :
    s1.mu = s.mu ∧ s1.shutdown = s.shutdown ∧ s1.variant = s.variant := by
  cases a with
  | newTask id action =>
    simp only [Sys.step, Option.some.injEq] at h
    subst h; exact ⟨rfl, rfl, rfl⟩
  | submit t priority =>
    simp only [Sys.step] at h
    split at h
    · exact Option.noConfusion h
    · split at h
      · exact Option.noConfusion h
      · simp only [Option.some.injEq] at h
        subst h; exact ⟨rfl, rfl, rfl⟩
  | cancel taskID =>
    simp only [Sys.step] at h
    split at h
    · exact Option.noConfusion h
    · split at h
      · exact Option.noConfusion h
      · simp only [Option.some.injEq] at h
        subst h; exact ⟨rfl, rfl, rfl⟩
  | worker i =>
    simp only [Sys.step] at h
    obtain ⟨wk, _, hc⟩ := workerStep_cases s s1 i h
    rcases hc with ⟨_, _, w1, pt, _, _, e⟩ | ⟨rest, _, e⟩ | ⟨rest, tk, _, _, e⟩ |
      ⟨rest, tk, _, _, e⟩ | ⟨rest, _, e⟩ | ⟨rest, _, e⟩ <;> subst e <;> exact ⟨rfl, rfl, rfl⟩
  | shutdown => exact absurd rfl ha

theorem MutexInv_init (v : Variant) (n : Nat) (tasks : List Task) :
    MutexInv (Sys.init v n tasks) := by
  simp [MutexInv, Sys.init, holdsMutex]

/-- Every step preserves `MutexInv`: the `wp.mu.Lock()` of
`removeCompletedTasks` (and of the `wp.Cancel` called by `Shutdown` in the
`pkg` copy) is reached with the mutex held by `Shutdown` itself, and is never
enabled. -/
theorem MutexInv_step (s s1 : Sys) (a : Act) (hi : MutexInv s) (h : Sys.step s a = some s1) :
    MutexInv s1 := by
  by_cases ha : a = Act.shutdown
  · subst ha
    obtain ⟨h1, h2, h3, h4⟩ := hi
    simp only [Sys.step, shutdownStep] at h
    cases hp : s.shutdown with
    | notCalled =>
      rw [hp] at h
      simp only [Option.some.injEq] at h
      subst h; simp [MutexInv, holdsMutex]
    | locking =>
      rw [hp] at h
      simp only at h
      split at h
      · exact Option.noConfusion h
      · simp only [Option.some.injEq] at h
        subst h
        cases s.variant <;> simp [MutexInv, holdsMutex]
    | checking =>
      rw [hp] at h
      have hm := h1 (by rw [hp]; rfl)
      simp only at h
      split at h
      · simp only [Option.some.injEq] at h
        subst h; simp [MutexInv, holdsMutex]
      · simp only [Option.some.injEq] at h
        subst h
        cases s.variant <;> simp [MutexInv, holdsMutex, hm]
    | waiting =>
      rw [hp] at h
      simp only at h
      split at h
      · exact Option.noConfusion h
      · simp only [Option.some.injEq] at h
        subst h; simp [MutexInv, holdsMutex]
    | cancelling =>
      rw [hp] at h
      have hm := h1 (by rw [hp]; rfl)
      simp only at h
      split at h
      · simp only [Option.some.injEq] at h
        subst h; simp [MutexInv, holdsMutex, hm]
      · split at h
        · simp only [Option.some.injEq] at h
          subst h; simp [MutexInv, holdsMutex, hm]
        · simp only [Option.some.injEq] at h
          subst h; simp [MutexInv, holdsMutex, hm]
    | cancelLocking =>
      rw [hp] at h
      have hm := h1 (by rw [hp]; rfl)
      simp only [hm, if_true] at h
      exact Option.noConfusion h
    | closing =>
      rw [hp] at h
      have hm := h1 (by rw [hp]; rfl)
      simp only [Option.some.injEq] at h
      subst h
      cases s.variant <;> simp [MutexInv, holdsMutex, hm]
    | relocking =>
      rw [hp] at h
      have hm := h1 (by rw [hp]; rfl)
      simp only [hm, if_true] at h
      exact Option.noConfusion h
    | purging => exact absurd hp h2
    | unlocking => exact absurd hp h3
    | returned => exact absurd hp h4
  · obtain ⟨e1, e2, _⟩ := Sys.step_frame s s1 a h ha
    unfold MutexInv
    rw [e1, e2]
    exact hi

theorem MutexInv_run (acts : List Act) : ∀ (s s1 : Sys), MutexInv s →
    Sys.run s acts = some s1 → MutexInv s1 := by
  induction acts with
  | nil => intro s s1 hi h; simp only [Sys.run] at h; rw [← Option.some.inj h]; exact hi
  | cons a as ih =>
    intro s s1 hi h
    simp only [Sys.run] at h
    cases hs : Sys.step s a with
    | none => rw [hs] at h; exact Option.noConfusion h
    | some s2 =>
      rw [hs] at h
      exact ih s2 s1 (MutexInv_step s s2 a hi hs) h

/-- C12, on the code: in both copies of the scheduler and along every run of
the program from `NewWorkpool`, the call of `Shutdown` never returns.  When it
reaches the call of `removeCompletedTasks` it holds the mutex that
`removeCompletedTasks` starts by locking, and has no further step. -/
theorem C12_shutdown_never_returns (v : Variant) (workerCount : Nat) (tasks : List Task)
    (acts : List Act) (s : Sys)
    (hrun : Sys.run (Sys.init v workerCount tasks) acts = some s) :
    s.shutdown ≠ ShutdownPc.returned ∧
    (s.shutdown = ShutdownPc.relocking → s.mu = true ∧ Sys.step s Act.shutdown = none) := by
  have hi := MutexInv_run acts _ _ (MutexInv_init v workerCount tasks) hrun
  refine ⟨hi.2.2.2, fun hp => ?_⟩
  have hm := hi.1 (by rw [hp]; rfl)
  refine ⟨hm, ?_⟩
  simp only [Sys.step, shutdownStep, hp, hm, if_true]

theorem C12_shutdown_never_returns_witness :
    Sys.run (Sys.init Variant.internal 2
      [NewTask "a" Callback.returns, NewTask "b" Callback.returns])
      [Act.submit 0 1, Act.submit 1 2, Act.worker 0, Act.worker 0,
       Act.shutdown, Act.shutdown, Act.shutdown] = some shutdownWaiting ∧
    (shutdownWaiting.shutdown ≠ ShutdownPc.returned ∧
    (shutdownWaiting.shutdown = ShutdownPc.relocking →
      shutdownWaiting.mu = true ∧ Sys.step shutdownWaiting Act.shutdown = none)) :=
  ⟨by decide,
   C12_shutdown_never_returns Variant.internal 2
     [NewTask "a" Callback.returns, NewTask "b" Callback.returns]
     [Act.submit 0 1, Act.submit 1 2, Act.worker 0, Act.worker 0,
      Act.shutdown, Act.shutdown, Act.shutdown] shutdownWaiting (by decide)⟩

theorem countP_set_eq {α : Type} (p : α → Bool) : ∀ (l : List α) (i : Nat) (a b : α),
    l[i]? = some b →
    (l.set i a).countP p + (if p b = true then 1 else 0) =
      l.countP p + (if p a = true then 1 else 0) := by
  intro l
  induction l with
  | nil => intro i a b h; simp at h
  | cons x xs ih =>
    intro i a b h
    cases i with
    | zero =>
      simp only [List.getElem?_cons_zero, Option.some.injEq] at h
      subst h
      simp only [List.set_cons_zero, List.countP_cons]
      omega
    | succ i =>
      simp only [List.getElem?_cons_succ] at h
      have := ih i a b h
      simp only [List.set_cons_succ, List.countP_cons]
      omega

theorem countP_set_same {α : Type} (p : α → Bool) (l : List α) (i : Nat) (a b : α)
    (h : l[i]? = some b) (hp : p a = p b) : (l.set i a).countP p = l.countP p := by
  have := countP_set_eq p l i a b h
  rw [hp] at this
  omega

theorem countP_set_le {α : Type} (p : α → Bool) (l : List α) (i : Nat) (a b : α)
    (h : l[i]? = some b) (hp : p a = true → p b = true) :
    (l.set i a).countP p ≤ l.countP p := by
  have := countP_set_eq p l i a b h
  by_cases ha : p a = true
  · rw [if_pos ha, if_pos (hp ha)] at this; omega
  · rw [if_neg ha] at this; omega

theorem countP_set_ge {α : Type} (p : α → Bool) (l : List α) (i : Nat) (a b : α)
    (h : l[i]? = some b) (hp : p b = true → p a = true) :
    l.countP p ≤ (l.set i a).countP p := by
  have := countP_set_eq p l i a b h
  by_cases hb : p b = true
  · rw [if_pos hb, if_pos (hp hb)] at this; omega
  · rw [if_neg hb] at this
    by_cases ha : p a = true
    · rw [if_pos ha] at this; omega
    · rw [if_neg ha] at this; omega

theorem countP_set_succ {α : Type} (p : α → Bool) (l : List α) (i : Nat) (a b : α)
    (h : l[i]? = some b) (hb : p b = false) (ha : p a = true) :
    (l.set i a).countP p = l.countP p + 1 := by
  have := countP_set_eq p l i a b h
  rw [if_pos ha, if_neg (by rw [hb]; decide)] at this
  omega

theorem countP_set_le_succ {α : Type} (p : α → Bool) (l : List α) (i : Nat) (a b : α)
    (h : l[i]? = some b) : (l.set i a).countP p ≤ l.countP p + 1 := by
  have := countP_set_eq p l i a b h
  by_cases ha : p a = true
  · rw [if_pos ha] at this; omega
  · rw [if_neg ha] at this; omega

theorem Submit_tasks (w w1 : World) (t : Nat) (priority : Int)
    (h : Submit w t priority = some w1) : w1.tasks = w.tasks := by
  unfold Submit at h
  split at h
  · exact Option.noConfusion h
  · have := Option.some.inj h
    subst this
    rfl

/-- The method `Cancel` changes the tasks at most by a call of `Task.Cancel`
on one of them, and leaves the record of claimed entries as it is. -/
theorem Cancel_tasks (w w1 : World) (taskID : String) (h : Cancel w taskID = some w1) :
    w1.claimed = w.claimed ∧
    (w1.tasks = w.tasks ∨ ∃ t tk, w.tasks[t]? = some tk ∧ w1.tasks = w.tasks.set t tk.Cancel) := by
  unfold Cancel at h
  split at h
  · have := Option.some.inj h
    subst this
    exact ⟨rfl, Or.inl rfl⟩
  · split at h
    · exact Option.noConfusion h
    · split at h
      · exact Option.noConfusion h
      · split at h
        · exact Option.noConfusion h
        · rename_i e _ _ _ _ tk hk
          have := Option.some.inj h
          subst this
          exact ⟨rfl, Or.inr ⟨_, tk, hk, rfl⟩⟩

theorem dequeue_some (w w1 : World) (h : dequeue w = some w1) :
    w1.tasks = w.tasks ∧ ∃ pt, w1.claimed = w.claimed ++ [pt] := by
  unfold dequeue at h
  split at h
  · exact Option.noConfusion h
  · split at h
    · exact Option.noConfusion h
    · split at h
      · exact Option.noConfusion h
      · split at h
        · exact Option.noConfusion h
        · have := Option.some.inj h
          subst this
          exact ⟨rfl, _, rfl⟩

theorem Task.Cancel_completed (tk : Task) (h : tk.Cancel.state = TaskState.Completed) :
    tk.state = TaskState.Completed := by
  unfold Task.Cancel at h
  split at h
  · simp at h
  · exact h

theorem Task.executeBegin_not_completed (tk : Task) :
    (tk.executeBegin).1.state ≠ TaskState.Completed := by
  unfold Task.executeBegin
  split <;> simp

/-- Calls of `Task.Cancel` do not make a task `Completed`. -/
theorem countP_cancel_set (ts : List Task) (t : Nat) :
    (ts.set t (ts.getD t default).Cancel).countP (fun tk => decide (tk.state = TaskState.Completed))
      ≤ ts.countP (fun tk => decide (tk.state = TaskState.Completed)) := by
  by_cases ht : t < ts.length
  · apply countP_set_le _ _ _ _ (ts.getD t default) (getElem?_eq_some_getD _ _ _ ht)
    intro h
    simp only [decide_eq_true_eq] at h ⊢
    exact Task.Cancel_completed _ h
  · rw [List.set_eq_of_length_le (by omega)]

theorem cancelAll_count (w : World) (bs : List (String × Nat)) : ∀ (ts : List Task),
    (bs.foldl (fun ts b => ts.set (entryOf w b.2).1 (ts.getD (entryOf w b.2).1 default).Cancel)
      ts).countP (fun tk => decide (tk.state = TaskState.Completed))
      ≤ ts.countP (fun tk => decide (tk.state = TaskState.Completed)) := by
  induction bs with
  | nil => intro ts; exact le_refl _
  | cons b bs ih =>
    intro ts
    simp only [List.foldl_cons]
    exact le_trans (ih _) (countP_cancel_set ts _)

theorem WorkInv_init (v : Variant) (n : Nat) (tasks : List Task)
    (hnone : ∀ tk, tk ∈ tasks → tk.state ≠ TaskState.Completed) :
    WorkInv (Sys.init v n tasks) := by
  refine ⟨?_, ?_, ?_⟩
  · intro wk hwk
    simp only [Sys.init] at hwk
    rw [(List.mem_replicate.1 hwk).2]
    cases v <;> rfl
  · simp only [Sys.init, NewWorkpool, List.length_nil]
    symm
    rw [List.countP_eq_zero]
    intro wk hwk
    rw [(List.mem_replicate.1 hwk).2]
    simp
  · have : completedCount (Sys.init v n tasks) = 0 := by
      unfold completedCount
      rw [List.countP_eq_zero]
      intro tk htk
      simp only [decide_eq_true_eq]
      exact hnone tk htk
    rw [this]
    exact Nat.zero_le _

theorem mem_of_getElem?_some {α : Type} (l : List α) (i : Nat) (a : α) (h : l[i]? = some a) :
    a ∈ l := by
  rw [List.getElem?_eq_some] at h
  obtain ⟨hi, e⟩ := h
  rw [← e]; exact List.getElem_mem _

theorem valid_set (s : Sys) (i : Nat) (wk1 : Worker)
    (hv : ∀ wk, wk ∈ s.workers → validTodo s.variant wk.todo = true)
    (h1 : validTodo s.variant wk1.todo = true) :
    ∀ wk, wk ∈ s.workers.set i wk1 → validTodo s.variant wk.todo = true := by
  intro wk hwk
  rcases List.mem_or_eq_of_mem_set hwk with h | h
  · exact hv wk h
  · rw [h]; exact h1

/-- A step of a worker preserves `WorkInv`. -/
theorem WorkInv_worker (s s1 : Sys) (i : Nat) (hi : WorkInv s)
    (h : workerStep s i = some s1) : WorkInv s1 := by
  obtain ⟨hv, hc, hd⟩ := hi
  obtain ⟨wk, hw, hcase⟩ := workerStep_cases s s1 i h
  have hwm : wk ∈ s.workers := mem_of_getElem?_some _ _ _ hw
  have hvw := hv wk hwm
  unfold completedCount at hd
  rcases hcase with ⟨ht, _, w1, pt, hdq, _, e⟩ | ⟨rest, ht, e⟩ | ⟨rest, tk, ht, hk, e⟩ |
    ⟨rest, tk, ht, hk, e⟩ | ⟨rest, ht, e⟩ | ⟨rest, ht, e⟩
  · obtain ⟨d1, pt1, d2⟩ := dequeue_some _ _ hdq
    subst e
    refine ⟨valid_set s i _ hv (by cases s.variant <;> rfl), ?_, ?_⟩
    · show w1.claimed.length = _
      rw [d2, List.length_append, List.length_singleton, hc]
      symm
      apply countP_set_succ _ _ _ _ wk hw
      · simp [ht]
      · cases s.variant <;> rfl
    · show w1.tasks.countP _ ≤ _
      rw [d1]
      refine le_trans hd (le_of_eq ?_)
      symm
      apply countP_set_same _ _ _ _ wk hw
      rw [ht]
      cases s.variant <;> rfl
  · subst e
    rw [ht] at hvw
    have hr : rest = [Instr.send, Instr.execute, Instr.finish, Instr.notify, Instr.decr] ∨
        rest = [Instr.execute, Instr.finish, Instr.notify, Instr.send, Instr.decr] := by
      cases hvar : s.variant <;> rw [hvar] at hvw <;> simp [validTodo] at hvw
      · exact Or.inl hvw
      · exact Or.inr hvw
    have hvr : validTodo s.variant rest = true := by
      cases hvar : s.variant <;> rw [hvar] at hvw <;> simp [validTodo] at hvw <;>
        subst hvw <;> rfl
    refine ⟨valid_set s i _ hv hvr, ?_, ?_⟩
    · show s.w.claimed.length = _
      rw [hc]
      symm
      apply countP_set_same _ _ _ _ wk hw
      rcases hr with hr | hr <;> simp [ht, hr]
    · show s.w.tasks.countP _ ≤ _
      refine le_trans hd (le_of_eq ?_)
      symm
      apply countP_set_same _ _ _ _ wk hw
      rcases hr with hr | hr <;> simp [ht, hr, pastExecute]
  · subst e
    rw [ht] at hvw
    have hr : s.variant = Variant.pkg ∧
        rest = [Instr.finish, Instr.notify, Instr.send, Instr.decr] := by
      cases hvar : s.variant <;> rw [hvar] at hvw <;> simp [validTodo] at hvw
      exact ⟨rfl, hvw⟩
    obtain ⟨hvar, hr⟩ := hr
    subst hr
    refine ⟨valid_set s i _ hv ?_, ?_, ?_⟩
    · rw [hvar]
      show validTodo Variant.pkg (if (tk.executeBegin).2 = true then _ else _) = true
      split <;> rfl
    · show s.w.claimed.length = _
      rw [hc]
      symm
      apply countP_set_same _ _ _ _ wk hw
      by_cases hg : (tk.executeBegin).2 = true <;> simp [hg, ht]
    · show (s.w.tasks.set _ _).countP _ ≤ _
      refine le_trans (countP_set_le _ _ _ _ tk hk ?_) (le_trans hd ?_)
      · intro hx
        simp only [decide_eq_true_eq] at hx
        exact absurd hx (Task.executeBegin_not_completed tk)
      · apply countP_set_ge _ _ _ _ wk hw
        intro hx
        rw [ht] at hx
        exact absurd hx (by decide)
  · subst e
    rw [ht] at hvw
    have hr : s.variant = Variant.pkg ∧ rest = [Instr.notify, Instr.send, Instr.decr] := by
      cases hvar : s.variant <;> rw [hvar] at hvw <;> simp [validTodo] at hvw
      exact ⟨rfl, hvw⟩
    obtain ⟨hvar, hr⟩ := hr
    subst hr
    refine ⟨valid_set s i _ hv (by rw [hvar]; rfl), ?_, ?_⟩
    · show s.w.claimed.length = _
      rw [hc]
      symm
      apply countP_set_same _ _ _ _ wk hw
      rw [ht]; rfl
    · show (s.w.tasks.set _ _).countP _ ≤ _
      refine le_trans (countP_set_le_succ _ _ _ _ tk hk) ?_
      have := countP_set_succ (fun wk : Worker => pastExecute wk.todo) s.workers i
        { wk with todo := [Instr.notify, Instr.send, Instr.decr] } wk hw
        (by show pastExecute wk.todo = false; rw [ht]; rfl) rfl
      rw [this]
      omega
  · subst e
    rw [ht] at hvw
    have hr : s.variant = Variant.pkg ∧ rest = [Instr.send, Instr.decr] := by
      cases hvar : s.variant <;> rw [hvar] at hvw <;> simp [validTodo] at hvw
      exact ⟨rfl, hvw⟩
    obtain ⟨hvar, hr⟩ := hr
    subst hr
    refine ⟨valid_set s i _ hv (by rw [hvar]; rfl), ?_, ?_⟩
    · show s.w.claimed.length = _
      rw [hc]
      symm
      apply countP_set_same _ _ _ _ wk hw
      rw [ht]; rfl
    · show s.w.tasks.countP _ ≤ _
      refine le_trans hd (le_of_eq ?_)
      symm
      apply countP_set_same _ _ _ _ wk hw
      rw [ht]; rfl
  · rw [ht] at hvw
    cases hvar : s.variant <;> rw [hvar] at hvw <;> simp [validTodo] at hvw

/-- A step of the goroutine of `Shutdown` leaves the workers and the record of
claimed entries as they are and makes no task `Completed`. -/
theorem shutdownStep_work (s s1 : Sys) (hm : MutexInv s) (h : shutdownStep s = some s1) :
    s1.workers = s.workers ∧ s1.variant = s.variant ∧ s1.w.claimed = s.w.claimed ∧
    completedCount s1 ≤ completedCount s := by
  obtain ⟨h1, h2, h3, h4⟩ := hm
  unfold shutdownStep at h
  cases hp : s.shutdown with
  | notCalled =>
    rw [hp] at h
    simp only [Option.some.injEq] at h
    subst h; exact ⟨rfl, rfl, rfl, le_refl _⟩
  | locking =>
    rw [hp] at h
    simp only at h
    split at h
    · exact Option.noConfusion h
    · simp only [Option.some.injEq] at h
      subst h; exact ⟨rfl, rfl, rfl, le_refl _⟩
  | checking =>
    rw [hp] at h
    simp only at h
    split at h
    · simp only [Option.some.injEq] at h
      subst h; exact ⟨rfl, rfl, rfl, le_refl _⟩
    · simp only [Option.some.injEq] at h
      subst h; exact ⟨rfl, rfl, rfl, le_refl _⟩
  | waiting =>
    rw [hp] at h
    simp only at h
    split at h
    · exact Option.noConfusion h
    · simp only [Option.some.injEq] at h
      subst h; exact ⟨rfl, rfl, rfl, le_refl _⟩
  | cancelling =>
    rw [hp] at h
    simp only at h
    split at h
    · simp only [Option.some.injEq] at h
      subst h
      exact ⟨rfl, rfl, rfl, cancelAll_count s.w s.w.taskMap s.w.tasks⟩
    · split at h
      · simp only [Option.some.injEq] at h
        subst h; exact ⟨rfl, rfl, rfl, le_refl _⟩
      · simp only [Option.some.injEq] at h
        subst h; exact ⟨rfl, rfl, rfl, le_refl _⟩
  | cancelLocking =>
    rw [hp] at h
    have hmu := h1 (by rw [hp]; rfl)
    simp only [hmu, if_true] at h
    exact Option.noConfusion h
  | closing =>
    rw [hp] at h
    simp only [Option.some.injEq] at h
    subst h; exact ⟨rfl, rfl, rfl, le_refl _⟩
  | relocking =>
    rw [hp] at h
    have hmu := h1 (by rw [hp]; rfl)
    simp only [hmu, if_true] at h
    exact Option.noConfusion h
  | purging => exact absurd hp h2
  | unlocking => exact absurd hp h3
  | returned => exact absurd hp h4

/-- Every step preserves `WorkInv`. -/
theorem WorkInv_step (s s1 : Sys) (a : Act) (hm : MutexInv s) (hi : WorkInv s)
    (h : Sys.step s a = some s1) : WorkInv s1 := by
  cases a with
  | worker i => exact WorkInv_worker s s1 i hi h
  | shutdown =>
    obtain ⟨e1, e2, e3, e4⟩ := shutdownStep_work s s1 hm h
    obtain ⟨hv, hc, hd⟩ := hi
    unfold WorkInv
    rw [e1, e2, e3]
    exact ⟨hv, hc, le_trans e4 hd⟩
  | newTask id action =>
    simp only [Sys.step, Option.some.injEq] at h
    subst h
    obtain ⟨hv, hc, hd⟩ := hi
    refine ⟨hv, hc, ?_⟩
    unfold completedCount at hd ⊢
    show (s.w.tasks ++ [NewTask id action]).countP _ ≤ _
    rw [List.countP_append]
    simpa [NewTask] using hd
  | submit t priority =>
    simp only [Sys.step] at h
    split at h
    · exact Option.noConfusion h
    · split at h
      · exact Option.noConfusion h
      · rename_i w1 hs
        simp only [Option.some.injEq] at h
        subst h
        obtain ⟨hv, hc, hd⟩ := hi
        refine ⟨hv, ?_, ?_⟩
        · show w1.claimed.length = _
          rw [(Submit_queue _ _ _ _ hs).2]; exact hc
        · unfold completedCount at hd ⊢
          show w1.tasks.countP _ ≤ _
          rw [Submit_tasks _ _ _ _ hs]; exact hd
  | cancel taskID =>
    simp only [Sys.step] at h
    split at h
    · exact Option.noConfusion h
    · split at h
      · exact Option.noConfusion h
      · rename_i w1 hs
        simp only [Option.some.injEq] at h
        subst h
        obtain ⟨hv, hc, hd⟩ := hi
        obtain ⟨c1, c2⟩ := Cancel_tasks _ _ _ hs
        refine ⟨hv, ?_, ?_⟩
        · show w1.claimed.length = _
          rw [c1]; exact hc
        · unfold completedCount at hd ⊢
          show w1.tasks.countP _ ≤ _
          rcases c2 with c2 | ⟨t, tk, hk, c2⟩
          · rw [c2]; exact hd
          · rw [c2]
            refine le_trans (countP_set_le _ _ _ _ tk hk ?_) hd
            intro hx
            simp only [decide_eq_true_eq] at hx ⊢
            exact Task.Cancel_completed _ hx

theorem Sys.step_workers_length (s s1 : Sys) (a : Act) (h : Sys.step s a = some s1) :
    s1.workers.length = s.workers.length ∧ s1.variant = s.variant := by
  by_cases ha : a = Act.shutdown
  · subst ha
    simp only [Sys.step, shutdownStep] at h
    cases hp : s.shutdown <;> rw [hp] at h <;> simp only at h
    · simp only [Option.some.injEq] at h; subst h; exact ⟨rfl, rfl⟩
    · split at h
      · exact Option.noConfusion h
      · simp only [Option.some.injEq] at h; subst h; exact ⟨rfl, rfl⟩
    · split at h <;> simp only [Option.some.injEq] at h <;> subst h <;> exact ⟨rfl, rfl⟩
    · split at h
      · exact Option.noConfusion h
      · simp only [Option.some.injEq] at h; subst h; exact ⟨rfl, rfl⟩
    · split at h
      · simp only [Option.some.injEq] at h; subst h; exact ⟨rfl, rfl⟩
      · split at h <;> simp only [Option.some.injEq] at h <;> subst h <;> exact ⟨rfl, rfl⟩
    · split at h
      · exact Option.noConfusion h
      · split at h
        · exact Option.noConfusion h
        · split at h
          · exact Option.noConfusion h
          · simp only [Option.some.injEq] at h; subst h; exact ⟨rfl, rfl⟩
    · simp only [Option.some.injEq] at h; subst h; exact ⟨rfl, rfl⟩
    · split at h
      · exact Option.noConfusion h
      · simp only [Option.some.injEq] at h; subst h; exact ⟨rfl, rfl⟩
    · split at h
      · exact Option.noConfusion h
      · simp only [Option.some.injEq] at h; subst h; exact ⟨rfl, rfl⟩
    · split at h
      · simp only [Option.some.injEq] at h; subst h; exact ⟨rfl, rfl⟩
      · exact Option.noConfusion h
    · exact Option.noConfusion h
  · cases a with
    | shutdown => exact absurd rfl ha
    | worker i =>
      simp only [Sys.step] at h
      obtain ⟨wk, _, hc⟩ := workerStep_cases s s1 i h
      rcases hc with ⟨_, _, w1, pt, _, _, e⟩ | ⟨rest, _, e⟩ | ⟨rest, tk, _, _, e⟩ |
        ⟨rest, tk, _, _, e⟩ | ⟨rest, _, e⟩ | ⟨rest, _, e⟩ <;> subst e <;>
        exact ⟨by simp, rfl⟩
    | newTask id action =>
      simp only [Sys.step, Option.some.injEq] at h
      subst h; exact ⟨rfl, rfl⟩
    | submit t priority =>
      simp only [Sys.step] at h
      split at h
      · exact Option.noConfusion h
      · split at h
        · exact Option.noConfusion h
        · simp only [Option.some.injEq] at h
          subst h; exact ⟨rfl, rfl⟩
    | cancel taskID =>
      simp only [Sys.step] at h
      split at h
      · exact Option.noConfusion h
      · split at h
        · exact Option.noConfusion h
        · simp only [Option.some.injEq] at h
          subst h; exact ⟨rfl, rfl⟩

theorem WorkInv_run (acts : List Act) : ∀ (s s1 : Sys), MutexInv s → WorkInv s →
    Sys.run s acts = some s1 →
    WorkInv s1 ∧ s1.workers.length = s.workers.length ∧ s1.variant = s.variant := by
  induction acts with
  | nil =>
    intro s s1 _ hi h
    simp only [Sys.run] at h
    rw [← Option.some.inj h]; exact ⟨hi, rfl, rfl⟩
  | cons a as ih =>
    intro s s1 hm hi h
    simp only [Sys.run] at h
    cases hs : Sys.step s a with
    | none => rw [hs] at h; exact Option.noConfusion h
    | some s2 =>
      rw [hs] at h
      obtain ⟨a1, a2, a3⟩ := ih s2 s1 (MutexInv_step s s2 a hm hs) (WorkInv_step s s2 a hm hi hs) h
      obtain ⟨b1, b2⟩ := Sys.step_workers_length s s2 a hs
      exact ⟨a1, a2.trans b1, a3.trans b2⟩

/-- C11, on the code: along every run of the program from
`NewWorkpool(workerCount)` with no task `Completed` at the start, a worker that
has left the top of its loop never comes back to it: the entries handed to
workers are at most `workerCount`, and so are the `Completed` tasks; in the
`internal` copy, where the send comes before `Execute`, no task is ever
`Completed`.  A worker standing at the send has no step. -/
theorem C11_worker_blocks_at_send (v : Variant) (workerCount : Nat) (tasks : List Task)
    (acts : List Act) (s : Sys)
    (hnone : ∀ tk, tk ∈ tasks → tk.state ≠ TaskState.Completed)
    (hrun : Sys.run (Sys.init v workerCount tasks) acts = some s) :
    s.w.claimed.length ≤ workerCount ∧ completedCount s ≤ workerCount ∧
    (v = Variant.internal → completedCount s = 0) ∧
    (∀ i wk rest, s.workers[i]? = some wk → wk.todo = Instr.send :: rest →
      Sys.step s (Act.worker i) = none) := by
  obtain ⟨⟨hv, hc, hd⟩, hl, hvar⟩ := WorkInv_run acts _ _ (MutexInv_init v workerCount tasks)
    (WorkInv_init v workerCount tasks hnone) hrun
  have hlen : s.workers.length = workerCount := by
    rw [hl]; simp [Sys.init]
  have hvar' : s.variant = v := hvar
  refine ⟨?_, ?_, ?_, ?_⟩
  · rw [hc, ← hlen]; exact List.countP_le_length _
  · refine le_trans hd ?_
    rw [← hlen]; exact List.countP_le_length _
  · intro hint
    have : s.workers.countP (fun wk => pastExecute wk.todo) = 0 := by
      rw [List.countP_eq_zero]
      intro wk hwk
      have := hv wk hwk
      rw [hvar', hint] at this
      simp only [validTodo, Bool.or_eq_true, beq_iff_eq] at this
      rcases this with (h | h) | h <;> rw [h] <;> decide
    omega
  · intro i wk rest hw ht
    simp only [Sys.step, workerStep, hw, ht]

theorem C11_worker_blocks_at_send_witness :
    (∀ tk, tk ∈
      [NewTask "a" Callback.returns,
       NewTask "b" Callback.returns] → tk.state ≠ TaskState.Completed) ∧
    Sys.run (Sys.init Variant.pkg 1 [NewTask "a" Callback.returns, NewTask "b" Callback.returns])
      [Act.submit 0 1, Act.submit 1 2, Act.worker 0, Act.worker 0, Act.worker 0,
       Act.worker 0, Act.worker 0] = some workerAtSend ∧
    (workerAtSend.w.claimed.length ≤ 1 ∧ completedCount workerAtSend ≤ 1 ∧
    (Variant.pkg = Variant.internal → completedCount workerAtSend = 0) ∧
    (∀ i wk rest, workerAtSend.workers[i]? = some wk → wk.todo = Instr.send :: rest →
      Sys.step workerAtSend (Act.worker i) = none)) :=
  ⟨by decide, by decide,
   C11_worker_blocks_at_send Variant.pkg 1
     [NewTask "a" Callback.returns, NewTask "b" Callback.returns]
     [Act.submit 0 1, Act.submit 1 2, Act.worker 0, Act.worker 0, Act.worker 0,
      Act.worker 0, Act.worker 0] workerAtSend (by decide) (by decide)⟩

/-! ## A pool with a single worker -/

/-- C1, on the code: along every run of the program from `NewWorkpool(1)` with
no task `Completed` at the start, whatever is submitted, the single worker
makes at most one dequeue: between `heap.Pop` and the end of the iteration it
reaches `taskChan <- pt.task`, where it has no step.  So the entries handed to
the worker are never more than one; when two or more tasks have been submitted
they are never the submitted entries, each once; and once an entry has been
handed over no step of a worker is a dequeue. -/
theorem C1_single_worker_dequeues_once (v : Variant) (tasks : List Task) (acts : List Act)
    (s : Sys) (hnone : ∀ tk, tk ∈ tasks → tk.state ≠ TaskState.Completed)
    (hrun : Sys.run (Sys.init v 1 tasks) acts = some s) :
    s.w.claimed.length ≤ 1 ∧
    (∀ subs : List (Nat × Int), 2 ≤ subs.length →
      ¬ (s.w.claimed.map (entryOf s.w)).Perm subs) ∧
    (s.w.claimed ≠ [] → ∀ i s1, Sys.step s (Act.worker i) = some s1 →
      s1.w.claimed = s.w.claimed) := by
  obtain ⟨⟨_, hc, _⟩, hl, _⟩ := WorkInv_run acts _ _ (MutexInv_init v 1 tasks)
    (WorkInv_init v 1 tasks hnone) hrun
  have hlen : s.workers.length = 1 := by
    rw [hl]; simp [Sys.init]
  have hle : s.w.claimed.length ≤ 1 := by
    rw [hc, ← hlen]; exact List.countP_le_length _
  refine ⟨hle, ?_, ?_⟩
  · intro subs h2 hp
    have := hp.length_eq
    rw [List.length_map] at this
    omega
  · intro hne i s1 hstep
    simp only [Sys.step] at hstep
    obtain ⟨wk, hw, hcases⟩ := workerStep_cases s s1 i hstep
    rcases hcases with ⟨ht, _, _⟩ | ⟨rest, _, e⟩ | ⟨rest, tk, _, _, e⟩ |
      ⟨rest, tk, _, _, e⟩ | ⟨rest, _, e⟩ | ⟨rest, _, e⟩
    · exfalso
      obtain ⟨wk0, hws⟩ : ∃ wk0, s.workers = [wk0] := by
        cases hws : s.workers with
        | nil => rw [hws] at hlen; simp at hlen
        | cons a l =>
          cases l with
          | nil => exact ⟨a, rfl⟩
          | cons b l => rw [hws] at hlen; simp at hlen
      rw [hws] at hw hc
      have hi : wk = wk0 := by
        cases i with
        | zero => simpa using hw.symm
        | succ n => simp at hw
      subst hi
      exact hne (by simpa [ht] using hc)
    all_goals subst e; rfl

theorem C1_single_worker_dequeues_once_witness :
    (∀ tk, tk ∈ [NewTask "a" Callback.returns, NewTask "b" Callback.returns] →
      tk.state ≠ TaskState.Completed) ∧
    Sys.run
      (Sys.init Variant.internal 1 [NewTask "a" Callback.returns, NewTask "b" Callback.returns])
      [Act.submit 0 1, Act.submit 1 2, Act.worker 0, Act.worker 0] = some workerAfterDequeue ∧
    Sys.step workerAfterDequeue (Act.worker 0) = none ∧
    (workerAfterDequeue.w.claimed.length ≤ 1 ∧
    (∀ subs : List (Nat × Int), 2 ≤ subs.length →
      ¬ (workerAfterDequeue.w.claimed.map (entryOf workerAfterDequeue.w)).Perm subs) ∧
    (workerAfterDequeue.w.claimed ≠ [] →
      ∀ i s1, Sys.step workerAfterDequeue (Act.worker i) = some s1 →
        s1.w.claimed = workerAfterDequeue.w.claimed)) :=
  ⟨by decide, by decide, by decide,
   C1_single_worker_dequeues_once Variant.internal
     [NewTask "a" Callback.returns, NewTask "b" Callback.returns]
     [Act.submit 0 1, Act.submit 1 2, Act.worker 0, Act.worker 0] workerAfterDequeue
     (by decide) (by decide)⟩

end workpool
